import Mathlib

/-!
# Row materialisation of `query.go`

A shallow embedding of `src/query.go` (package `mysql`): the error kinds and
`IsThisCode`, the field path resolver `getFieldList`, the column lookup
`getAddressIndex`, the binder `getRowIndex`, and the three cursor drivers
`rowsModel`, `rowsModelWithFunc`, `rowsModelWithModelFunc` together with their
`DbQuery*` entry points.

Conventions of the embedding.

* `reflect.Type` is the finite tree `GoType`; a struct carries, for every field,
  the `reflect.StructField` data the source reads (`Name`, the `json` tag value,
  `Anonymous`, exportedness) and the field type.  Types that mention themselves
  through a pointer are not finite trees and are outside the embedding.
* Memory is a tree of `GoVal`: a non-nil pointer is `ref w`, with `w` the content
  of the storage pointed to.  Storage reached from one destination is owned by it.
* A Go panic is an explicit outcome (`Res.panic`, or `none` for the binder).
* `database/sql` and the driver are outside the repository: `Rows.Scan` follows
  the documented contract of `database/sql` (arity check, then column by column,
  stopping at the first failure), and the value conversion is the parameter
  `Driver`.
-/

namespace Mysql

/-! ## Errors (lines 16-61) -/

/-- The type `myErrCode` is an `int`. -/
abbrev myErrCode := Int

/-- The constant `NoErr`. -/
def NoErr : myErrCode := 0
/-- The constant `NoOnceRowsDate`: a single-row query fetched no row. -/
def NoOnceRowsDate : myErrCode := 1
/-- The constant `NeedSlice`: a slice was required. -/
def NeedSlice : myErrCode := 2
/-- The constant `SliceFuncErr`: the per-row callback failed. -/
def SliceFuncErr : myErrCode := 3

/-- Values of the Go interface type `error`.  `nil` is the nil interface, `plain`
any error whose dynamic type is not `*myDbError` (`errors.New`, errors of the
query executor, of the cursor, of a callback), `nilMyDbError` the nil pointer of
type `*myDbError` stored in an interface, and `myDbError err code` a pointer to
`myDbError{err, code}`. -/
inductive GoError where
  | nil
  | plain (msg : String)
  | nilMyDbError
  | myDbError (err : GoError) (code : myErrCode)
  deriving DecidableEq, Repr

/-- Method `(*myDbError).Error`. -/
def GoError.Error : GoError → String
  | .nil => ""
  | .plain msg => msg
  | .nilMyDbError => ""
  | .myDbError err _ => err.Error

/-- Method `(*myDbError).Code`, on the receivers of dynamic type `*myDbError`
(`none` for the other values, which have no such method). -/
def GoError.Code : GoError → Option myErrCode
  | .myDbError _ code => some code
  | .nilMyDbError => some NoErr
  | _ => none

/-- Function `IsThisCode`: the type assertion to `iMyDbError` succeeds exactly on
the dynamic type `*myDbError`, then `m != nil && m.code == code`. -/
def IsThisCode (err : GoError) (code : myErrCode) : Bool :=
  match err with
  | .myDbError _ c => c == code
  | .nilMyDbError => false
  | _ => false

/-! ## Types and values seen through `reflect` -/

/-- The part of `reflect.StructField` the source reads: `Name`, `Tag.Get("json")`,
`Anonymous`, and whether the field is exported (`PkgPath == ""`), which decides
whether `reflect` lets the field be set and its address be put in an interface. -/
structure StructField where
  Name : String
  Tag : String
  Anonymous : Bool
  Exported : Bool
  deriving DecidableEq, Repr

/-- A `reflect.Type`.  `basic` stands for every kind other than pointer, slice and
struct.  The flag `scanner` says whether the pointer to the type implements
`sql.Scanner`. -/
inductive GoType where
  | basic (name : String) (scanner : Bool)
  | ptr (elem : GoType)
  | slice (elem : GoType) (scanner : Bool)
  | struct (name : String) (scanner : Bool) (fields : List (StructField × GoType))
  deriving Repr

/-- The kinds of `reflect.Kind` the source distinguishes. -/
inductive Kind where
  | Ptr
  | Slice
  | Struct
  | Other
  deriving DecidableEq, Repr

/-- Method `Type.Kind`. -/
def GoType.Kind : GoType → Kind
  | .basic _ _ => .Other
  | .ptr _ => .Ptr
  | .slice _ _ => .Slice
  | .struct _ _ _ => .Struct

/-- Method `Type.Name`: the declared name, empty for pointer and slice types. -/
def GoType.Name : GoType → String
  | .basic n _ => n
  | .struct n _ _ => n
  | _ => ""

/-- Whether a pointer to a value of this type satisfies `sql.Scanner`. -/
def GoType.scanner : GoType → Bool
  | .basic _ s => s
  | .slice _ s => s
  | .struct _ s _ => s
  | .ptr _ => false

/-- Whether an interface value of this dynamic type satisfies `sql.Scanner`
(the assertion `d.(sql.Scanner)`): a pointer to a type with a `Scan` method. -/
def GoType.isScanner : GoType → Bool
  | .ptr e => e.scanner
  | _ => false

/-- A non-NULL value handed over by the driver. -/
inductive Datum where
  | int (n : Int)
  | str (s : String)
  deriving DecidableEq, Repr

/-- One column of one row: `none` is the engine NULL. -/
abbrev Cell := Option Datum

/-- A Go value.  `zero` is the zero value of a `basic` type, `data d` a `basic`
value holding what a scan stored, `nil` the nil pointer, `ref w` a non-nil pointer
whose pointee currently holds `w`. -/
inductive GoVal where
  | zero
  | data (d : Datum)
  | nil
  | ref (pointee : GoVal)
  | struct (fields : List GoVal)
  | slice (elems : List GoVal)
  deriving Repr

mutual
/-- The zero value of a type, as `reflect.New(t).Elem()` holds it. -/
def zeroValue : GoType → GoVal
  | .basic _ _ => .zero
  | .ptr _ => .nil
  | .slice _ _ => .slice []
  | .struct _ _ fields => .struct (zeroFields fields)
/-- The zero values of the fields of a struct, in declaration order. -/
def zeroFields : List (StructField × GoType) → List GoVal
  | [] => []
  | (_, ty) :: rest => zeroValue ty :: zeroFields rest
end

/-- The conversions the driver contract supplies, which are not part of the
repository: `convertAssign t d` converts the non-NULL datum `d` for storage of
type `t` (`none` when the types are incompatible), and `Scan t c` is the `Scan`
method of a type `t` whose pointer implements `sql.Scanner`. -/
structure Driver where
  convertAssign : GoType → Datum → Option GoVal
  Scan : GoType → Cell → Option GoVal

/-! ## Field path resolver (lines 321-361) -/

/-- The Go map `map[string][]int`, kept as a list of entries with distinct keys. -/
abbrev MapIndex := List (String × List Nat)

/-- The assignment `mapIndex[k] = v`: any entry under `k` is replaced. -/
def MapIndex.set (m : MapIndex) (k : String) (v : List Nat) : MapIndex :=
  m.filter (fun e => e.1 != k) ++ [(k, v)]

/-- The lookup `v, ok := mapIndex[k]`. -/
def MapIndex.get (m : MapIndex) (k : String) : Option (List Nat) :=
  (m.find? (fun e => e.1 == k)).map (fun e => e.2)

/-- Function `strings.Split(s, sep)` for a one-character separator, on the
characters of the string. -/
def stringsSplit (sep : Char) : List Char → List (List Char)
  | [] => [[]]
  | c :: cs =>
    if c = sep then [] :: stringsSplit sep cs
    else
      match stringsSplit sep cs with
      | [] => [[c]]
      | seg :: segs => (c :: seg) :: segs

/-- Lines 349-352: `column := strings.Split(tf.Tag.Get("json"), ",")[0]`, replaced
by `tf.Name` when empty. -/
def columnOf (tf : StructField) : String :=
  let column := String.mk ((stringsSplit ',' tf.Tag.data).headD [])
  if column = "" then tf.Name else column

mutual
/-- The closure `f` of `getFieldList` (lines 324-358); the map it writes to is
passed in and returned. -/
def getFieldList.f (dest : GoType) (l : List Nat) (mapIndex : MapIndex) : MapIndex :=
  match dest with
  | .ptr e => getFieldList.f e l mapIndex
  | .struct _ _ fields => getFieldList.loop fields 0 l mapIndex
  | _ => mapIndex
/-- The loop over the fields `n, n+1, ...` of a struct (lines 330-356). -/
def getFieldList.loop (fields : List (StructField × GoType)) (n : Nat) (l : List Nat)
    (mapIndex : MapIndex) : MapIndex :=
  match fields with
  | [] => mapIndex
  | (tf, ty) :: rest =>
    match ty with
    | .ptr e =>
      if e.Kind = .Struct ∧ tf.Anonymous then
        getFieldList.loop rest (n + 1) l (getFieldList.f e (l ++ [n]) mapIndex)
      else
        getFieldList.loop rest (n + 1) l (mapIndex.set (columnOf tf) (l ++ [n]))
    | .struct nm sc fs =>
      if nm ≠ "Time" ∧ tf.Anonymous then
        getFieldList.loop rest (n + 1) l
          (getFieldList.f (.struct nm sc fs) (l ++ [n]) mapIndex)
      else
        getFieldList.loop rest (n + 1) l (mapIndex.set (columnOf tf) (l ++ [n]))
    | _ => getFieldList.loop rest (n + 1) l (mapIndex.set (columnOf tf) (l ++ [n]))
end

/-- Function `getFieldList`. -/
def getFieldList (src : GoType) : MapIndex :=
  getFieldList.f src [] []

/-- Function `getAddressIndex` (lines 258-269): the path of each column, the nil
slice (length 0) for a column that is not a key of the map. -/
def getAddressIndex (dt : GoType) (columns : List String) : List (List Nat) :=
  let mapIndex := getFieldList dt
  columns.map (fun v1 =>
    match mapIndex.get v1 with
    | some v => v
    | none => [])

/-! ## Binder (lines 272-320) -/

/-- The read-only bits `reflect.Value` carries: `flagStickyRO` (reached through an
unexported named field) and `flagEmbedRO` (the value is itself an unexported
embedded field).  `Field` inherits only the sticky bit; `Elem` keeps both. -/
structure Flag where
  stickyRO : Bool
  embedRO : Bool
  deriving DecidableEq, Repr

/-- The test `flagRO != 0`, under which `Set` and `Interface` panic. -/
def Flag.ro (fl : Flag) : Bool :=
  fl.stickyRO || fl.embedRO

/-- The flags of `v.Field(n)` for a field `tf`, from the flags of `v`. -/
def Flag.field (fl : Flag) (tf : StructField) : Flag :=
  ⟨fl.stickyRO || (!tf.Exported && !tf.Anonymous), !tf.Exported && tf.Anonymous⟩

/-- One scan destination handed to `rows.Scan`: a Discard Target
(`&NullData{data: new(interface{})}`), the address of the storage of type `t` at
`path` of the row instance wrapped in `NullData`, or that address itself when it
implements `sql.Scanner`. -/
inductive Target where
  | discard
  | null (path : List Nat) (t : GoType)
  | scanner (path : List Nat) (t : GoType)
  deriving Repr

/-- Lines 311-316 and 276-281: the address `d` of storage of type `t`, wrapped in
`NullData` unless `d.(sql.Scanner)` holds. -/
def wrapAddr (path : List Nat) (t : GoType) : Target :=
  if (GoType.ptr t).isScanner then .scanner path t else .null path t

/-- The storage `destSon.Field(n)` leads to, for a value `v` of type `t`: the
field, and the type and content of the storage the walk continues in, which for a
pointer field is the pointee (`none` while the pointer is nil).  The result is
`none` when `Field` panics (not a struct, index out of range). -/
def child : GoType → GoVal → Nat → Option (StructField × GoType × Option GoVal)
  | .struct _ _ fields, .struct vals, n =>
    match fields[n]?, vals[n]? with
    | some (tf, .ptr e), some (.ref w) => some (tf, e, some w)
    | some (tf, .ptr e), some .nil => some (tf, e, none)
    | some (_, .ptr _), some _ => none
    | some (tf, ft), some fv => some (tf, ft, some fv)
    | _, _ => none
  | _, _, _ => none

/-- The value `v` of type `t` once the storage `child t v n` leads to holds `w`;
for a pointer field this is the field pointing to storage holding `w`. -/
def setChild : GoType → GoVal → Nat → GoVal → GoVal
  | .struct _ _ fields, .struct vals, n, w =>
    match fields[n]? with
    | some (_, .ptr _) => .struct (vals.set n (.ref w))
    | some _ => .struct (vals.set n w)
    | none => .struct vals
  | _, v, _, _ => v

/-- The inner loop of `getRowIndex` (lines 301-310) from a value of type `t`:
`Field(son[j])`, then, for a pointer field, allocation of a nil pointer and
`Elem`.  Returns the instance after the allocations, the type of the storage
reached and its flags; `none` is a panic of `reflect` (`Field` on a non-struct or
out of range, `Set` on a read-only value). -/
def walk : GoType → GoVal → List Nat → Flag → Option (GoVal × GoType × Flag)
  | t, v, [], fl => some (v, t, fl)
  | t, v, n :: son, fl =>
    match child t v n with
    | none => none
    | some (tf, ct, none) =>
      if (fl.field tf).ro then none
      else
        match walk ct (zeroValue ct) son (fl.field tf) with
        | some (w, lt, fl2) => some (setChild t v n w, lt, fl2)
        | none => none
    | some (tf, ct, some cv) =>
      match walk ct cv son (fl.field tf) with
      | some (w, lt, fl2) => some (setChild t v n w, lt, fl2)
      | none => none

/-- The loop of `getRowIndex` over the columns of a struct instance of type `t`
(lines 291-318). -/
def getRowIndex.loop (t : GoType) : GoVal → List (List Nat) → Option (GoVal × List Target)
  | v, [] => some (v, [])
  | v, son :: rest =>
    if son.length = 0 then
      match getRowIndex.loop t v rest with
      | some (v2, adders) => some (v2, .discard :: adders)
      | none => none
    else
      match walk t v son ⟨false, false⟩ with
      | none => none
      | some (v1, lt, fl) =>
        if fl.ro then none
        else
          match getRowIndex.loop t v1 rest with
          | some (v2, adders) => some (v2, wrapAddr son lt :: adders)
          | none => none

/-- Function `getRowIndex` on `dest = reflect.New(t)` whose pointee holds `v`:
the pointee after the allocations and one target per entry of `index`.  For a
non-struct pointee the assignment `adders[0] = d` panics when `index` is empty. -/
def getRowIndex (t : GoType) (v : GoVal) (index : List (List Nat)) :
    Option (GoVal × List Target) :=
  if t.Kind ≠ .Struct then
    match index with
    | [] => none
    | _ :: rest => some (v, wrapAddr [] t :: rest.map (fun _ => Target.discard))
  else getRowIndex.loop t v index

/-! ## Scanning -/

/-- The content of the storage at `path` of a value `v` of type `t`, a pointer
field being followed as the binder follows it; `none` when a pointer on the way
is nil or the path leaves the type. -/
def readAt : GoType → GoVal → List Nat → Option GoVal
  | _, v, [] => some v
  | t, v, n :: p =>
    match child t v n with
    | some (_, ct, some cv) => readAt ct cv p
    | _ => none

/-- The value `v` of type `t` after `x` is stored at `path`. -/
def writeAt : GoType → GoVal → List Nat → GoVal → GoVal
  | _, _, [], x => x
  | t, v, n :: p, x =>
    match child t v n with
    | some (_, ct, some cv) => setChild t v n (writeAt ct cv p x)
    | _ => v

/-- What the `Scan` method of one destination does with its storage: it fails,
leaves the storage as it is, or stores a value. -/
inductive Effect where
  | fail
  | keep
  | store (x : GoVal)
  deriving Repr

/-- Modelled from the spec: the method `NullData.Scan`, whose source is not under
`src/` (spec 4.4).  On the engine NULL it leaves the wrapped destination as it is
and reports success; on a concrete value it performs the conversion of the
destination type `t`, failing only when the driver conversion fails. -/
def NullData.Scan (drv : Driver) (t : GoType) (c : Cell) : Effect :=
  match c with
  | none => .keep
  | some d =>
    match drv.convertAssign t d with
    | none => .fail
    | some x => .store x

/-- The `Scan` method of a type `t` whose pointer implements `sql.Scanner`. -/
def scannerScan (drv : Driver) (t : GoType) (c : Cell) : Effect :=
  match drv.Scan t c with
  | none => .fail
  | some x => .store x

/-- What `database/sql` does with one cell and one target of a row instance `inst`
of type `t`: every target is an `sql.Scanner`, so its `Scan` runs.  A Discard
Target accepts every cell.  The result is the instance afterwards, `none` on
failure. -/
def scanCell (drv : Driver) (t : GoType) (tg : Target) (c : Cell) (inst : GoVal) :
    Option GoVal :=
  match tg with
  | .discard => some inst
  | .null path lt =>
    match NullData.Scan drv lt c with
    | .fail => none
    | .keep => some inst
    | .store x => some (writeAt t inst path x)
  | .scanner path lt =>
    match scannerScan drv lt c with
    | .fail => none
    | .keep => some inst
    | .store x => some (writeAt t inst path x)

/-- The error `rows.Scan` returns when a conversion fails. -/
def scanErr : GoError := .plain "sql: Scan error"

/-- The error `rows.Scan` returns when the number of destinations differs from the
number of columns. -/
def arityErr : GoError :=
  .plain "sql: expected a different number of destination arguments in Scan"

/-- The assignments of `rows.Scan`, column by column, stopping at the first
failure; what was stored before the failure stays stored. -/
def scanLoop {σ τ : Type} (assign : τ → Cell → σ → Option σ) :
    List Cell → List τ → σ → GoError × σ
  | c :: cs, d :: ds, s =>
    match assign d c s with
    | none => (scanErr, s)
    | some s2 => scanLoop assign cs ds s2
  | _, _, s => (.nil, s)

/-- Method `Rows.Scan` of `database/sql` on the current row `cells`: the number of
destinations must equal the number of columns. -/
def Rows.Scan {σ τ : Type} (assign : τ → Cell → σ → Option σ) (cells : List Cell)
    (dest : List τ) (s : σ) : GoError × σ :=
  if dest.length ≠ cells.length then (arityErr, s) else scanLoop assign cells dest s

/-- Outcome of decoding one row. -/
inductive RowRes where
  | panic
  | err (e : GoError)
  | ok (inst : GoVal)
  deriving Repr

/-- The three statements every row loop repeats: `dest := reflect.New(dt)`,
`adders := getRowIndex(dest, adder)`, `err = rows.Scan(adders...)`. -/
def decodeRow (drv : Driver) (dt : GoType) (adder : List (List Nat)) (cells : List Cell) :
    RowRes :=
  match getRowIndex dt (zeroValue dt) adder with
  | none => .panic
  | some (inst, adders) =>
    match Rows.Scan (scanCell drv dt) cells adders inst with
    | (.nil, inst2) => .ok inst2
    | (e, _) => .err e

/-! ## The cursor and the query executor -/

/-- The state of an `*sql.Rows`: what `Columns()` reports, the rows not fetched
yet, how many rows `Next()` has delivered, and whether `Close()` has run. -/
structure Rows where
  columns : Except GoError (List String)
  pending : List (List Cell)
  fetched : Nat
  closed : Bool

/-- Method `Rows.Close`. -/
def Rows.Close (rows : Rows) : Rows :=
  { rows with closed := true }

/-- The cursor after `k` calls of `Next()` returned true. -/
def Rows.advance (rows : Rows) (k : Nat) : Rows :=
  { rows with pending := rows.pending.drop k, fetched := rows.fetched + k }

/-- The query executor `DBer`, reduced to `Query`: the cursor and error it
answers with, and the statements it has been asked to run. -/
structure DBer where
  rows : Rows
  err : GoError
  log : List String

/-- Method `DBer.Query`. -/
def DBer.Query (q : DBer) (sql : String) : (Rows × GoError) × DBer :=
  ((q.rows, q.err), { q with log := q.log ++ [sql] })

/-- How a Go function ends: it returns its `error`, or it panics. -/
inductive Res where
  | ret (err : GoError)
  | panic
  deriving DecidableEq, Repr

/-! ## Destination handling shared by `rowsModel` and `rowsModelWithFunc` -/

/-- The loop `for t.Kind() == reflect.Ptr` (lines 177-183 and 123-129) on a value
`v` of type `t`: the type and content of the storage reached and whether it can
be set.  `settable` is `v.CanSet()`: false for `reflect.ValueOf(ty)`, true after
an `Elem`.  A nil pointer is replaced by a fresh one when it can be set; `none`
is the panic of `Set` on a value that cannot. -/
def derefDest : GoType → GoVal → Bool → Option (GoType × GoVal × Bool)
  | .ptr e, .ref w, _ => derefDest e w true
  | .ptr e, .nil, settable => if settable then derefDest e (zeroValue e) true else none
  | .ptr _, _, _ => none
  | t, v, settable => some (t, v, settable)

/-- The caller's value `v` of type `t` after the loop above allocated the nil
pointers and `x` was stored in the storage reached. -/
def setDest : GoType → GoVal → GoVal → GoVal
  | .ptr e, .ref w, x => .ref (setDest e w x)
  | .ptr e, .nil, x => .ref (setDest e (zeroValue e) x)
  | .ptr _, v, _ => v
  | _, _, x => x

/-- The loop `for dt.Kind() == reflect.Ptr { dt = dt.Elem() }`. -/
def derefType : GoType → GoType
  | .ptr e => derefType e
  | t => t

/-- Lines 205-210 and 153-158: `reflect.Append` of the row instance `inst` of type
`dt` to a slice with element type `elem`: the pointer `dest` for a pointer
element, `dest.Elem()` otherwise.  `reflect.Append` panics when the value is not
assignable to the element type, which happens for an element type pointing to a
pointer (`dest` has type `*dt`). -/
def appendRow (elem : GoType) (inst : GoVal) (sl : List GoVal) : Option (List GoVal) :=
  match elem with
  | .ptr e => if e.Kind = .Ptr then none else some (sl ++ [.ref inst])
  | _ => some (sl ++ [inst])

/-- State of a row loop when it is left: how the function ends if the loop ended
it (`none` when the loop ran to the last row), the slice built, the number of
rows fetched. -/
structure LoopRes where
  exit : Option Res
  sl : List GoVal
  fetched : Nat

/-! ## `rowsModel` (lines 168-255) -/

/-- The loop of lines 197-211 over the rows still pending. -/
def rowsModel.sliceLoop (drv : Driver) (dt elem : GoType) (adder : List (List Nat)) :
    List (List Cell) → List GoVal → LoopRes
  | [], sl => ⟨none, sl, 0⟩
  | row :: rest, sl =>
    match decodeRow drv dt adder row with
    | .panic => ⟨some .panic, sl, 1⟩
    | .err e => ⟨some (.ret e), sl, 1⟩
    | .ok inst =>
      match appendRow elem inst sl with
      | none => ⟨some .panic, sl, 1⟩
      | some sl2 =>
        let r := rowsModel.sliceLoop drv dt elem adder rest sl2
        ⟨r.exit, r.sl, r.fetched + 1⟩

/-- What a call leaves behind: how it ended, the values of the caller's
destinations, the cursor. -/
structure Outcome where
  res : Res
  dests : List GoVal
  rows : Rows

/-- One destination argument of tuple mode as `rows.Scan` receives it: its
position, its dynamic type, and whether lines 244-248 wrapped it in `NullData`. -/
structure ArgTarget where
  idx : Nat
  t : GoType
  wrapped : Bool

/-- Lines 242-250: the list handed to `rows.Scan`, every argument that is not an
`sql.Scanner` wrapped in `NullData`. -/
def argTargets : List (GoType × GoVal) → Nat → List ArgTarget
  | [], _ => []
  | (t, _) :: rest, i => ⟨i, t, !t.isScanner⟩ :: argTargets rest (i + 1)

/-- What `database/sql` does with one cell and one tuple destination: a pointer to
storage of type `e` receives the converted value.  The engine NULL into a
`NullData` leaves any destination as it is; a concrete value needs a non-nil
pointer.  A `Scan` method called on a nil receiver is taken as a failed scan. -/
def scanArg (drv : Driver) (a : ArgTarget) (c : Cell) (dests : List GoVal) :
    Option (List GoVal) :=
  match a.t, dests[a.idx]? with
  | .ptr e, some (.ref _) =>
    match (if a.wrapped then NullData.Scan drv e c else scannerScan drv e c) with
    | .fail => none
    | .keep => some dests
    | .store x => some (dests.set a.idx (.ref x))
  | _, some _ => if a.wrapped ∧ c = none then some dests else none
  | _, none => none

/-- The error of line 236 and line 253. -/
def noRowsErr : GoError :=
  .myDbError (.plain "没有一行数据") NoOnceRowsDate

/-- The error of lines 175 and 121. -/
def needPtrErr : GoError :=
  .plain "ty必须传地址"

/-- Function `rowsModel`.  An argument is the pair of the dynamic type and the
value of an `interface{}`.  The deferred `rows.Close()` runs on every path. -/
def rowsModel (drv : Driver) (rows : Rows) (args : List (GoType × GoVal)) : Outcome :=
  match args with
  | [(t0, v0)] =>
    if t0.Kind ≠ .Ptr then ⟨.ret needPtrErr, [v0], rows.Close⟩
    else
      match derefDest t0 v0 false with
      | none => ⟨.panic, [v0], rows.Close⟩
      | some (t, v, canSet) =>
        match t with
        | .slice elem _ =>
          let dt := derefType elem
          match rows.columns with
          | .error err => ⟨.ret err, [setDest t0 v0 v], rows.Close⟩
          | .ok columns =>
            let adder := getAddressIndex dt columns
            let r := rowsModel.sliceLoop drv dt elem adder rows.pending []
            match r.exit with
            | some res => ⟨res, [setDest t0 v0 v], (rows.advance r.fetched).Close⟩
            | none =>
              ⟨.ret .nil, [setDest t0 v0 (if canSet then .slice r.sl else v)],
                (rows.advance r.fetched).Close⟩
        | _ =>
          match rows.columns with
          | .error err => ⟨.ret err, [setDest t0 v0 v], rows.Close⟩
          | .ok columns =>
            let adder := getAddressIndex t columns
            match rows.pending with
            | [] => ⟨.ret noRowsErr, [setDest t0 v0 v], rows.Close⟩
            | row :: _ =>
              match decodeRow drv t adder row with
              | .panic => ⟨.panic, [setDest t0 v0 v], (rows.advance 1).Close⟩
              | .err e => ⟨.ret e, [setDest t0 v0 v], (rows.advance 1).Close⟩
              | .ok inst =>
                ⟨.ret .nil, [setDest t0 v0 (if canSet then inst else v)],
                  (rows.advance 1).Close⟩
  | _ =>
    match rows.pending with
    | [] => ⟨.ret noRowsErr, args.map (fun a => a.2), rows.Close⟩
    | row :: _ =>
      let list := argTargets args 0
      let r := Rows.Scan (scanArg drv) row list (args.map (fun a => a.2))
      ⟨.ret r.1, r.2, (rows.advance 1).Close⟩

/-- Function `DbQuery`: the executor after the call and the outcome.  When `Query`
fails its error is returned at once: the destination and what the executor
holds as cursor are passed through untouched. -/
def DbQuery (drv : Driver) (q : DBer) (ty : GoType × GoVal) (sql : String) :
    DBer × Outcome :=
  match q.Query sql with
  | ((rows, .nil), q2) => (q2, rowsModel drv rows [ty])
  | ((rows, err), q2) => (q2, ⟨.ret err, [ty.2], rows⟩)

/-! ## `rowsModelWithFunc` (lines 116-166) -/

/-- State of the loop of `rowsModelWithFunc` when it is left: as `LoopRes`, with
the content of the caller's slice variable and the calls of the callback made,
each with the index passed and the content of the caller's slice at that time. -/
structure FuncLoopRes where
  exit : Option Res
  cur : GoVal
  fetched : Nat
  calls : List (Nat × GoVal)

/-- The loop of lines 145-164: `sl` is the slice built so far, `index` the
counter, `cur` the content of the caller's slice variable. -/
def rowsModelWithFunc.loop (drv : Driver) (dt elem : GoType) (adder : List (List Nat))
    (f : Nat → GoError) : List (List Cell) → List GoVal → Nat → GoVal → FuncLoopRes
  | [], _, _, cur => ⟨none, cur, 0, []⟩
  | row :: rest, sl, index, cur =>
    match decodeRow drv dt adder row with
    | .panic => ⟨some .panic, cur, 1, []⟩
    | .err e => ⟨some (.ret e), cur, 1, []⟩
    | .ok inst =>
      match appendRow elem inst sl with
      | none => ⟨some .panic, cur, 1, []⟩
      | some sl2 =>
        match f index with
        | .nil =>
          let r := rowsModelWithFunc.loop drv dt elem adder f rest sl2 (index + 1) (.slice sl2)
          ⟨r.exit, r.cur, r.fetched + 1, (index, .slice sl2) :: r.calls⟩
        | err =>
          ⟨some (.ret (.myDbError err SliceFuncErr)), .slice sl2, 1, [(index, .slice sl2)]⟩

/-- What a call of `rowsModelWithFunc` leaves behind. -/
structure FuncOutcome where
  res : Res
  dest : GoVal
  rows : Rows
  calls : List (Nat × GoVal)

/-- Function `rowsModelWithFunc`. -/
def rowsModelWithFunc (drv : Driver) (rows : Rows) (slice : GoType × GoVal)
    (f : Nat → GoError) : FuncOutcome :=
  if slice.1.Kind ≠ .Ptr then ⟨.ret needPtrErr, slice.2, rows.Close, []⟩
  else
    match derefDest slice.1 slice.2 false with
    | none => ⟨.panic, slice.2, rows.Close, []⟩
    | some (t, v, _) =>
      match t with
      | .slice elem _ =>
        let dt := derefType elem
        match rows.columns with
        | .error err => ⟨.ret err, setDest slice.1 slice.2 v, rows.Close, []⟩
        | .ok columns =>
          let adder := getAddressIndex dt columns
          let r := rowsModelWithFunc.loop drv dt elem adder f rows.pending [] 0 v
          ⟨(r.exit.getD (.ret .nil)), setDest slice.1 slice.2 r.cur,
            (rows.advance r.fetched).Close, r.calls⟩
      | _ => ⟨.ret (.myDbError .nil NeedSlice), setDest slice.1 slice.2 v, rows.Close, []⟩

/-- Function `DbQueryWithIndexFunc`. -/
def DbQueryWithIndexFunc (drv : Driver) (q : DBer) (slice : GoType × GoVal)
    (f : Nat → GoError) (sql : String) : DBer × FuncOutcome :=
  match q.Query sql with
  | ((rows, .nil), q2) => (q2, rowsModelWithFunc drv rows slice f)
  | ((rows, err), q2) => (q2, ⟨.ret err, slice.2, rows, []⟩)

/-! ## `rowsModelWithModelFunc` (lines 90-114) -/

/-- State of the loop of `rowsModelWithModelFunc` when it is left, with the
models passed to the callback. -/
structure ModelLoopRes where
  exit : Option Res
  fetched : Nat
  calls : List GoVal

/-- The loop of lines 102-112. -/
def rowsModelWithModelFunc.loop (drv : Driver) (t : GoType) (adder : List (List Nat))
    (f : GoVal → GoError) : List (List Cell) → ModelLoopRes
  | [] => ⟨none, 0, []⟩
  | row :: rest =>
    match decodeRow drv t adder row with
    | .panic => ⟨some .panic, 1, []⟩
    | .err e => ⟨some (.ret e), 1, []⟩
    | .ok inst =>
      match f inst with
      | .nil =>
        let r := rowsModelWithModelFunc.loop drv t adder f rest
        ⟨r.exit, r.fetched + 1, inst :: r.calls⟩
      | err => ⟨some (.ret (.myDbError err SliceFuncErr)), 1, [inst]⟩

/-- What a call of `rowsModelWithModelFunc` leaves behind: how it ended, the
cursor, the models the callback received. -/
structure ModelOutcome where
  res : Res
  rows : Rows
  calls : List GoVal

/-- The error of line 95. -/
def modelShapeErr : GoError :=
  .plain "ty不能是slice和地址"

/-- Function `rowsModelWithModelFunc`; `t` is `reflect.TypeOf(model)`, the value
of `model` is never read. -/
def rowsModelWithModelFunc (drv : Driver) (rows : Rows) (t : GoType)
    (f : GoVal → GoError) : ModelOutcome :=
  if t.Kind = .Slice ∨ Kind.Ptr = t.Kind then ⟨.ret modelShapeErr, rows.Close, []⟩
  else
    match rows.columns with
    | .error err => ⟨.ret err, rows.Close, []⟩
    | .ok columns =>
      let adder := getAddressIndex t columns
      let r := rowsModelWithModelFunc.loop drv t adder f rows.pending
      ⟨(r.exit.getD (.ret .nil)), (rows.advance r.fetched).Close, r.calls⟩

/-- Function `DbQueryWithModelFunc`. -/
def DbQueryWithModelFunc (drv : Driver) (q : DBer) (t : GoType) (f : GoVal → GoError)
    (sql : String) : DBer × ModelOutcome :=
  match q.Query sql with
  | ((rows, .nil), q2) => (q2, rowsModelWithModelFunc drv rows t f)
  | ((rows, err), q2) => (q2, ⟨.ret err, rows, []⟩)

/-! ## Sample inputs -/

/-- A driver for the samples: integers go into `int` storage, strings into
`string` storage, and a `Scan` method stores what it is given. -/
def demoDriver : Driver where
  convertAssign := fun t d =>
    match t, d with
    | .basic "int" _, .int n => some (.data (.int n))
    | .basic "string" _, .str s => some (.data (.str s))
    | _, _ => none
  Scan := fun _ c =>
    match c with
    | none => some .zero
    | some d => some (.data d)

/-- An exported named field with the given `json` tag. -/
def fld (name tag : String) : StructField :=
  ⟨name, tag, false, true⟩

/-- An exported embedded field. -/
def emb (name : String) : StructField :=
  ⟨name, "", true, true⟩

/-- The type `int`. -/
def tInt : GoType := .basic "int" false

/-- The type `string`. -/
def tString : GoType := .basic "string" false

/-- The sample `type Inner struct { Z int "z,omitempty" }`. -/
def tInner : GoType :=
  .struct "Inner" false [(fld "Z" "z,omitempty", tInt)]

/-- The sample `type Mid struct { Y int; *Inner }`. -/
def tMid : GoType :=
  .struct "Mid" false [(fld "Y" "", tInt), (emb "Inner", .ptr tInner)]

/-- The sample `type Outer struct { X int "x"; Mid }`: the leaf `Z` lies two
embedding levels deep, through a value and then through a pointer. -/
def tOuter : GoType :=
  .struct "Outer" false [(fld "X" "x", tInt), (emb "Mid", tMid)]

/-- The sample `type Dup struct { A int "x"; B int "x" }`, whose two fields
resolve to the same column name. -/
def tDup : GoType :=
  .struct "Dup" false [(fld "A" "x", tInt), (fld "B" "x", tInt)]

/-- The sample `type Priv struct { a int }`, whose only field is unexported. -/
def tPriv : GoType :=
  .struct "Priv" false [(⟨"a", "", false, false⟩, tInt)]

/-- The sample of a timestamp type: a struct named `Time` with the fields of
`time.Time`, all unexported (`wall uint64`, `ext int64`, `loc *Location`). -/
def tTime : GoType :=
  .struct "Time" false
    [(⟨"wall", "", false, false⟩, .basic "uint64" false),
     (⟨"ext", "", false, false⟩, .basic "int64" false),
     (⟨"loc", "", false, false⟩, .ptr (.struct "Location" false []))]

/-- The sample `type Stamped struct { *Time }`: a timestamp embedded through a
pointer. -/
def tStamped : GoType :=
  .struct "Stamped" false [(emb "Time", .ptr tTime)]

/-- The sample `type Dated struct { Time; At Time; Until *Time }`: a timestamp
embedded by value, and two named timestamp fields, by value and through a
pointer. -/
def tDated : GoType :=
  .struct "Dated" false [(emb "Time", tTime), (fld "At" "", tTime), (fld "Until" "", .ptr tTime)]

/-- A cursor over the given columns and rows, nothing fetched, not closed. -/
def cursor (columns : List String) (pending : List (List Cell)) : Rows :=
  ⟨.ok columns, pending, 0, false⟩

/-- The sample `type Both struct { A int; B int }`. -/
def tBoth : GoType :=
  .struct "Both" false [(fld "A" "", tInt), (fld "B" "", tInt)]

/-- The sample `type Pair struct { *Both }`: two leaves lie under one embedded
pointer. -/
def tPair : GoType :=
  .struct "Pair" false [(emb "Both", .ptr tBoth)]

/-- The sample `type Opt struct { Q *int }`: a leaf field of pointer type. -/
def tOpt : GoType :=
  .struct "Opt" false [(fld "Q" "", .ptr tInt)]

/-- The sample `type Holder struct { *inner }` with `type inner struct { X int }`:
an exported leaf beneath an unexported embedded pointer. -/
def tHolder : GoType :=
  .struct "Holder" false
    [(⟨"inner", "", true, false⟩, .ptr (.struct "inner" false [(fld "X" "", tInt)]))]

/-- The sample `type Shadow struct { Mid; W int "z" }`: the leaf `Z`, two embedding
levels deep in `Mid`, and the later field `W` of the root have the column name
`z`. -/
def tShadow : GoType :=
  .struct "Shadow" false [(emb "Mid", tMid), (fld "W" "z", tInt)]

/-! ## Notions the statements use -/

/-- Whether every pointer the loop of `derefDest` follows is set, so that the
loop allocates nothing. -/
def chainSet : GoType → GoVal → Bool
  | .ptr e, .ref w => chainSet e w
  | .ptr _, _ => false
  | _, _ => true

/-- The slice element the row loops append for a row instance `inst`: a pointer to
it for a pointer element type, the instance itself otherwise. -/
def rowElem (elem : GoType) (inst : GoVal) : GoVal :=
  match elem with
  | .ptr _ => .ref inst
  | _ => inst

/-- The content of one tuple destination `a` after `rows.Scan` handed it the cell
`c`: the effect of `scanArg` on the destination taken alone. -/
def scanDest (drv : Driver) (a : GoType × GoVal) (c : Cell) : Option GoVal :=
  match scanArg drv ⟨0, a.1, !a.1.isScanner⟩ c [a.2] with
  | some [w] => some w
  | _ => none

/-- The test of lines 332-348 under which `getFieldList` recurses into a field
instead of recording it: an embedded pointer to a struct, or an embedded struct
whose type is not named `Time`. -/
def recursed (tf : StructField) (ty : GoType) : Bool :=
  match ty with
  | .ptr e => e.Kind == .Struct && tf.Anonymous
  | .struct nm _ _ => nm != "Time" && tf.Anonymous
  | _ => false

/-- The fields of the struct a field of type `ty` holds, by value or through one
pointer; no fields for any other type. -/
def embeddedFields : GoType → List (StructField × GoType)
  | .struct _ _ fs => fs
  | .ptr (.struct _ _ fs) => fs
  | _ => []

/-- The fields of the struct the closure `f` of `getFieldList` visits for a type:
the type with its pointers removed, when that is a struct. -/
def rootFields : GoType → List (StructField × GoType)
  | .ptr e => rootFields e
  | .struct _ _ fs => fs
  | _ => []

/-- The paths `getFieldList` can record for a struct with the given fields, read
off the code: every index but the last selects a field the code recurses into,
the last one a field it records, under the name `columnOf` gives it. -/
def LeafPath : List (StructField × GoType) → List Nat → String → Prop
  | _, [], _ => False
  | fields, n :: rest, name =>
    ∃ tf ty, fields[n]? = some (tf, ty) ∧
      ((recursed tf ty = true ∧ LeafPath (embeddedFields ty) rest name) ∨
        (recursed tf ty = false ∧ rest = [] ∧ columnOf tf = name))

/-- Spec 4.1, a composite type, "including reached through one pointer
indirection". -/
def isComposite : GoType → Bool
  | .struct _ _ _ => true
  | .ptr (.struct _ _ _) => true
  | _ => false

/-- Spec 4.1, a timestamp-like type: a struct named `Time`, held by value or
through one pointer. -/
def isTimestamp : GoType → Bool
  | .struct nm _ _ => nm == "Time"
  | .ptr (.struct nm _ _) => nm == "Time"
  | _ => false

/-- Spec 4.1, a leaf field: every field that is not an embedded composite, and
every timestamp-like field. -/
def specLeaf (tf : StructField) (ty : GoType) : Bool :=
  !(tf.Anonymous && isComposite ty) || isTimestamp ty

/-- The column name of a field in the words of the spec: the first
comma-delimited segment of the tag when that segment is non-empty, otherwise the
declared name verbatim. -/
def specColumn (tf : StructField) : String :=
  if tf.Tag.data.takeWhile (fun c => c != ',') = [] then tf.Name
  else String.mk (tf.Tag.data.takeWhile (fun c => c != ','))

/-- The path of a leaf in the words of the spec, with its nesting depth: the
indices lead from the root through embedded structs, held by value or through a
pointer, one nesting level each, down to a leaf field with the column name
`name`.  A leaf of the root has depth 1. -/
def SpecPath : List (StructField × GoType) → List Nat → String → Nat → Prop
  | _, [], _, _ => False
  | fields, [n], name, depth =>
    depth = 1 ∧ ∃ tf ty, fields[n]? = some (tf, ty) ∧ specLeaf tf ty = true ∧
      specColumn tf = name
  | fields, n :: m :: rest, name, depth =>
    ∃ tf ty, fields[n]? = some (tf, ty) ∧ tf.Anonymous = true ∧ isComposite ty = true ∧
      ∃ d, depth = d + 1 ∧ SpecPath (embeddedFields ty) (m :: rest) name d

/-- The field a path selects in a struct with the given fields, embedded structs
being entered by value or through a pointer. -/
def fieldAt : List (StructField × GoType) → List Nat → Option (StructField × GoType)
  | _, [] => none
  | fields, [n] => fields[n]?
  | fields, n :: m :: rest =>
    match fields[n]? with
    | some (_, ty) => fieldAt (embeddedFields ty) (m :: rest)
    | none => none

/-- The field `Field(n)` selects in a type and the type of the storage the walk
continues in, as `child` gives them for a value of the type. -/
def childType : GoType → Nat → Option (StructField × GoType)
  | .struct _ _ fields, n =>
    match fields[n]? with
    | some (tf, .ptr e) => some (tf, e)
    | some (tf, ft) => some (tf, ft)
    | none => none
  | _, _ => none

/-- The type of the storage at `path` of a value of type `t`. -/
def typeAt : GoType → List Nat → Option GoType
  | t, [] => some t
  | t, n :: p =>
    match childType t n with
    | some (_, ct) => typeAt ct p
    | none => none

/-- The storage at `path` of a value `v` of type `t`, when there is any, holds
the zero value of its type. -/
def ZeroAt (t : GoType) (v : GoVal) (path : List Nat) : Prop :=
  ∀ x, readAt t v path = some x → (typeAt t path).map zeroValue = some x

mutual
/-- A value has the shape of its type: a pointer is nil or points to a value of
the shape of the pointee, a struct has one value of the right shape per field.
Storage of the other kinds may hold anything a scan stored. -/
def WellTyped : GoType → GoVal → Prop
  | .ptr _, .nil => True
  | .ptr e, .ref w => WellTyped e w
  | .ptr _, _ => False
  | .struct _ _ fields, .struct vals => WellTypedFields fields vals
  | .struct _ _ _, _ => False
  | _, _ => True
/-- The values of the fields of a struct have the shapes of the field types. -/
def WellTypedFields : List (StructField × GoType) → List GoVal → Prop
  | [], [] => True
  | (_, ty) :: fs, v :: vs => WellTyped ty v ∧ WellTypedFields fs vs
  | _, _ => False
end

/-- The paths the binder can bind in a fresh instance without a panic of
`reflect`: the field the path ends in is exported (its address is put in an
interface), and so is every pointer field on the way (it is nil and has to be
set).  An unexported embedded struct held by value may be crossed. -/
def bindable : List (StructField × GoType) → List Nat → Bool
  | _, [] => true
  | fields, [n] =>
    match fields[n]? with
    | some (tf, _) => tf.Exported
    | none => false
  | fields, n :: m :: rest =>
    match fields[n]? with
    | some (tf, ty) => (ty.Kind != .Ptr || tf.Exported) && bindable (embeddedFields ty) (m :: rest)
    | none => false

/-- What `rows.Scan` does to the storage of type `lt` a column is bound to, given
the cell of the column: the `Scan` method of the type when its pointer is an
`sql.Scanner`, of the `NullData` wrapping it otherwise. -/
def cellEffect (drv : Driver) (lt : GoType) (c : Cell) : Effect :=
  if (GoType.ptr lt).isScanner then scannerScan drv lt c else NullData.Scan drv lt c

/-- The content of fresh storage of type `lt` after an effect; `none` when the
scan failed. -/
def fieldAfter (lt : GoType) : Effect → Option GoVal
  | .fail => none
  | .keep => some (zeroValue lt)
  | .store x => some x

/-- Depth-first declaration order of the fields at two paths: at the first index
where the paths differ, the first path selects the field declared earlier. -/
def visitedBefore : List Nat → List Nat → Prop
  | a :: p, b :: q => a < b ∨ (a = b ∧ visitedBefore p q)
  | _, _ => False

/-- The recorded paths of a struct that start at the field `n` or at a later
one: what the loop of `getFieldList` has still to visit when it is at `n`. -/
def LeafFrom (all : List (StructField × GoType)) (n : Nat) (s : List Nat) (k : String) :
    Prop :=
  LeafPath all s k ∧ ∃ i r, s = i :: r ∧ n ≤ i

/-- How a visit changes the map: `X` is the map `m` after a visit, under the
prefix `l`, of the leaves `leaf` gives with their column names.  Every key of
`m` and every name of a leaf is a key of `X`; an entry of `X` is the leaf of its
name that is last in depth-first declaration order, or an entry of `m` whose key
names no leaf. -/
def Resolves (leaf : List Nat → String → Prop) (l : List Nat) (m X : MapIndex) : Prop :=
  ∀ k : String,
    (((∃ p, (k, p) ∈ m) ∨ (∃ s, leaf s k)) → ∃ p, (k, p) ∈ X) ∧
    ∀ p : List Nat, (k, p) ∈ X ↔
      (∃ s, p = l ++ s ∧ leaf s k ∧ ∀ q, leaf q k → q = s ∨ visitedBefore q s) ∨
      ((k, p) ∈ m ∧ ∀ s, ¬ leaf s k)

/-- The entries of a list that holds one entry per result column, of the columns
that are keys of the map: what is left of the list when the result columns the
map does not hold are removed from the query. -/
def mappedOnly {α : Type} (m : MapIndex) : List String → List α → List α
  | c :: cs, x :: xs =>
    if (m.get c).isSome then x :: mappedOnly m cs xs else mappedOnly m cs xs
  | _, _ => []

/-- The type of the storage the binder addresses for a field of the declared
type `ft`: the pointee for a pointer field, which the binder allocates when the
pointer is nil and then enters (lines 303-309), the field itself otherwise. -/
def storageType : GoType → GoType
  | .ptr e => e
  | t => t

/-- The value of a field of declared type `ft` whose storage holds `x`: a non-nil
pointer to that storage for a pointer field, the content itself otherwise. -/
def heldIn : GoType → GoVal → GoVal
  | .ptr _, x => .ref x
  | _, x => x

/-- The value of the field a path ends in, as the struct holding the field stores
it: the pointers on the way are followed as the binder follows them, the field
itself is not, so that a pointer field gives the pointer (`nil` or `ref`). -/
def fieldValueAt : GoType → GoVal → List Nat → Option GoVal
  | _, _, [] => none
  | _, .struct vals, [n] => vals[n]?
  | _, _, [_] => none
  | t, v, n :: m :: rest =>
    match child t v n with
    | some (_, ct, some cv) => fieldValueAt ct cv (m :: rest)
    | _ => none

/-- Whether a path passes through, or ends in, an embedded field of a
timestamp-like type: the fields on which the words of the spec (a timestamp is a
leaf) and the test of the code (`recursed`) can differ. -/
def throughTime : List (StructField × GoType) → List Nat → Bool
  | _, [] => false
  | fields, n :: rest =>
    match fields[n]? with
    | some (tf, ty) => (tf.Anonymous && isTimestamp ty) || throughTime (embeddedFields ty) rest
    | none => false

/-! ## Shape errors: C8, C9 -/

/-- C8, counterexample: with the destination the integer `0`, which is not a
pointer, `DbQuery` has run the query (the executor logged it) and the error it
returns matches none of the kinds `NeedSlice`, `NoOnceRowsDate`, `SliceFuncErr`. -/
theorem DbQuery_nonpointer_counterexample :
    (DbQuery demoDriver ⟨cursor ["x"] [[some (.int 5)]], .nil, []⟩ (tInt, .zero)
        "select x").1.log = ["select x"] ∧
    (DbQuery demoDriver ⟨cursor ["x"] [[some (.int 5)]], .nil, []⟩ (tInt, .zero)
        "select x").2.res = .ret needPtrErr ∧
    IsThisCode needPtrErr NeedSlice = false ∧
    IsThisCode needPtrErr NoOnceRowsDate = false ∧
    IsThisCode needPtrErr SliceFuncErr = false := by
  decide

/-- C8, as amended: for a destination that is not a pointer, `DbQuery` first runs
the query once; when the query fails its error is returned, and otherwise the
call returns an error that matches no kind, leaves the destination as it was,
fetches no row and closes the cursor. -/
theorem DbQuery_nonpointer_destination (drv : Driver) (q : DBer) (t : GoType) (v : GoVal)
    (sql : String) (ht : t.Kind ≠ .Ptr) :
    (DbQuery drv q (t, v) sql).1.log = q.log ++ [sql] ∧
    (q.err = .nil →
      (DbQuery drv q (t, v) sql).2.res = .ret needPtrErr ∧
      (DbQuery drv q (t, v) sql).2.dests = [v] ∧
      (DbQuery drv q (t, v) sql).2.rows = q.rows.Close) ∧
    (q.err ≠ .nil → (DbQuery drv q (t, v) sql).2.res = .ret q.err) ∧
    (∀ code, IsThisCode needPtrErr code = false) := by
  refine ⟨?_, ?_, ?_, ?_⟩
  · unfold DbQuery DBer.Query
    cases q.err <;> rfl
  · intro h
    simp [DbQuery, DBer.Query, h, rowsModel, ht]
  · intro h
    unfold DbQuery DBer.Query
    cases hq : q.err <;> simp_all
  · intro code
    rfl

/-- C8, witness: the amended statement at the integer destination `0`. -/
theorem DbQuery_nonpointer_destination_witness :
    tInt.Kind ≠ .Ptr ∧
    (DbQuery demoDriver ⟨cursor ["x"] [[some (.int 5)]], .nil, []⟩ (tInt, .zero)
        "select x").1.log = [] ++ ["select x"] :=
  ⟨by decide,
    (DbQuery_nonpointer_destination demoDriver ⟨cursor ["x"] [[some (.int 5)]], .nil, []⟩
      tInt .zero "select x" (by decide)).1⟩

/-- C9, counterexample: with the entity type `*Outer`, `DbQueryWithModelFunc` has
run the query (the executor logged it) and the error it returns matches none of
the kinds. -/
theorem DbQueryWithModelFunc_shape_counterexample :
    (DbQueryWithModelFunc demoDriver ⟨cursor ["x"] [[some (.int 5)]], .nil, []⟩
        (.ptr tOuter) (fun _ => .nil) "select x").1.log = ["select x"] ∧
    (DbQueryWithModelFunc demoDriver ⟨cursor ["x"] [[some (.int 5)]], .nil, []⟩
        (.ptr tOuter) (fun _ => .nil) "select x").2.res = .ret modelShapeErr ∧
    IsThisCode modelShapeErr NeedSlice = false ∧
    IsThisCode modelShapeErr NoOnceRowsDate = false ∧
    IsThisCode modelShapeErr SliceFuncErr = false := by
  decide

/-- C9, as amended: for an entity type that is a pointer or a slice,
`DbQueryWithModelFunc` first runs the query once; when the query fails its error
is returned, and otherwise the call returns an error that matches no kind,
fetches no row, closes the cursor and never calls the callback. -/
theorem DbQueryWithModelFunc_shape (drv : Driver) (q : DBer) (t : GoType)
    (f : GoVal → GoError) (sql : String) (ht : t.Kind = .Slice ∨ t.Kind = .Ptr) :
    (DbQueryWithModelFunc drv q t f sql).1.log = q.log ++ [sql] ∧
    (DbQueryWithModelFunc drv q t f sql).2.calls = [] ∧
    (q.err = .nil →
      (DbQueryWithModelFunc drv q t f sql).2.res = .ret modelShapeErr ∧
      (DbQueryWithModelFunc drv q t f sql).2.rows = q.rows.Close) ∧
    (q.err ≠ .nil → (DbQueryWithModelFunc drv q t f sql).2.res = .ret q.err) ∧
    (∀ code, IsThisCode modelShapeErr code = false) := by
  have hk : t.Kind = .Slice ∨ Kind.Ptr = t.Kind := by
    rcases ht with h | h
    · exact Or.inl h
    · exact Or.inr h.symm
  refine ⟨?_, ?_, ?_, ?_, ?_⟩
  · unfold DbQueryWithModelFunc DBer.Query
    cases q.err <;> rfl
  · unfold DbQueryWithModelFunc DBer.Query
    cases hq : q.err <;> simp [rowsModelWithModelFunc, hk]
  · intro h
    simp [DbQueryWithModelFunc, DBer.Query, h, rowsModelWithModelFunc, hk]
  · intro h
    unfold DbQueryWithModelFunc DBer.Query
    cases hq : q.err <;> simp_all
  · intro code
    rfl

/-- C9, witness: the amended statement at the entity type `[]Outer`. -/
theorem DbQueryWithModelFunc_shape_witness :
    ((GoType.slice tOuter false).Kind = .Slice ∨ (GoType.slice tOuter false).Kind = .Ptr) ∧
    (DbQueryWithModelFunc demoDriver ⟨cursor ["x"] [[some (.int 5)]], .nil, []⟩
        (.slice tOuter false) (fun _ => .nil) "select x").2.calls = [] :=
  ⟨by decide,
    (DbQueryWithModelFunc_shape demoDriver ⟨cursor ["x"] [[some (.int 5)]], .nil, []⟩
      (.slice tOuter false) (fun _ => .nil) "select x" (by decide)).2.1⟩

/-! ## Zero rows: C5 -/

/-- After `x` is stored, the loop of `derefDest` reaches the same storage, now
holding `x`. -/
theorem derefDest_setDest (t0 : GoType) (v0 : GoVal) (s : Bool) (x : GoVal) :
    ∀ t v b, derefDest t0 v0 s = some (t, v, b) →
      derefDest t0 (setDest t0 v0 x) s = some (t, x, b) := by
  induction t0, v0, s using derefDest.induct with
  | case1 e w s ih =>
    intro t v b h
    simp only [derefDest, setDest] at h ⊢
    exact ih t v b h
  | case2 e ih =>
    intro t v b h
    simp only [derefDest, setDest, if_true] at h ⊢
    exact ih t v b h
  | case3 e s hs =>
    intro t v b h
    simp [derefDest, hs] at h
  | case4 e v s h1 h2 =>
    intro t w b h
    cases v <;> simp_all [derefDest]
  | case5 t v s h1 h2 h3 =>
    intro t2 v2 b h
    cases t <;> simp_all [derefDest, setDest]

/-- When no pointer on the chain is nil, storing back what the storage reached
holds changes nothing. -/
theorem setDest_of_chainSet (t0 : GoType) (v0 : GoVal) (s : Bool) :
    ∀ t v b, derefDest t0 v0 s = some (t, v, b) → chainSet t0 v0 = true →
      setDest t0 v0 v = v0 := by
  induction t0, v0, s using derefDest.induct with
  | case1 e w s ih =>
    intro t v b h hc
    simp only [derefDest, setDest, chainSet] at h hc ⊢
    rw [ih t v b h hc]
  | case2 e ih =>
    intro t v b h hc
    simp [chainSet] at hc
  | case3 e s hs =>
    intro t v b h
    simp [derefDest, hs] at h
  | case4 e v s h1 h2 =>
    intro t w b h
    cases v <;> simp_all [derefDest]
  | case5 t v s h1 h2 h3 =>
    intro t2 v2 b h hc
    cases t <;> simp_all [derefDest, setDest]

/-- C5, as amended: when the cursor yields zero rows, tuple mode returns the
`NoOnceRowsDate` error and leaves every destination as it was; for a struct or
scalar destination whose pointers the loop can follow and a cursor that reports
its columns, the call returns the `NoOnceRowsDate` error, the storage reached
through the pointers keeps its content, and the caller's value changes only in
that nil pointers on the chain now point to fresh storage: with no nil pointer
on the chain it does not change at all. -/
theorem rowsModel_zero_rows (drv : Driver) (rows : Rows) (args : List (GoType × GoVal))
    (h0 : rows.pending = []) :
    IsThisCode noRowsErr NoOnceRowsDate = true ∧
    (args.length ≠ 1 →
      (rowsModel drv rows args).res = .ret noRowsErr ∧
      (rowsModel drv rows args).dests = args.map (fun a => a.2)) ∧
    (∀ t0 v0 t v b columns, args = [(t0, v0)] → t0.Kind = .Ptr →
      derefDest t0 v0 false = some (t, v, b) → t.Kind ≠ .Slice →
      rows.columns = .ok columns →
      (rowsModel drv rows args).res = .ret noRowsErr ∧
      (rowsModel drv rows args).dests = [setDest t0 v0 v] ∧
      derefDest t0 (setDest t0 v0 v) false = some (t, v, b) ∧
      (chainSet t0 v0 = true → setDest t0 v0 v = v0)) := by
  refine ⟨rfl, ?_, ?_⟩
  · intro hN
    match args, hN with
    | [], _ => simp [rowsModel, h0]
    | _ :: _ :: _, _ => simp [rowsModel, h0]
  · intro t0 v0 t v b columns ha ht hd hk hc
    subst ha
    refine ⟨?_, ?_, derefDest_setDest t0 v0 false v t v b hd,
      setDest_of_chainSet t0 v0 false t v b hd⟩
    · cases t <;> simp_all [rowsModel, GoType.Kind]
    · cases t <;> simp_all [rowsModel, GoType.Kind]

/-- C5, counterexample: the destination `&p` with `p` a nil `*Dup` and a cursor
with zero rows: the call returns the `NoOnceRowsDate` error, and `p`, which was
nil, now points to a fresh `Dup`. -/
theorem rowsModel_zero_rows_counterexample :
    (rowsModel demoDriver (cursor ["x"] []) [(.ptr (.ptr tDup), .ref .nil)]).res =
      .ret noRowsErr ∧
    (rowsModel demoDriver (cursor ["x"] []) [(.ptr (.ptr tDup), .ref .nil)]).dests =
      [.ref (.ref (.struct [.zero, .zero]))] ∧
    GoVal.ref (.ref (.struct [.zero, .zero])) ≠ GoVal.ref .nil := by
  refine ⟨rfl, rfl, ?_⟩
  intro h
  cases h

/-- C5, witness: a `*Dup` destination pointing to a zero `Dup`, and zero rows. -/
theorem rowsModel_zero_rows_witness :
    (cursor ["x"] []).pending = [] ∧
    (rowsModel demoDriver (cursor ["x"] []) [(.ptr tDup, .ref (zeroValue tDup))]).res =
      .ret noRowsErr ∧
    (rowsModel demoDriver (cursor ["x"] []) [(.ptr tDup, .ref (zeroValue tDup))]).dests =
      [setDest (.ptr tDup) (.ref (zeroValue tDup)) (zeroValue tDup)] :=
  ⟨rfl,
    ((rowsModel_zero_rows demoDriver (cursor ["x"] []) [(.ptr tDup, .ref (zeroValue tDup))]
      rfl).2.2 (.ptr tDup) (.ref (zeroValue tDup)) tDup (zeroValue tDup) true ["x"] rfl rfl rfl
      (by decide) rfl).1,
    ((rowsModel_zero_rows demoDriver (cursor ["x"] []) [(.ptr tDup, .ref (zeroValue tDup))]
      rfl).2.2 (.ptr tDup) (.ref (zeroValue tDup)) tDup (zeroValue tDup) true ["x"] rfl rfl rfl
      (by decide) rfl).2.1⟩

/-! ## Tuple mode: C10 -/

/-- One target per tuple destination. -/
theorem argTargets_length (args : List (GoType × GoVal)) :
    ∀ i, (argTargets args i).length = args.length := by
  induction args with
  | nil => intro i; rfl
  | cons a as ih => intro i; obtain ⟨t, v⟩ := a; simp [argTargets, ih]

/-- The effect of `scanArg` on the destination at position `i` is its effect on
that destination taken alone; the others are untouched. -/
theorem scanArg_at (drv : Driver) (t : GoType) (wr : Bool) (c : Cell) (pre post : List GoVal)
    (v w : GoVal) (i : Nat) (hi : pre.length = i)
    (h : scanArg drv ⟨0, t, wr⟩ c [v] = some [w]) :
    scanArg drv ⟨i, t, wr⟩ c (pre ++ v :: post) = some (pre ++ w :: post) := by
  subst hi
  unfold scanArg at h ⊢
  simp only [List.getElem?_cons_zero, List.getElem?_append_right (le_refl pre.length),
    Nat.sub_self] at h ⊢
  cases t with
  | ptr e =>
    cases v with
    | ref u =>
      simp only at h ⊢
      split at h
      · simp at h
      · rename_i heq
        simp only [heq]
        simp only [Option.some.injEq, List.cons.injEq, and_true] at h
        rw [h]
      · rename_i x heq
        simp only [heq]
        simp at h
        simp [h]
    | _ =>
      simp only at h ⊢
      split at h
      · simp only [Option.some.injEq, List.cons.injEq, and_true] at h
        subst h
        rename_i hh
        simp [hh]
      · simp at h
  | _ =>
    simp only at h ⊢
    split at h
    · simp only [Option.some.injEq, List.cons.injEq, and_true] at h
      subst h
      rename_i hh
      simp [hh]
    · simp at h

/-- Unfolding of `scanDest`. -/
theorem scanDest_eq (drv : Driver) (t : GoType) (v w : GoVal) (c : Cell)
    (h : scanDest drv (t, v) c = some w) :
    scanArg drv ⟨0, t, !t.isScanner⟩ c [v] = some [w] := by
  unfold scanDest at h
  split at h
  · rename_i w2 heq
    simp only [Option.some.injEq] at h
    subst h
    exact heq
  · simp at h

/-- When every destination accepts the cell at its position, the loop of
`rows.Scan` succeeds and stores position by position. -/
theorem scanLoop_args (drv : Driver) (args : List (GoType × GoVal)) :
    ∀ (cells : List Cell) (ws pre : List GoVal) (i : Nat), pre.length = i →
      List.Forall₂ (fun ac w => scanDest drv ac.1 ac.2 = some w) (args.zip cells) ws →
      cells.length = args.length →
      scanLoop (scanArg drv) cells (argTargets args i) (pre ++ args.map (fun a => a.2)) =
        (GoError.nil, pre ++ ws) := by
  induction args with
  | nil =>
    intro cells ws pre i _ hf hl
    simp at hf
    subst hf
    cases cells <;> simp [argTargets, scanLoop]
  | cons a as ih =>
    intro cells ws pre i hi hf hl
    obtain ⟨t, v⟩ := a
    cases cells with
    | nil => simp at hl
    | cons c cs =>
      simp only [List.zip_cons_cons, List.forall₂_cons_left_iff] at hf
      obtain ⟨w, ws2, hw, hrest, rfl⟩ := hf
      simp only [argTargets, List.map_cons, scanLoop]
      rw [scanArg_at drv t _ c pre _ v w i hi (scanDest_eq drv t v w c hw)]
      simp only
      have := ih cs ws2 (pre ++ [w]) (i + 1) (by simp [hi]) hrest (by simpa using hl)
      simpa using this

/-- C10, as amended: in tuple mode (any number of destinations other than one)
on a result with at least one row, exactly one row is fetched and the cursor is
closed; when the row has as many columns as there are destinations and every
destination accepts the cell at its position, the call succeeds and destination
`i` holds what row 0's column `i` stored; when the number of columns differs
from the number of destinations, `rows.Scan` reports the arity error and no
destination is modified. -/
theorem rowsModel_tuple (drv : Driver) (rows : Rows) (args : List (GoType × GoVal))
    (row : List Cell) (rest : List (List Cell)) (hN : args.length ≠ 1)
    (hp : rows.pending = row :: rest) :
    (rowsModel drv rows args).rows = ⟨rows.columns, rest, rows.fetched + 1, true⟩ ∧
    (row.length ≠ args.length →
      (rowsModel drv rows args).res = .ret arityErr ∧
      (rowsModel drv rows args).dests = args.map (fun a => a.2)) ∧
    (∀ ws, row.length = args.length →
      List.Forall₂ (fun ac w => scanDest drv ac.1 ac.2 = some w) (args.zip row) ws →
      (rowsModel drv rows args).res = .ret .nil ∧
      (rowsModel drv rows args).dests = ws) := by
  have hrm : rowsModel drv rows args =
      ⟨.ret (Rows.Scan (scanArg drv) row (argTargets args 0) (args.map (fun a => a.2))).1,
        (Rows.Scan (scanArg drv) row (argTargets args 0) (args.map (fun a => a.2))).2,
        (rows.advance 1).Close⟩ := by
    match args, hN with
    | [], _ => simp [rowsModel, hp]
    | _ :: _ :: _, _ => simp [rowsModel, hp]
  rw [hrm]
  refine ⟨?_, ?_, ?_⟩
  · simp [Rows.advance, Rows.Close, hp]
  · intro hl
    have : (argTargets args 0).length ≠ row.length := by
      rw [argTargets_length]; exact fun h => hl h.symm
    simp [Rows.Scan, this]
  · intro ws hl hf
    have h1 : ¬ (argTargets args 0).length ≠ row.length := by
      rw [argTargets_length]; simp [hl]
    have := scanLoop_args drv args row ws [] 0 rfl hf hl
    simp only [List.nil_append] at this
    simp [Rows.Scan, h1, this]

/-- C10, counterexample: three destinations against a result of five columns and
two rows: the call returns the arity error of `rows.Scan`, which is not nil, and
no destination is filled. -/
theorem rowsModel_tuple_counterexample :
    (rowsModel demoDriver
      (cursor ["a", "b", "c", "d", "e"]
        [[some (.int 1), some (.int 2), some (.int 3), some (.int 4), some (.int 5)],
         [some (.int 6), some (.int 7), some (.int 8), some (.int 9), some (.int 10)]])
      [(.ptr tInt, .ref .zero), (.ptr tInt, .ref .zero), (.ptr tInt, .ref .zero)]).res =
      .ret arityErr ∧
    arityErr ≠ .nil ∧
    (rowsModel demoDriver
      (cursor ["a", "b", "c", "d", "e"]
        [[some (.int 1), some (.int 2), some (.int 3), some (.int 4), some (.int 5)],
         [some (.int 6), some (.int 7), some (.int 8), some (.int 9), some (.int 10)]])
      [(.ptr tInt, .ref .zero), (.ptr tInt, .ref .zero), (.ptr tInt, .ref .zero)]).dests =
      [.ref .zero, .ref .zero, .ref .zero] := by
  refine ⟨rfl, by decide, rfl⟩

/-- C10, witness: three destinations against a result of three columns and two
rows are filled from row 0 by position. -/
theorem rowsModel_tuple_witness :
    (rowsModel demoDriver
      (cursor ["a", "b", "c"]
        [[some (.int 1), some (.int 2), some (.int 3)],
         [some (.int 6), some (.int 7), some (.int 8)]])
      [(.ptr tInt, .ref .zero), (.ptr tInt, .ref .zero), (.ptr tInt, .ref .zero)]).dests =
      [.ref (.data (.int 1)), .ref (.data (.int 2)), .ref (.data (.int 3))] :=
  ((rowsModel_tuple demoDriver
      (cursor ["a", "b", "c"]
        [[some (.int 1), some (.int 2), some (.int 3)],
         [some (.int 6), some (.int 7), some (.int 8)]])
      [(.ptr tInt, .ref .zero), (.ptr tInt, .ref .zero), (.ptr tInt, .ref .zero)]
      [some (.int 1), some (.int 2), some (.int 3)]
      [[some (.int 6), some (.int 7), some (.int 8)]] (by decide) rfl).2.2
    [.ref (.data (.int 1)), .ref (.data (.int 2)), .ref (.data (.int 3))] rfl
    (List.Forall₂.cons rfl (List.Forall₂.cons rfl (List.Forall₂.cons rfl List.Forall₂.nil)))).2

/-! ## Slice destinations and the indexed callback: C4, C7 -/

/-- Storage reached through at least one pointer can be set. -/
theorem derefDest_settable (t0 : GoType) (v0 : GoVal) (s : Bool) :
    ∀ t v b, derefDest t0 v0 s = some (t, v, b) → (t0.Kind = .Ptr ∨ s = true) → b = true := by
  induction t0, v0, s using derefDest.induct with
  | case1 e w s ih =>
    intro t v b h _
    simp only [derefDest] at h
    exact ih t v b h (Or.inr rfl)
  | case2 e ih =>
    intro t v b h _
    simp only [derefDest, if_true] at h
    exact ih t v b h (Or.inr rfl)
  | case3 e s hs =>
    intro t v b h
    simp [derefDest, hs] at h
  | case4 e v s h1 h2 =>
    intro t w b h
    cases v <;> simp_all [derefDest]
  | case5 t v s h1 h2 h3 =>
    intro t2 v2 b h hk
    cases t <;> simp_all [derefDest, GoType.Kind]

/-- The append of the row loops, for an element type that is not a pointer to a
pointer. -/
theorem appendRow_eq (elem : GoType) (inst : GoVal) (sl : List GoVal)
    (he : ∀ e, elem = .ptr e → e.Kind ≠ .Ptr) :
    appendRow elem inst sl = some (sl ++ [rowElem elem inst]) := by
  cases elem with
  | ptr e => simp [appendRow, rowElem, he e rfl]
  | _ => simp [appendRow, rowElem]

/-- When every pending row decodes, the loop of lines 197-211 appends one element
per row and runs to the end. -/
theorem sliceLoop_all (drv : Driver) (dt elem : GoType) (adder : List (List Nat))
    (he : ∀ e, elem = .ptr e → e.Kind ≠ .Ptr) (pending : List (List Cell)) :
    ∀ (insts sl : List GoVal),
      List.Forall₂ (fun row inst => decodeRow drv dt adder row = .ok inst) pending insts →
      rowsModel.sliceLoop drv dt elem adder pending sl =
        ⟨none, sl ++ insts.map (rowElem elem), pending.length⟩ := by
  induction pending with
  | nil =>
    intro insts sl hf
    simp at hf
    subst hf
    simp [rowsModel.sliceLoop]
  | cons row rest ih =>
    intro insts sl hf
    simp only [List.forall₂_cons_left_iff] at hf
    obtain ⟨inst, insts2, h1, h2, rfl⟩ := hf
    simp only [rowsModel.sliceLoop, h1, appendRow_eq elem inst sl he, ih insts2 _ h2]
    simp

/-- C4: for a pointer to a slice whose element type is not a pointer to a pointer
(a slice of structs or of pointers to structs), whatever the slice held before,
when the cursor reports its columns and every one of its `N` rows decodes,
`rowsModel` returns no error, fetches all rows and closes the cursor, and the
destination slice holds exactly `N` elements, element `i` being the instance
decoded from row `i` (a pointer to it for a pointer element type); with no row
the destination is the empty slice. -/
theorem rowsModel_slice (drv : Driver) (rows : Rows) (t0 : GoType) (v0 : GoVal)
    (elem : GoType) (sc : Bool) (v : GoVal) (b : Bool) (columns : List String)
    (insts : List GoVal)
    (ht : t0.Kind = .Ptr) (hd : derefDest t0 v0 false = some (.slice elem sc, v, b))
    (he : ∀ e, elem = .ptr e → e.Kind ≠ .Ptr) (hc : rows.columns = .ok columns)
    (hdec : List.Forall₂ (fun row inst => decodeRow drv (derefType elem)
      (getAddressIndex (derefType elem) columns) row = .ok inst) rows.pending insts) :
    (rowsModel drv rows [(t0, v0)]).res = .ret .nil ∧
    (rowsModel drv rows [(t0, v0)]).dests = [setDest t0 v0 (.slice (insts.map (rowElem elem)))] ∧
    derefDest t0 (setDest t0 v0 (.slice (insts.map (rowElem elem)))) false =
      some (.slice elem sc, .slice (insts.map (rowElem elem)), b) ∧
    (insts.map (rowElem elem)).length = rows.pending.length ∧
    (rows.pending = [] → insts.map (rowElem elem) = []) ∧
    (rowsModel drv rows [(t0, v0)]).rows =
      ⟨rows.columns, [], rows.fetched + rows.pending.length, true⟩ := by
  have hb : b = true := derefDest_settable t0 v0 false _ v b hd (Or.inl ht)
  have hl := sliceLoop_all drv (derefType elem) elem (getAddressIndex (derefType elem) columns)
    he rows.pending insts [] hdec
  have hk : ¬ t0.Kind ≠ .Ptr := by simp [ht]
  refine ⟨?_, ?_, derefDest_setDest t0 v0 false _ _ v b hd, ?_, ?_, ?_⟩
  · simp [rowsModel, hk, hd, hc, hl]
  · simp [rowsModel, hk, hd, hc, hl, hb]
  · simp [hdec.length_eq]
  · intro h0
    rw [h0] at hdec
    simp at hdec
    simp [hdec]
  · simp [rowsModel, hk, hd, hc, hl, Rows.advance, Rows.Close]

/-- The loop of `rowsModelWithFunc` when the callback first fails on the last of
the rows `rowsK`, all of which decode. -/
theorem funcLoop_fail (drv : Driver) (dt elem : GoType) (adder : List (List Nat))
    (f : Nat → GoError) (he : ∀ e, elem = .ptr e → e.Kind ≠ .Ptr) (err : GoError)
    (herr : err ≠ .nil) (rowsK : List (List Cell)) :
    ∀ (later : List (List Cell)) (insts sl : List GoVal) (index : Nat) (cur : GoVal),
      rowsK ≠ [] →
      List.Forall₂ (fun row inst => decodeRow drv dt adder row = .ok inst) rowsK insts →
      (∀ i, i + 1 < rowsK.length → f (index + i) = .nil) →
      f (index + (rowsK.length - 1)) = err →
      rowsModelWithFunc.loop drv dt elem adder f (rowsK ++ later) sl index cur =
        ⟨some (.ret (.myDbError err SliceFuncErr)), .slice (sl ++ insts.map (rowElem elem)),
          rowsK.length,
          (List.range rowsK.length).map (fun i =>
            (index + i, GoVal.slice (sl ++ (insts.take (i + 1)).map (rowElem elem))))⟩ := by
  induction rowsK with
  | nil => intro _ _ _ _ _ h; exact absurd rfl h
  | cons row rest ih =>
    intro later insts sl index cur _ hf hok hfail
    simp only [List.forall₂_cons_left_iff] at hf
    obtain ⟨inst, insts2, h1, h2, rfl⟩ := hf
    simp only [List.cons_append, rowsModelWithFunc.loop, h1, appendRow_eq elem inst sl he,
      List.append_eq]
    by_cases hr : rest = []
    · subst hr
      simp at h2
      subst h2
      simp only [List.length_singleton, Nat.sub_self, Nat.add_zero] at hfail
      rw [hfail]
      cases err with
      | nil => exact absurd rfl herr
      | _ => simp [List.range_succ_eq_map]
    · have h0 : f index = .nil := by
        have := hok 0 (by
          simp only [List.length_cons]
          have : 0 < rest.length := List.length_pos.mpr hr
          omega)
        simpa using this
      rw [h0]
      simp only
      rw [ih later insts2 (sl ++ [rowElem elem inst]) (index + 1) _ hr h2
        (by
          intro i hi
          have := hok (i + 1) (by simp only [List.length_cons]; omega)
          rw [← this]; congr 1; omega)
        (by
          rw [← hfail]; congr 1
          simp only [List.length_cons]
          have : 0 < rest.length := List.length_pos.mpr hr
          omega)]
      simp only [List.length_cons, List.range_succ_eq_map, List.map_cons, List.map_map]
      simp [Function.comp_def, Nat.add_assoc, Nat.add_comm 1]

/-- C7: in `rowsModelWithFunc` on a pointer to a slice, when the first `K` rows
decode, the callback accepts the indices below `K - 1` and fails with `err` on
its `K`-th invocation: the calls made are exactly the invocations `0 .. K-1`,
invocation `i` receiving the index `i` while the caller's slice holds the rows
`0 .. i`; the iteration stops there (`K` rows fetched), the error returned is
`err` wrapped with the kind `SliceFuncErr`, and the destination slice holds the
`K` rows decoded, in order. -/
theorem rowsModelWithFunc_callback_failure (drv : Driver) (rows : Rows) (t0 : GoType)
    (v0 : GoVal) (elem : GoType) (sc : Bool) (v : GoVal) (b : Bool)
    (columns : List String) (f : Nat → GoError) (rowsK later : List (List Cell))
    (insts : List GoVal) (err : GoError)
    (ht : t0.Kind = .Ptr) (hd : derefDest t0 v0 false = some (.slice elem sc, v, b))
    (he : ∀ e, elem = .ptr e → e.Kind ≠ .Ptr) (hc : rows.columns = .ok columns)
    (hp : rows.pending = rowsK ++ later) (hK : rowsK ≠ [])
    (hdec : List.Forall₂ (fun row inst => decodeRow drv (derefType elem)
      (getAddressIndex (derefType elem) columns) row = .ok inst) rowsK insts)
    (hok : ∀ i, i + 1 < rowsK.length → f i = .nil)
    (hfail : f (rowsK.length - 1) = err) (herr : err ≠ .nil) :
    (rowsModelWithFunc drv rows (t0, v0) f).res = .ret (.myDbError err SliceFuncErr) ∧
    IsThisCode (.myDbError err SliceFuncErr) SliceFuncErr = true ∧
    (rowsModelWithFunc drv rows (t0, v0) f).dest =
      setDest t0 v0 (.slice (insts.map (rowElem elem))) ∧
    derefDest t0 (rowsModelWithFunc drv rows (t0, v0) f).dest false =
      some (.slice elem sc, .slice (insts.map (rowElem elem)), b) ∧
    (insts.map (rowElem elem)).length = rowsK.length ∧
    (rowsModelWithFunc drv rows (t0, v0) f).calls =
      (List.range rowsK.length).map (fun i =>
        (i, GoVal.slice ((insts.take (i + 1)).map (rowElem elem)))) ∧
    (rowsModelWithFunc drv rows (t0, v0) f).rows =
      ⟨rows.columns, later, rows.fetched + rowsK.length, true⟩ := by
  have hl := funcLoop_fail drv (derefType elem) elem (getAddressIndex (derefType elem) columns)
    f he err herr rowsK later insts [] 0 v hK hdec
    (by intro i hi; simpa using hok i hi) (by simpa using hfail)
  simp only [List.nil_append, Nat.zero_add] at hl
  have hk : ¬ t0.Kind ≠ .Ptr := by simp [ht]
  have hout : rowsModelWithFunc drv rows (t0, v0) f =
      ⟨.ret (.myDbError err SliceFuncErr), setDest t0 v0 (.slice (insts.map (rowElem elem))),
        (rows.advance rowsK.length).Close,
        (List.range rowsK.length).map (fun i =>
          (i, GoVal.slice ((insts.take (i + 1)).map (rowElem elem))))⟩ := by
    simp [rowsModelWithFunc, hk, hd, hc, hp, hl]
  rw [hout]
  refine ⟨rfl, ?_, rfl, derefDest_setDest t0 v0 false _ _ v b hd, ?_, rfl, ?_⟩
  · simp [IsThisCode]
  · simp [hdec.length_eq]
  · simp [Rows.advance, Rows.Close, hp]

/-- C7, witness: three rows into a `*[]Dup` with a callback that fails on its
second invocation: the slice holds two elements. -/
theorem rowsModelWithFunc_callback_failure_witness :
    (rowsModelWithFunc demoDriver
      (cursor ["x"] [[some (.int 5)], [some (.int 6)], [some (.int 7)]])
      (.ptr (.slice tDup false), .ref (.slice []))
      (fun i => if i = 1 then .plain "stop" else .nil)).dest =
      .ref (.slice [.struct [.zero, .data (.int 5)], .struct [.zero, .data (.int 6)]]) :=
  (rowsModelWithFunc_callback_failure demoDriver
    (cursor ["x"] [[some (.int 5)], [some (.int 6)], [some (.int 7)]])
    (.ptr (.slice tDup false)) (.ref (.slice [])) tDup false (.slice []) true ["x"]
    (fun i => if i = 1 then .plain "stop" else .nil)
    [[some (.int 5)], [some (.int 6)]] [[some (.int 7)]]
    [.struct [.zero, .data (.int 5)], .struct [.zero, .data (.int 6)]] (.plain "stop")
    rfl rfl (by intro e h; cases h) rfl rfl (by simp)
    (List.Forall₂.cons rfl (List.Forall₂.cons rfl List.Forall₂.nil))
    (by intro i hi; have h0 : i = 0 := by simp at hi; omega
        subst h0; rfl) rfl (by simp)).2.2.1

/-- C4, witness: two rows into a `*[]*Dup` that held one element before. -/
theorem rowsModel_slice_witness :
    (rowsModel demoDriver (cursor ["x"] [[some (.int 5)], [some (.int 6)]])
      [(.ptr (.slice (.ptr tDup) false), .ref (.slice [.nil]))]).dests =
      [.ref (.slice [.ref (.struct [.zero, .data (.int 5)]),
        .ref (.struct [.zero, .data (.int 6)])])] :=
  (rowsModel_slice demoDriver (cursor ["x"] [[some (.int 5)], [some (.int 6)]])
    (.ptr (.slice (.ptr tDup) false)) (.ref (.slice [.nil])) (.ptr tDup) false (.slice [.nil])
    true ["x"] [.struct [.zero, .data (.int 5)], .struct [.zero, .data (.int 6)]]
    rfl rfl (by intro e h; cases h; decide) rfl
    (List.Forall₂.cons rfl (List.Forall₂.cons rfl List.Forall₂.nil))).2.1

/-! ## The map of `getFieldList` -/

/-- Entries of a map after an assignment. -/
theorem MapIndex.mem_set (m : MapIndex) (k : String) (v : List Nat) (e : String × List Nat) :
    e ∈ m.set k v ↔ (e ∈ m ∧ e.1 ≠ k) ∨ e = (k, v) := by
  simp [MapIndex.set, List.mem_filter]

/-- An assignment keeps the keys distinct. -/
theorem MapIndex.nodup_set (m : MapIndex) (k : String) (v : List Nat)
    (h : (m.map (fun e => e.1)).Nodup) : ((m.set k v).map (fun e => e.1)).Nodup := by
  unfold MapIndex.set
  rw [List.map_append, List.nodup_append]
  refine ⟨?_, by simp, ?_⟩
  · exact (List.filter_sublist m).map _ |>.nodup h
  · intro a ha hb
    simp only [List.map_cons, List.map_nil, List.mem_singleton] at hb
    subst hb
    simp only [List.mem_map, List.mem_filter] at ha
    obtain ⟨e, ⟨_, he⟩, rfl⟩ := ha
    simp at he

/-- With distinct keys, the lookup finds exactly the entries of the map. -/
theorem MapIndex.get_iff (m : MapIndex) (h : (m.map (fun e => e.1)).Nodup) (k : String)
    (p : List Nat) : m.get k = some p ↔ (k, p) ∈ m := by
  induction m with
  | nil => simp [MapIndex.get]
  | cons e rest ih =>
    obtain ⟨k1, p1⟩ := e
    simp only [List.map_cons, List.nodup_cons] at h
    have ih2 := ih h.2
    unfold MapIndex.get at ih2 ⊢
    by_cases hk : k1 = k
    · subst hk
      simp only [List.find?_cons, beq_self_eq_true, Option.map_some', Option.some.injEq,
        List.mem_cons, Prod.mk.injEq, true_and]
      constructor
      · intro hp; exact Or.inl hp.symm
      · rintro (hp | hp)
        · exact hp.symm
        · exact absurd (List.mem_map_of_mem (fun e => e.1) hp) h.1
    · have hb : (k1 == k) = false := by simpa using hk
      simp only [List.find?_cons, hb, List.mem_cons, Prod.mk.injEq]
      rw [ih2]
      constructor
      · intro hp; exact Or.inr hp
      · rintro (hp | hp)
        · exact absurd hp.1.symm hk
        · exact hp

/-- The element at index `n` and the rest after it, from the list dropped to `n`. -/
theorem drop_cons_facts {α : Type} (all : List α) (n : Nat) (x : α) (rest : List α)
    (h : all.drop n = x :: rest) : all[n]? = some x ∧ all.drop (n + 1) = rest := by
  constructor
  · have := congrArg (fun l => l[0]?) h
    simpa using this
  · have := congrArg List.tail h
    simpa using this

/-- The fields visited for a struct are the fields embedded through a pointer to
it. -/
theorem rootFields_of_struct (e : GoType) (h : e.Kind = .Struct) :
    rootFields e = embeddedFields (.ptr e) := by
  cases e <;> simp [GoType.Kind, rootFields, embeddedFields] at h ⊢

/-- Every entry `getFieldList` adds is a path the code can record: the prefix it
was called with followed by a leaf path of the struct visited. -/
theorem getFieldList_f_sound (dest : GoType) (l : List Nat) (m : MapIndex) :
    ∀ (k : String) (p : List Nat), (k, p) ∈ getFieldList.f dest l m →
      (k, p) ∈ m ∨ ∃ s, p = l ++ s ∧ LeafPath (rootFields dest) s k := by
  have leafCase : ∀ (rest : List (StructField × GoType)) (n : Nat) (l : List Nat)
      (m : MapIndex) (tf : StructField) (ty : GoType), recursed tf ty = false →
      (∀ (all : List (StructField × GoType)), all.drop (n + 1) = rest →
        ∀ (k : String) (p : List Nat),
          (k, p) ∈ getFieldList.loop rest (n + 1) l (m.set (columnOf tf) (l ++ [n])) →
          (k, p) ∈ m.set (columnOf tf) (l ++ [n]) ∨ ∃ s, p = l ++ s ∧ LeafPath all s k) →
      ∀ (all : List (StructField × GoType)), all.drop n = (tf, ty) :: rest →
        ∀ (k : String) (p : List Nat),
          (k, p) ∈ getFieldList.loop rest (n + 1) l (m.set (columnOf tf) (l ++ [n])) →
          (k, p) ∈ m ∨ ∃ s, p = l ++ s ∧ LeafPath all s k := by
    intro rest n l m tf ty hrec ih all hall k p hkp
    obtain ⟨hn, hd⟩ := drop_cons_facts all n _ rest hall
    rcases ih all hd k p hkp with h | h
    · rw [MapIndex.mem_set] at h
      rcases h with h | h
      · exact Or.inl h.1
      · simp only [Prod.mk.injEq] at h
        refine Or.inr ⟨[n], h.2, ?_⟩
        exact ⟨tf, ty, hn, Or.inr ⟨hrec, rfl, h.1.symm⟩⟩
    · exact Or.inr h
  have recCase : ∀ (rest : List (StructField × GoType)) (n : Nat) (l : List Nat)
      (m : MapIndex) (tf : StructField) (ty inner : GoType), recursed tf ty = true →
      rootFields inner = embeddedFields ty →
      (∀ (k : String) (p : List Nat), (k, p) ∈ getFieldList.f inner (l ++ [n]) m →
        (k, p) ∈ m ∨ ∃ s, p = (l ++ [n]) ++ s ∧ LeafPath (rootFields inner) s k) →
      (∀ (all : List (StructField × GoType)), all.drop (n + 1) = rest →
        ∀ (k : String) (p : List Nat),
          (k, p) ∈ getFieldList.loop rest (n + 1) l (getFieldList.f inner (l ++ [n]) m) →
          (k, p) ∈ getFieldList.f inner (l ++ [n]) m ∨ ∃ s, p = l ++ s ∧ LeafPath all s k) →
      ∀ (all : List (StructField × GoType)), all.drop n = (tf, ty) :: rest →
        ∀ (k : String) (p : List Nat),
          (k, p) ∈ getFieldList.loop rest (n + 1) l (getFieldList.f inner (l ++ [n]) m) →
          (k, p) ∈ m ∨ ∃ s, p = l ++ s ∧ LeafPath all s k := by
    intro rest n l m tf ty inner hrec hroot ih1 ih2 all hall k p hkp
    obtain ⟨hn, hd⟩ := drop_cons_facts all n _ rest hall
    rcases ih2 all hd k p hkp with h | h
    · rcases ih1 k p h with h | ⟨s, hp, hs⟩
      · exact Or.inl h
      · refine Or.inr ⟨n :: s, by simp [hp], ?_⟩
        exact ⟨tf, ty, hn, Or.inl ⟨hrec, hroot ▸ hs⟩⟩
    · exact Or.inr h
  refine getFieldList.f.induct
    (fun dest l m => ∀ (k : String) (p : List Nat), (k, p) ∈ getFieldList.f dest l m →
        (k, p) ∈ m ∨ ∃ s, p = l ++ s ∧ LeafPath (rootFields dest) s k)
    (fun fields n l m => ∀ (all : List (StructField × GoType)), all.drop n = fields →
      ∀ (k : String) (p : List Nat), (k, p) ∈ getFieldList.loop fields n l m →
        (k, p) ∈ m ∨ ∃ s, p = l ++ s ∧ LeafPath all s k)
    ?_ ?_ ?_ ?_ ?_ ?_ ?_ ?_ ?_ dest l m
  · intro l m e ih k p h
    rw [getFieldList.f] at h
    simpa [rootFields] using ih k p h
  · intro l m nm sc fields ih k p h
    rw [getFieldList.f] at h
    exact ih fields (by simp) k p h
  · intro t l m h1 h2 k p h
    cases t with
    | ptr e => exact absurd rfl (h1 e)
    | struct nm sc fs => exact absurd rfl (h2 nm sc fs)
    | _ => simp only [getFieldList.f] at h; exact Or.inl h
  · intro n l m all _ k p h
    rw [getFieldList.loop] at h
    exact Or.inl h
  · intro n l m tf rest e hc ih1 ih2 all hall k p h
    rw [getFieldList.loop] at h
    simp only [hc, and_self, if_true] at h
    have hrec : recursed tf (.ptr e) = true := by simp [recursed, hc.1, hc.2]
    have hroot : rootFields e = embeddedFields (.ptr e) := rootFields_of_struct e hc.1
    exact recCase rest n l m tf (.ptr e) e hrec hroot ih1 ih2 all hall k p h
  · intro n l m tf rest e hc ih all hall k p h
    rw [getFieldList.loop] at h
    simp only [hc, if_false] at h
    have hrec : recursed tf (.ptr e) = false := by
      simp only [recursed, Bool.and_eq_false_imp, beq_iff_eq]
      intro h1
      by_contra h2
      exact hc ⟨h1, by simpa using h2⟩
    exact leafCase rest n l m tf (.ptr e) hrec ih all hall k p h
  · intro n l m tf rest nm sc fs hc ih1 ih2 all hall k p h
    rw [getFieldList.loop] at h
    simp only [hc, ne_eq, not_false_eq_true, and_self, if_true] at h
    have hrec : recursed tf (.struct nm sc fs) = true := by simp [recursed, hc.1, hc.2]
    exact recCase rest n l m tf (.struct nm sc fs) (.struct nm sc fs) hrec rfl ih1 ih2 all hall
      k p h
  · intro n l m tf rest nm sc fs hc ih all hall k p h
    rw [getFieldList.loop] at h
    simp only [hc, if_false] at h
    have hrec : recursed tf (.struct nm sc fs) = false := by
      simp only [recursed, Bool.and_eq_false_imp, bne_iff_ne, ne_eq]
      intro h1
      by_contra h2
      exact hc ⟨h1, by simpa using h2⟩
    exact leafCase rest n l m tf (.struct nm sc fs) hrec ih all hall k p h
  · intro n l m tf ty rest h1 h2 ih all hall k p h
    have hrec : recursed tf ty = false := by
      cases ty with
      | ptr e => exact absurd rfl (h1 e)
      | struct nm sc fs => exact absurd rfl (h2 nm sc fs)
      | _ => rfl
    have h3 : (k, p) ∈ getFieldList.loop rest (n + 1) l (m.set (columnOf tf) (l ++ [n])) := by
      cases ty with
      | ptr e => exact absurd rfl (h1 e)
      | struct nm sc fs => exact absurd rfl (h2 nm sc fs)
      | _ => simp only [getFieldList.loop] at h; exact h
    exact leafCase rest n l m tf ty hrec ih all hall k p h3

/-- Assignments of `getFieldList` keep the keys of the map distinct. -/
theorem getFieldList_f_nodup (dest : GoType) (l : List Nat) (m : MapIndex) :
    (m.map (fun e => e.1)).Nodup → ((getFieldList.f dest l m).map (fun e => e.1)).Nodup := by
  refine getFieldList.f.induct
    (fun dest l m => (m.map (fun e => e.1)).Nodup →
      ((getFieldList.f dest l m).map (fun e => e.1)).Nodup)
    (fun fields n l m => (m.map (fun e => e.1)).Nodup →
      ((getFieldList.loop fields n l m).map (fun e => e.1)).Nodup)
    ?_ ?_ ?_ ?_ ?_ ?_ ?_ ?_ ?_ dest l m
  · intro l m e ih h
    rw [getFieldList.f]
    exact ih h
  · intro l m nm sc fields ih h
    rw [getFieldList.f]
    exact ih h
  · intro t l m h1 h2 h
    cases t with
    | ptr e => exact absurd rfl (h1 e)
    | struct nm sc fs => exact absurd rfl (h2 nm sc fs)
    | _ => simp only [getFieldList.f]; exact h
  · intro n l m h
    rw [getFieldList.loop]
    exact h
  · intro n l m tf rest e hc ih1 ih2 h
    rw [getFieldList.loop]
    simp only [hc, and_self, if_true]
    exact ih2 (ih1 h)
  · intro n l m tf rest e hc ih h
    rw [getFieldList.loop]
    simp only [hc, if_false]
    exact ih (MapIndex.nodup_set m _ _ h)
  · intro n l m tf rest nm sc fs hc ih1 ih2 h
    rw [getFieldList.loop]
    simp only [hc, ne_eq, not_false_eq_true, and_self, if_true]
    exact ih2 (ih1 h)
  · intro n l m tf rest nm sc fs hc ih h
    rw [getFieldList.loop]
    simp only [hc, if_false]
    exact ih (MapIndex.nodup_set m _ _ h)
  · intro n l m tf ty rest h1 h2 ih h
    cases ty with
    | ptr e => exact absurd rfl (h1 e)
    | struct nm sc fs => exact absurd rfl (h2 nm sc fs)
    | _ => simp only [getFieldList.loop]; exact ih (MapIndex.nodup_set m _ _ h)

/-- The keys of the map `getFieldList` returns are distinct. -/
theorem getFieldList_nodup (src : GoType) : ((getFieldList src).map (fun e => e.1)).Nodup :=
  getFieldList_f_nodup src [] [] (by simp)

/-- Every entry of the map `getFieldList` returns is a path the code can record. -/
theorem getFieldList_leafPath (src : GoType) (k : String) (p : List Nat)
    (h : (k, p) ∈ getFieldList src) : LeafPath (rootFields src) p k := by
  rcases getFieldList_f_sound src [] [] k p h with h | ⟨s, hp, hs⟩
  · simp at h
  · simpa [hp] using hs

/-- The lookup in the map `getFieldList` returns finds exactly its entries. -/
theorem getFieldList_get_iff (src : GoType) (k : String) (p : List Nat) :
    (getFieldList src).get k = some p ↔ (k, p) ∈ getFieldList src :=
  MapIndex.get_iff _ (getFieldList_nodup src) k p

/-- No recorded path extends another one, and a path has one column name. -/
theorem LeafPath.antichain : ∀ (p q : List Nat) (all : List (StructField × GoType))
    (k1 k2 : String), LeafPath all p k1 → LeafPath all q k2 → p <+: q → p = q ∧ k1 = k2
  | [], _, _, _, _, h, _, _ => by simp [LeafPath] at h
  | n :: r, [], _, _, _, _, _, hpre => by simp at hpre
  | n :: r, n2 :: r2, all, k1, k2, h1, h2, hpre => by
    rw [List.cons_prefix_cons] at hpre
    obtain ⟨hn, hpre2⟩ := hpre
    subst hn
    obtain ⟨tf, ty, hf, hc⟩ := h1
    obtain ⟨tf2, ty2, hf2, hc2⟩ := h2
    rw [hf] at hf2
    simp only [Option.some.injEq, Prod.mk.injEq] at hf2
    obtain ⟨rfl, rfl⟩ := hf2
    rcases hc with ⟨hr, hl⟩ | ⟨hr, hr0, hk⟩
    · rcases hc2 with ⟨_, hl2⟩ | ⟨hr2, _, _⟩
      · obtain ⟨h3, h4⟩ := LeafPath.antichain r r2 _ k1 k2 hl hl2 hpre2
        exact ⟨by rw [h3], h4⟩
      · rw [hr] at hr2; cases hr2
    · rcases hc2 with ⟨hr2, _⟩ | ⟨_, hr20, hk2⟩
      · rw [hr] at hr2; cases hr2
      · subst hr0 hr20
        exact ⟨rfl, hk.symm.trans hk2⟩

/-- The first segment `strings.Split` returns is the text before the first
separator. -/
theorem stringsSplit_head (sep : Char) (cs : List Char) :
    (stringsSplit sep cs).headD [] = cs.takeWhile (fun c => c != sep) := by
  induction cs with
  | nil => rfl
  | cons c rest ih =>
    by_cases hc : c = sep
    · simp [stringsSplit, hc]
    · simp only [stringsSplit, hc, if_false]
      have hne : (c != sep) = true := by simpa using hc
      rw [List.takeWhile_cons, hne]
      simp only [if_true]
      rw [← ih]
      cases stringsSplit sep rest <;> rfl

/-- The column name the code computes is the column name in the words of the
spec. -/
theorem columnOf_eq_specColumn (tf : StructField) : columnOf tf = specColumn tf := by
  unfold columnOf specColumn
  simp only [stringsSplit_head]
  by_cases h : List.takeWhile (fun c => c != ',') tf.Tag.data = []
  · simp [h]
  · have h2 : String.mk (List.takeWhile (fun c => c != ',') tf.Tag.data) ≠ "" := by
      intro hh
      apply h
      have := congrArg String.data hh
      simpa using this
    simp [h, h2]

/-- A field the code recurses into is an embedded composite. -/
theorem recursed_true (tf : StructField) (ty : GoType) (h : recursed tf ty = true) :
    tf.Anonymous = true ∧ isComposite ty = true := by
  cases ty with
  | ptr e =>
    cases e <;> simp_all [recursed, GoType.Kind, isComposite]
  | struct nm sc fs => simp_all [recursed, isComposite]
  | _ => simp [recursed] at h

/-- A field the code records is a leaf in the words of the spec. -/
theorem recursed_false (tf : StructField) (ty : GoType) (h : recursed tf ty = false) :
    specLeaf tf ty = true := by
  cases ty with
  | ptr e =>
    cases e <;> simp_all [recursed, GoType.Kind, isComposite, specLeaf, isTimestamp]
  | struct nm sc fs =>
    simp only [recursed, Bool.and_eq_false_imp, bne_iff_ne, ne_eq] at h
    simp only [specLeaf, isComposite, isTimestamp, Bool.and_true, Bool.or_eq_true,
      Bool.not_eq_true', beq_iff_eq]
    by_cases hn : nm = "Time"
    · exact Or.inr hn
    · exact Or.inl (h hn)
  | _ => simp [specLeaf, isComposite]

/-- A path the code can record is the path of a leaf in the words of the spec,
at a depth equal to its length. -/
theorem LeafPath.toSpec : ∀ (p : List Nat) (all : List (StructField × GoType)) (k : String),
    LeafPath all p k → SpecPath all p k p.length
  | [], _, _, h => by simp [LeafPath] at h
  | [n], all, k, h => by
    obtain ⟨tf, ty, hf, hc⟩ := h
    rcases hc with ⟨_, hl⟩ | ⟨hr, _, hk⟩
    · simp [LeafPath] at hl
    · exact ⟨rfl, tf, ty, hf, recursed_false tf ty hr, by rw [← columnOf_eq_specColumn, hk]⟩
  | n :: m :: rest, all, k, h => by
    obtain ⟨tf, ty, hf, hc⟩ := h
    rcases hc with ⟨hr, hl⟩ | ⟨_, h0, _⟩
    · obtain ⟨ha, hcomp⟩ := recursed_true tf ty hr
      exact ⟨tf, ty, hf, ha, hcomp, (m :: rest).length, rfl,
        LeafPath.toSpec (m :: rest) _ k hl⟩
    · cases h0

/-- A path the code can record selects a field the code records, under the
column name of the field. -/
theorem LeafPath.fieldAt : ∀ (p : List Nat) (all : List (StructField × GoType)) (k : String),
    LeafPath all p k →
      ∃ tf ty, Mysql.fieldAt all p = some (tf, ty) ∧ columnOf tf = k ∧ recursed tf ty = false
  | [], _, _, h => by simp [LeafPath] at h
  | [n], all, k, h => by
    obtain ⟨tf, ty, hf, hc⟩ := h
    rcases hc with ⟨_, hl⟩ | ⟨hr, _, hk⟩
    · simp [LeafPath] at hl
    · exact ⟨tf, ty, by simp [Mysql.fieldAt, hf], hk, hr⟩
  | n :: m :: rest, all, k, h => by
    obtain ⟨tf, ty, hf, hc⟩ := h
    rcases hc with ⟨hr, hl⟩ | ⟨_, h0, _⟩
    · obtain ⟨tf2, ty2, h1, h2, h3⟩ := LeafPath.fieldAt (m :: rest) _ k hl
      exact ⟨tf2, ty2, by simp [Mysql.fieldAt, hf, h1], h2, h3⟩
    · cases h0

/-- A tag that is empty or starts with a comma gives the declared name. -/
theorem specColumn_fallback (tf : StructField)
    (h : tf.Tag = "" ∨ tf.Tag.data.head? = some ',') : specColumn tf = tf.Name := by
  have h0 : tf.Tag.data.takeWhile (fun c => c != ',') = [] := by
    rcases h with h | h
    · rw [h]; rfl
    · cases hd : tf.Tag.data with
      | nil => rfl
      | cons c cs =>
        rw [hd] at h
        simp only [List.head?_cons, Option.some.injEq] at h
        subst h
        simp
  simp [specColumn, h0]

/-! ## The keys of the resolver: C3 -/

/-- C3: for every entry `name -> path` of the map `getFieldList` returns for a
struct type, the field the path selects has `name` as its column name in the
words of the spec (the first comma-delimited segment of the tag when non-empty,
otherwise the declared name; so the declared name when the tag is empty or
starts with a comma); and the lookup of a result column finds a path exactly
when the column, as a string, is a key of the map: `getAddressIndex` gives the
path of the key equal to the column, and the empty path when no key equals it. -/
theorem getFieldList_key (nm : String) (sc : Bool) (fields : List (StructField × GoType))
    (name : String) (path : List Nat)
    (h : (name, path) ∈ getFieldList (.struct nm sc fields)) :
    (∃ tf ty, fieldAt fields path = some (tf, ty) ∧ name = specColumn tf ∧
      ((tf.Tag = "" ∨ tf.Tag.data.head? = some ',') → name = tf.Name)) ∧
    (∀ (column : String) (p : List Nat),
      (getFieldList (.struct nm sc fields)).get column = some p ↔
        (column, p) ∈ getFieldList (.struct nm sc fields)) ∧
    (∀ (columns : List String) (i : Nat) (column : String), columns[i]? = some column →
      (∀ p, (column, p) ∈ getFieldList (.struct nm sc fields) →
        (getAddressIndex (.struct nm sc fields) columns)[i]? = some p) ∧
      ((∀ p, (column, p) ∉ getFieldList (.struct nm sc fields)) →
        (getAddressIndex (.struct nm sc fields) columns)[i]? = some [])) := by
  refine ⟨?_, fun column p => getFieldList_get_iff _ column p, ?_⟩
  · obtain ⟨tf, ty, h1, h2, _⟩ := LeafPath.fieldAt path fields name
      (getFieldList_leafPath (.struct nm sc fields) name path h)
    refine ⟨tf, ty, h1, ?_, ?_⟩
    · rw [← h2, columnOf_eq_specColumn]
    · intro ht
      rw [← h2, columnOf_eq_specColumn]
      exact specColumn_fallback tf ht
  · intro columns i column hi
    constructor
    · intro p hp
      have hg := (getFieldList_get_iff (.struct nm sc fields) column p).mpr hp
      simp [getAddressIndex, hi, hg]
    · intro hno
      have hg : (getFieldList (.struct nm sc fields)).get column = none := by
        cases hq : (getFieldList (.struct nm sc fields)).get column with
        | none => rfl
        | some p =>
          exact absurd ((getFieldList_get_iff (.struct nm sc fields) column p).mp hq) (hno p)
      simp [getAddressIndex, hi, hg]

/-- C3, witness: in `Outer`, the field `Y` without tag is recorded under its
declared name, and the column `y` in another case matches no key. -/
theorem getFieldList_key_witness :
    (("Y", [1, 0]) : String × List Nat) ∈ getFieldList tOuter ∧
    (getFieldList tOuter).get "Y" = some [1, 0] ∧
    (getFieldList tOuter).get "y" = none ∧
    (getAddressIndex tOuter ["y", "Y"])[1]? = some [1, 0] :=
  ⟨by decide,
    ((getFieldList_key "Outer" false [(fld "X" "x", tInt), (emb "Mid", tMid)] "Y" [1, 0]
      (by decide)).2.1 "Y" [1, 0]).mpr (by decide),
    by decide,
    (((getFieldList_key "Outer" false [(fld "X" "x", tInt), (emb "Mid", tMid)] "Y" [1, 0]
      (by decide)).2.2 ["y", "Y"] 1 "Y" rfl).1 [1, 0] (by decide))⟩

/-! ## One step of a path -/

/-- The zero values of the fields, by index. -/
theorem zeroFields_getElem? (fields : List (StructField × GoType)) :
    ∀ n : Nat, (zeroFields fields)[n]? = (fields[n]?).map (fun f => zeroValue f.2) := by
  induction fields with
  | nil => intro n; simp [zeroFields]
  | cons f rest ih =>
    intro n
    obtain ⟨tf, ty⟩ := f
    cases n with
    | zero => simp [zeroFields]
    | succ k => simp [zeroFields, ih k]

/-- The step of a value agrees with the step of its type. -/
theorem child_childType (t : GoType) (v : GoVal) (n : Nat) (tf : StructField) (ct : GoType)
    (o : Option GoVal) (h : child t v n = some (tf, ct, o)) : childType t n = some (tf, ct) := by
  cases t with
  | struct nm sc fields =>
    cases v with
    | struct vals =>
      simp only [child, childType] at h ⊢
      split at h <;> simp_all
    | _ => simp [child] at h
  | _ => simp [child] at h

/-- After `setChild` at `n`, the step at `n` leads to the value stored. -/
theorem child_setChild_same (t : GoType) (v : GoVal) (n : Nat) (tf : StructField)
    (ct : GoType) (o : Option GoVal) (w : GoVal) (h : child t v n = some (tf, ct, o)) :
    child t (setChild t v n w) n = some (tf, ct, some w) := by
  cases t with
  | struct nm sc fields =>
    cases v with
    | struct vals =>
      simp only [child] at h
      split at h
      · rename_i tf2 e w0 hf hv
        simp only [Option.some.injEq, Prod.mk.injEq] at h
        obtain ⟨rfl, rfl, rfl⟩ := h
        have hn : n < vals.length := by
          by_contra hc
          rw [List.getElem?_eq_none (by omega)] at hv
          cases hv
        simp [child, setChild, hf, List.getElem?_set_self hn]
      · rename_i tf2 e hf hv
        simp only [Option.some.injEq, Prod.mk.injEq] at h
        obtain ⟨rfl, rfl, rfl⟩ := h
        have hn : n < vals.length := by
          by_contra hc
          rw [List.getElem?_eq_none (by omega)] at hv
          cases hv
        simp [child, setChild, hf, List.getElem?_set_self hn]
      · simp at h
      · rename_i tf2 ft fv h1 h2 h3 hf hv
        simp only [Option.some.injEq, Prod.mk.injEq] at h
        obtain ⟨rfl, rfl, rfl⟩ := h
        have hn : n < vals.length := by
          by_contra hc
          rw [List.getElem?_eq_none (by omega)] at hv
          cases hv
        cases ft with
        | ptr e => exact absurd rfl (h3 e)
        | _ => simp [child, setChild, hf, List.getElem?_set_self hn]
      · simp at h
    | _ => simp [child] at h
  | _ => simp [child] at h

/-- A `setChild` at `n` leaves the steps at the other indices as they were. -/
theorem child_setChild_other (t : GoType) (v : GoVal) (n m : Nat) (w : GoVal) (h : m ≠ n) :
    child t (setChild t v n w) m = child t v m := by
  cases t with
  | struct nm sc fields =>
    cases v with
    | struct vals =>
      simp only [setChild]
      split
      · simp only [child, List.getElem?_set_ne (Ne.symm h)]
      · simp only [child, List.getElem?_set_ne (Ne.symm h)]
      · rfl
    | _ => rfl
  | _ => rfl

/-- The step of a zero value leads to a zero value, when it leads to storage. -/
theorem child_zeroValue (t : GoType) (n : Nat) (tf : StructField) (ct : GoType) (cv : GoVal)
    (h : child t (zeroValue t) n = some (tf, ct, some cv)) : cv = zeroValue ct := by
  cases t with
  | struct nm sc fields =>
    simp only [zeroValue, child, zeroFields_getElem?] at h
    cases hf : fields[n]? with
    | none => simp [hf] at h
    | some f =>
      obtain ⟨tf2, ty⟩ := f
      simp only [hf, Option.map_some'] at h
      cases ty with
      | ptr e => simp [zeroValue] at h
      | basic b s =>
        simp only [zeroValue, Option.some.injEq, Prod.mk.injEq] at h
        obtain ⟨_, rfl, rfl⟩ := h
        rfl
      | slice e s =>
        simp only [zeroValue, Option.some.injEq, Prod.mk.injEq] at h
        obtain ⟨_, rfl, rfl⟩ := h
        rfl
      | struct nm2 sc2 fs =>
        simp only [zeroValue, Option.some.injEq, Prod.mk.injEq] at h
        obtain ⟨_, rfl, rfl⟩ := h
        rfl
  | _ => simp [zeroValue, child] at h

/-! ## Reading and writing along paths -/

/-- Storage read from a zero value holds the zero value of its type. -/
theorem zeroAt_zeroValue : ∀ (q : List Nat) (t : GoType), ZeroAt t (zeroValue t) q
  | [], t => by
    intro x h
    simp only [readAt, Option.some.injEq] at h
    simp [typeAt, h]
  | n :: q, t => by
    intro x h
    simp only [readAt] at h
    split at h
    · rename_i tf ct cv hch
      have hz := child_zeroValue t n tf ct cv hch
      subst hz
      simp only [typeAt, child_childType t _ n tf ct _ hch]
      exact zeroAt_zeroValue q ct x h
    · cases h

/-- Reading where a value was just written gives the value. -/
theorem readAt_writeAt_same : ∀ (p : List Nat) (t : GoType) (v x y : GoVal),
    readAt t v p = some y → readAt t (writeAt t v p x) p = some x
  | [], _, _, _, _, _ => by simp [readAt, writeAt]
  | n :: p, t, v, x, y, h => by
    simp only [readAt] at h
    split at h
    · rename_i tf ct cv hch
      simp only [writeAt, hch, readAt,
        child_setChild_same t v n tf ct (some cv) (writeAt ct cv p x) hch]
      exact readAt_writeAt_same p ct cv x y h
    · cases h

/-- A write leaves the storage at every path that neither extends nor is
extended by the path written as it was. -/
theorem readAt_writeAt_disjoint : ∀ (p q : List Nat) (t : GoType) (v x : GoVal),
    ¬ p <+: q → ¬ q <+: p → readAt t (writeAt t v p x) q = readAt t v q
  | [], q, _, _, _, h1, _ => absurd List.nil_prefix h1
  | _ :: _, [], _, _, _, _, h2 => absurd List.nil_prefix h2
  | n :: p, m :: q, t, v, x, h1, h2 => by
    simp only [writeAt]
    split
    · rename_i tf ct cv hch
      by_cases hnm : m = n
      · subst hnm
        simp only [readAt, child_setChild_same t v m tf ct (some cv) _ hch, hch]
        apply readAt_writeAt_disjoint p q ct cv x
        · intro hp; exact h1 (by rw [List.cons_prefix_cons]; exact ⟨rfl, hp⟩)
        · intro hp; exact h2 (by rw [List.cons_prefix_cons]; exact ⟨rfl, hp⟩)
      · simp only [readAt, child_setChild_other t v n m _ hnm]
    · rfl

/-- What a successful walk reaches: storage of the type the path has in the type
of the value, readable in the value the walk returns. -/
theorem walk_readAt : ∀ (son : List Nat) (t : GoType) (v : GoVal) (fl : Flag) (v1 : GoVal)
    (lt : GoType) (fl2 : Flag), walk t v son fl = some (v1, lt, fl2) →
    typeAt t son = some lt ∧ ∃ x, readAt t v1 son = some x
  | [], t, v, fl, v1, lt, fl2, h => by
    simp only [walk, Option.some.injEq, Prod.mk.injEq] at h
    obtain ⟨rfl, rfl, _⟩ := h
    exact ⟨rfl, v, rfl⟩
  | n :: son, t, v, fl, v1, lt, fl2, h => by
    simp only [walk] at h
    split at h
    · cases h
    · rename_i tf ct hch
      split at h
      · cases h
      · split at h
        · rename_i w lt2 fl3 hw
          simp only [Option.some.injEq, Prod.mk.injEq] at h
          obtain ⟨rfl, rfl, rfl⟩ := h
          obtain ⟨h1, x, h2⟩ := walk_readAt son ct _ _ w lt2 fl3 hw
          simp only [typeAt, child_childType t v n tf ct _ hch, readAt,
            child_setChild_same t v n tf ct none w hch]
          exact ⟨h1, x, h2⟩
        · cases h
    · rename_i tf ct cv hch
      split at h
      · rename_i w lt2 fl3 hw
        simp only [Option.some.injEq, Prod.mk.injEq] at h
        obtain ⟨rfl, rfl, rfl⟩ := h
        obtain ⟨h1, x, h2⟩ := walk_readAt son ct _ _ w lt2 fl3 hw
        simp only [typeAt, child_childType t v n tf ct _ hch, readAt,
          child_setChild_same t v n tf ct (some cv) w hch]
        exact ⟨h1, x, h2⟩
      · cases h

/-- One step of a successful walk: the step at the first index, the walk of the
rest from the storage it leads to (fresh zero storage when the pointer was nil),
and the result put back. -/
theorem walk_cons_inv (t : GoType) (v : GoVal) (n : Nat) (son : List Nat) (fl : Flag)
    (v1 : GoVal) (lt : GoType) (fl2 : Flag) (h : walk t v (n :: son) fl = some (v1, lt, fl2)) :
    ∃ tf ct o w, child t v n = some (tf, ct, o) ∧
      walk ct (o.getD (zeroValue ct)) son (fl.field tf) = some (w, lt, fl2) ∧
      v1 = setChild t v n w ∧ (o = none → (fl.field tf).ro = false) := by
  simp only [walk] at h
  split at h
  · cases h
  · rename_i tf ct hch
    split at h
    · cases h
    · rename_i hro
      split at h
      · rename_i w lt2 fl3 hw
        simp only [Option.some.injEq, Prod.mk.injEq] at h
        obtain ⟨rfl, rfl, rfl⟩ := h
        exact ⟨tf, ct, none, w, hch, hw, rfl, fun _ => by simpa using hro⟩
      · cases h
  · rename_i tf ct cv hch
    split at h
    · rename_i w lt2 fl3 hw
      simp only [Option.some.injEq, Prod.mk.injEq] at h
      obtain ⟨rfl, rfl, rfl⟩ := h
      exact ⟨tf, ct, some cv, w, hch, hw, rfl, fun hh => by cases hh⟩
    · cases h

/-- A walk leaves what could be read before as it was, at every path that is not
a proper beginning of the path walked. -/
theorem walk_preserves : ∀ (son q : List Nat) (t : GoType) (v : GoVal) (fl : Flag)
    (v1 : GoVal) (lt : GoType) (fl2 : Flag) (x : GoVal),
    walk t v son fl = some (v1, lt, fl2) → (q <+: son → q = son) →
    readAt t v q = some x → readAt t v1 q = some x
  | [], q, t, v, fl, v1, lt, fl2, x, h, _, hr => by
    simp only [walk, Option.some.injEq, Prod.mk.injEq] at h
    obtain ⟨rfl, _, _⟩ := h
    exact hr
  | n :: son, [], t, v, fl, v1, lt, fl2, x, _, hq, _ => by
    cases hq List.nil_prefix
  | n :: son, m :: q, t, v, fl, v1, lt, fl2, x, h, hq, hr => by
    obtain ⟨tf, ct, o, w, hch, hw, rfl, _⟩ := walk_cons_inv t v n son fl v1 lt fl2 h
    by_cases hnm : m = n
    · subst hnm
      have hq2 : q <+: son → q = son := by
        intro hp
        have := hq (by rw [List.cons_prefix_cons]; exact ⟨rfl, hp⟩)
        simpa using this
      simp only [readAt, hch] at hr
      cases o with
      | none => cases hr
      | some cv =>
        simp only at hr
        simp only [readAt, child_setChild_same t v m tf ct (some cv) w hch]
        exact walk_preserves son q ct cv _ w lt fl2 x hw hq2 hr
    · simp only [readAt, child_setChild_other t v n m w hnm]
      simpa only [readAt] using hr

/-- A walk keeps storage at zero, at every path that is not a proper beginning of
the path walked. -/
theorem walk_zeroAt : ∀ (son q : List Nat) (t : GoType) (v : GoVal) (fl : Flag)
    (v1 : GoVal) (lt : GoType) (fl2 : Flag),
    walk t v son fl = some (v1, lt, fl2) → (q <+: son → q = son) →
    ZeroAt t v q → ZeroAt t v1 q
  | [], q, t, v, fl, v1, lt, fl2, h, _, hz => by
    simp only [walk, Option.some.injEq, Prod.mk.injEq] at h
    obtain ⟨rfl, _, _⟩ := h
    exact hz
  | n :: son, [], t, v, fl, v1, lt, fl2, _, hq, _ => by
    cases hq List.nil_prefix
  | n :: son, m :: q, t, v, fl, v1, lt, fl2, h, hq, hz => by
    obtain ⟨tf, ct, o, w, hch, hw, rfl, _⟩ := walk_cons_inv t v n son fl v1 lt fl2 h
    by_cases hnm : m = n
    · subst hnm
      have hq2 : q <+: son → q = son := by
        intro hp
        have := hq (by rw [List.cons_prefix_cons]; exact ⟨rfl, hp⟩)
        simpa using this
      have hct := child_childType t v m tf ct o hch
      intro x hx
      simp only [readAt, child_setChild_same t v m tf ct o w hch] at hx
      simp only [typeAt, hct]
      have hz2 : ZeroAt ct (o.getD (zeroValue ct)) q := by
        cases o with
        | none => exact zeroAt_zeroValue q ct
        | some cv =>
          intro y hy
          have := hz y (by simp only [readAt, hch]; exact hy)
          simpa only [typeAt, hct] using this
      exact walk_zeroAt son q ct _ _ w lt fl2 hw hq2 hz2 x hx
    · intro x hx
      simp only [readAt, child_setChild_other t v n m w hnm] at hx
      exact hz x (by simpa only [readAt] using hx)

/-- What the loop of `getRowIndex` returns for a struct type: a Discard Target for
an empty path and the address of the storage the path has in the type for any
other; what could be read before can be read afterwards and zero storage stays
zero, away from the proper beginnings of the paths; and the storage of every path
can be read afterwards when no path properly begins another. -/
theorem getRowIndex_loop_spec (t : GoType) : ∀ (index : List (List Nat)) (v v2 : GoVal)
    (adders : List Target), getRowIndex.loop t v index = some (v2, adders) →
    List.Forall₂ (fun son tg => (son = [] ∧ tg = Target.discard) ∨
      (son ≠ [] ∧ ∃ lt, typeAt t son = some lt ∧ tg = wrapAddr son lt)) index adders ∧
    (∀ q x, (∀ son ∈ index, q <+: son → q = son) → readAt t v q = some x →
      readAt t v2 q = some x) ∧
    (∀ q, (∀ son ∈ index, q <+: son → q = son) → ZeroAt t v q → ZeroAt t v2 q) ∧
    ((∀ p ∈ index, ∀ q ∈ index, p ≠ [] → p <+: q → p = q) →
      ∀ son ∈ index, son ≠ [] → ∃ x, readAt t v2 son = some x)
  | [], v, v2, adders, h => by
    simp only [getRowIndex.loop, Option.some.injEq, Prod.mk.injEq] at h
    obtain ⟨rfl, rfl⟩ := h
    exact ⟨List.Forall₂.nil, fun _ _ _ hr => hr, fun _ _ hz => hz, fun _ _ hs => by simp at hs⟩
  | son :: rest, v, v2, adders, h => by
    simp only [getRowIndex.loop] at h
    by_cases hs : son.length = 0
    · have hs0 : son = [] := List.length_eq_zero.mp hs
      simp only [hs, if_true] at h
      split at h
      · rename_i v3 ad hl
        simp only [Option.some.injEq, Prod.mk.injEq] at h
        obtain ⟨rfl, rfl⟩ := h
        obtain ⟨hA, hB, hC, hD⟩ := getRowIndex_loop_spec t rest v v3 ad hl
        refine ⟨List.Forall₂.cons (Or.inl ⟨hs0, rfl⟩) hA, ?_, ?_, ?_⟩
        · intro q x hq hr
          exact hB q x (fun s hs => hq s (List.mem_cons_of_mem _ hs)) hr
        · intro q hq hz
          exact hC q (fun s hs => hq s (List.mem_cons_of_mem _ hs)) hz
        · intro hpf s hsm hne
          rcases List.mem_cons.mp hsm with rfl | hsm
          · exact absurd hs0 hne
          · exact hD (fun p hp q hq => hpf p (List.mem_cons_of_mem _ hp) q
              (List.mem_cons_of_mem _ hq)) s hsm hne
      · cases h
    · have hs0 : son ≠ [] := fun hh => hs (by simp [hh])
      simp only [hs, if_false] at h
      split at h
      · cases h
      · rename_i v1 lt fl hw
        split at h
        · cases h
        · split at h
          · rename_i v3 ad hl
            simp only [Option.some.injEq, Prod.mk.injEq] at h
            obtain ⟨rfl, rfl⟩ := h
            obtain ⟨hA, hB, hC, hD⟩ := getRowIndex_loop_spec t rest v1 v3 ad hl
            obtain ⟨hty, y, hy⟩ := walk_readAt son t v _ v1 lt fl hw
            refine ⟨List.Forall₂.cons (Or.inr ⟨hs0, lt, hty, rfl⟩) hA, ?_, ?_, ?_⟩
            · intro q x hq hr
              exact hB q x (fun s hs => hq s (List.mem_cons_of_mem _ hs))
                (walk_preserves son q t v _ v1 lt fl x hw (hq son (List.mem_cons_self _ _)) hr)
            · intro q hq hz
              exact hC q (fun s hs => hq s (List.mem_cons_of_mem _ hs))
                (walk_zeroAt son q t v _ v1 lt fl hw (hq son (List.mem_cons_self _ _)) hz)
            · intro hpf s hsm hne
              rcases List.mem_cons.mp hsm with rfl | hsm
              · exact ⟨y, hB s y (fun q hq hp => hpf s (List.mem_cons_self _ _) q
                  (List.mem_cons_of_mem _ hq) hne hp) hy⟩
              · exact hD (fun p hp q hq => hpf p (List.mem_cons_of_mem _ hp) q
                  (List.mem_cons_of_mem _ hq)) s hsm hne
          · cases h

/-- The scan of one cell into the address the binder made for storage of type
`lt` at `son`. -/
theorem scanCell_wrapAddr (drv : Driver) (t : GoType) (son : List Nat) (lt : GoType)
    (c : Cell) (inst : GoVal) :
    scanCell drv t (wrapAddr son lt) c inst =
      match cellEffect drv lt c with
      | .fail => none
      | .keep => some inst
      | .store x => some (writeAt t inst son x) := by
  unfold wrapAddr cellEffect
  by_cases h : (GoType.ptr lt).isScanner = true
  · simp only [h, if_true, scanCell]
    try rfl
  · have h2 : (GoType.ptr lt).isScanner = false := by simpa using h
    simp only [h2, scanCell]
    try rfl

/-- What the loop of `rows.Scan` does over the targets of the binder when it
succeeds: storage apart from the paths of the columns is left as it was, and,
when the paths neither repeat nor begin one another, fresh storage of a column
holds afterwards what the cell of the column stored. -/
theorem scanLoop_spec (drv : Driver) (t : GoType) : ∀ (index : List (List Nat))
    (adders : List Target) (cells : List Cell) (s s2 : GoVal),
    List.Forall₂ (fun son tg => (son = [] ∧ tg = Target.discard) ∨
      (son ≠ [] ∧ ∃ lt, typeAt t son = some lt ∧ tg = wrapAddr son lt)) index adders →
    scanLoop (scanCell drv t) cells adders s = (GoError.nil, s2) →
    (∀ q, (∀ son ∈ index, son ≠ [] → ¬ son <+: q ∧ ¬ q <+: son) →
      readAt t s2 q = readAt t s q) ∧
    (index.Pairwise (fun p q => p ≠ [] → q ≠ [] → ¬ p <+: q ∧ ¬ q <+: p) →
      ∀ son c lt, (son, c) ∈ index.zip cells → son ≠ [] → typeAt t son = some lt →
        readAt t s son = some (zeroValue lt) →
        readAt t s2 son = fieldAfter lt (cellEffect drv lt c) ∧ cellEffect drv lt c ≠ .fail)
  | [], adders, cells, s, s2, hf, h => by
    cases hf
    have : s2 = s := by
      cases cells <;> simp [scanLoop] at h <;> exact h.symm
    subst this
    exact ⟨fun _ _ => rfl, fun _ son c lt hm => by simp at hm⟩
  | son0 :: rest, adders, [], s, s2, hf, h => by
    have : s2 = s := by
      simp [scanLoop] at h; exact h.symm
    subst this
    exact ⟨fun _ _ => rfl, fun _ son c lt hm => by simp at hm⟩
  | son0 :: rest, adders, c0 :: cs, s, s2, hf, h => by
    cases hf with
    | cons h0 hrest =>
      rename_i tg0 ts
      simp only [scanLoop] at h
      split at h
      · simp [scanErr] at h
      · rename_i s1 hs1
        obtain ⟨hE, hF⟩ := scanLoop_spec drv t rest ts cs s1 s2 hrest h
        -- the effect of the first column
        have hhead : (son0 = [] ∧ s1 = s) ∨ (son0 ≠ [] ∧ ∃ lt, typeAt t son0 = some lt ∧
            ((cellEffect drv lt c0 = .keep ∧ s1 = s) ∨
              ∃ x, cellEffect drv lt c0 = .store x ∧ s1 = writeAt t s son0 x)) := by
          rcases h0 with ⟨h1, h2⟩ | ⟨h1, lt, h2, h3⟩
          · subst h2
            simp only [scanCell, Option.some.injEq] at hs1
            exact Or.inl ⟨h1, hs1.symm⟩
          · subst h3
            rw [scanCell_wrapAddr] at hs1
            refine Or.inr ⟨h1, lt, h2, ?_⟩
            cases he : cellEffect drv lt c0 with
            | fail => simp [he] at hs1
            | keep => simp only [he, Option.some.injEq] at hs1; exact Or.inl ⟨rfl, hs1.symm⟩
            | store x =>
              simp only [he, Option.some.injEq] at hs1
              exact Or.inr ⟨x, rfl, hs1.symm⟩
        have hframe : ∀ q, (son0 ≠ [] → ¬ son0 <+: q ∧ ¬ q <+: son0) →
            readAt t s1 q = readAt t s q := by
          intro q hq
          rcases hhead with ⟨_, h2⟩ | ⟨h1, lt, _, ⟨_, h3⟩ | ⟨x, _, h3⟩⟩
          · rw [h2]
          · rw [h3]
          · rw [h3]
            exact readAt_writeAt_disjoint son0 q t s x (hq h1).1 (hq h1).2
        constructor
        · intro q hq
          rw [hE q (fun son hs => hq son (List.mem_cons_of_mem _ hs)),
            hframe q (hq son0 (List.mem_cons_self _ _))]
        · intro hpw son c lt hm hne hty hz
          rw [List.pairwise_cons] at hpw
          simp only [List.zip_cons_cons, List.mem_cons, Prod.mk.injEq] at hm
          rcases hm with ⟨rfl, rfl⟩ | hm
          · -- the first column itself
            have hkeep : readAt t s2 son = readAt t s1 son := by
              apply hE
              intro p hp hpne
              exact ⟨(hpw.1 p hp hne hpne).2, (hpw.1 p hp hne hpne).1⟩
            rw [hkeep]
            rcases hhead with ⟨h1, _⟩ | ⟨_, lt2, hty2, hcase⟩
            · exact absurd h1 hne
            · rw [hty] at hty2
              simp only [Option.some.injEq] at hty2
              subst hty2
              rcases hcase with ⟨he, h3⟩ | ⟨x, he, h3⟩
              · rw [he, h3]
                exact ⟨hz, by simp⟩
              · rw [he, h3]
                exact ⟨readAt_writeAt_same son t s x _ hz, by simp⟩
          · have hmem : son ∈ rest := (List.of_mem_zip hm).1
            apply hF hpw.2 son c lt hm hne hty
            rw [hframe son (fun h0ne => hpw.1 son hmem h0ne hne)]
            exact hz

/-- What a decoded row instance of a struct type holds: as many cells as columns
were scanned; storage away from the paths of the columns is at zero; and, when
the paths of the columns neither repeat nor begin one another, the storage of
each column holds what the cell of the column stored. -/
theorem decodeRow_struct (drv : Driver) (nm : String) (sc : Bool)
    (fields : List (StructField × GoType)) (index : List (List Nat)) (cells : List Cell)
    (inst : GoVal) (h : decodeRow drv (.struct nm sc fields) index cells = .ok inst) :
    cells.length = index.length ∧
    (∀ q, (∀ son ∈ index, son ≠ [] → ¬ son <+: q ∧ ¬ q <+: son) →
      ZeroAt (.struct nm sc fields) inst q) ∧
    (index.Pairwise (fun p q => p ≠ [] → q ≠ [] → ¬ p <+: q ∧ ¬ q <+: p) →
      ∀ son c, (son, c) ∈ index.zip cells → son ≠ [] →
        ∃ lt, typeAt (.struct nm sc fields) son = some lt ∧
          readAt (.struct nm sc fields) inst son = fieldAfter lt (cellEffect drv lt c) ∧
          cellEffect drv lt c ≠ .fail) := by
  unfold decodeRow at h
  split at h
  · cases h
  · rename_i inst0 adders hg
    have hloop : getRowIndex.loop (.struct nm sc fields) (zeroValue (.struct nm sc fields))
        index = some (inst0, adders) := by
      simpa [getRowIndex, GoType.Kind] using hg
    obtain ⟨hA, hB, hC, hD⟩ := getRowIndex_loop_spec _ index _ inst0 adders hloop
    split at h
    · rename_i inst2 hscan
      simp only [RowRes.ok.injEq] at h
      subst h
      unfold Rows.Scan at hscan
      by_cases hlen : adders.length ≠ cells.length
      · simp [hlen, arityErr] at hscan
      · simp only [hlen, if_false] at hscan
        have hlen2 : adders.length = cells.length := by simpa using hlen
        obtain ⟨hE, hF⟩ := scanLoop_spec drv _ index adders cells inst0 inst2 hA hscan
        refine ⟨by rw [← hlen2, hA.length_eq], ?_, ?_⟩
        · intro q hq x hx
          rw [hE q hq] at hx
          refine hC q ?_ (zeroAt_zeroValue q _) x hx
          intro son hs hpre
          by_cases hne : son = []
          · subst hne
            exact List.prefix_nil.mp hpre
          · exact absurd hpre (hq son hs hne).2
        · intro hpw son c hm hne
          have hsm : son ∈ index := (List.of_mem_zip hm).1
          have hpf : ∀ p ∈ index, ∀ q ∈ index, p ≠ [] → p <+: q → p = q := by
            intro p hp q hq hpne hpre
            by_contra hpq
            have hqne : q ≠ [] := by
              intro hq0
              subst hq0
              exact hpne (List.prefix_nil.mp hpre)
            have hsym : Symmetric (fun p q : List Nat =>
                p ≠ [] → q ≠ [] → ¬ p <+: q ∧ ¬ q <+: p) := by
              intro a b hab hb ha
              exact ⟨(hab ha hb).2, (hab ha hb).1⟩
            exact (hpw.forall hsym hp hq hpq hpne hqne).1 hpre
          obtain ⟨y, hy⟩ := hD hpf son hsm hne
          have hz : ZeroAt (.struct nm sc fields) inst0 son :=
            hC son (fun s hs hpre => hpf son hsm s hs hne hpre) (zeroAt_zeroValue son _)
          have hzy := hz y hy
          cases hty : typeAt (.struct nm sc fields) son with
          | none => simp [hty] at hzy
          | some lt =>
            simp only [hty, Option.map_some', Option.some.injEq] at hzy
            subst hzy
            obtain ⟨h1, h2⟩ := hF hpw son c lt hm hne hty hy
            exact ⟨lt, rfl, h1, h2⟩
    · cases h

/-- The paths `getAddressIndex` gives to distinct columns neither repeat nor begin
one another. -/
theorem getAddressIndex_pairwise (t : GoType) (columns : List String) (h : columns.Nodup) :
    (getAddressIndex t columns).Pairwise
      (fun p q => p ≠ [] → q ≠ [] → ¬ p <+: q ∧ ¬ q <+: p) := by
  unfold getAddressIndex
  rw [List.pairwise_map]
  refine List.Pairwise.imp ?_ h
  intro a b hab hpa hqb
  have key : ∀ c : String, (match (getFieldList t).get c with
      | some v => v
      | none => []) ≠ [] →
      LeafPath (rootFields t) (match (getFieldList t).get c with
      | some v => v
      | none => []) c := by
    intro c hc
    cases hg : (getFieldList t).get c with
    | none => simp [hg] at hc
    | some v =>
      exact getFieldList_leafPath t c v ((getFieldList_get_iff t c v).mp hg)
  have ha := key a hpa
  have hb := key b hqb
  constructor
  · intro hpre
    exact hab (LeafPath.antichain _ _ _ a b ha hb hpre).2
  · intro hpre
    exact hab (LeafPath.antichain _ _ _ b a hb ha hpre).2.symm

/-- The path of a leaf field whose column name is not among the columns neither
begins nor extends the path `getAddressIndex` gives to any column. -/
theorem getAddressIndex_apart (t : GoType) (columns : List String) (name : String)
    (path : List Nat) (hp : LeafPath (rootFields t) path name) (hn : name ∉ columns) :
    ∀ son ∈ getAddressIndex t columns, son ≠ [] → ¬ son <+: path ∧ ¬ path <+: son := by
  intro son hs hne
  unfold getAddressIndex at hs
  simp only [List.mem_map] at hs
  obtain ⟨c, hc, rfl⟩ := hs
  cases hg : (getFieldList t).get c with
  | none => simp [hg] at hne
  | some v =>
    simp only [hg]
    have hv := getFieldList_leafPath t c v ((getFieldList_get_iff t c v).mp hg)
    constructor
    · intro hpre
      have := (LeafPath.antichain _ _ _ c name hv hp hpre).2
      exact hn (this ▸ hc)
    · intro hpre
      have := (LeafPath.antichain _ _ _ name c hp hv hpre).2
      exact hn (this ▸ hc)

/-- The loop of `derefDest` ends on a type that is not a pointer. -/
theorem derefDest_kind (t0 : GoType) (v0 : GoVal) (s : Bool) :
    ∀ t v b, derefDest t0 v0 s = some (t, v, b) → t.Kind ≠ .Ptr := by
  induction t0, v0, s using derefDest.induct with
  | case1 e w s ih =>
    intro t v b h
    simp only [derefDest] at h
    exact ih t v b h
  | case2 e ih =>
    intro t v b h
    simp only [derefDest, if_true] at h
    exact ih t v b h
  | case3 e s hs =>
    intro t v b h
    simp [derefDest, hs] at h
  | case4 e v s h1 h2 =>
    intro t w b h
    cases v <;> simp_all [derefDest]
  | case5 t v s h1 h2 h3 =>
    intro t2 v2 b h
    cases t with
    | ptr e => exact absurd rfl (h3 e)
    | _ =>
      simp only [derefDest, Option.some.injEq, Prod.mk.injEq] at h
      obtain ⟨rfl, _, _⟩ := h
      simp [GoType.Kind]

/-- The outcome of `rowsModel` on a struct or scalar destination when the first
row decodes. -/
theorem rowsModel_one_ok (drv : Driver) (rows : Rows) (t0 : GoType) (v0 : GoVal) (t : GoType)
    (v : GoVal) (b : Bool) (columns : List String) (row : List Cell)
    (rest : List (List Cell)) (inst : GoVal)
    (ht : t0.Kind = .Ptr) (hd : derefDest t0 v0 false = some (t, v, b))
    (hk : t.Kind ≠ .Slice) (hc : rows.columns = .ok columns) (hp : rows.pending = row :: rest)
    (hdec : decodeRow drv t (getAddressIndex t columns) row = .ok inst) :
    rowsModel drv rows [(t0, v0)] =
      ⟨.ret .nil, [setDest t0 v0 inst], ⟨rows.columns, rest, rows.fetched + 1, true⟩⟩ := by
  have hb : b = true := derefDest_settable t0 v0 false t v b hd (Or.inl ht)
  have hk0 : ¬ t0.Kind ≠ .Ptr := by simp [ht]
  subst hb
  cases t with
  | slice e s => simp [GoType.Kind] at hk
  | _ => simp [rowsModel, hk0, hd, hc, hp, hdec, Rows.advance, Rows.Close]

/-! ## One row into a struct or scalar: C6 -/

/-- C1, counterexample: `Dup` has the fields `A` and `B`, both with the column name
`x`, so its resolved column set is `x` alone; on the one-row result with the
column `x` holding 5, `rowsModel` succeeds and `B` holds 5, but `A`, whose column
name is `x` too, is left at zero.  Nor does the call always succeed: on `Priv`,
whose resolved column set is the unexported field `a`, the binder panics, and a
string in the column `x` of `Dup` makes `rows.Scan` fail. -/
theorem rowsModel_struct_counterexample :
    (getFieldList tDup).map (fun e => e.1) = ["x"] ∧
    fieldAt [(fld "A" "x", tInt), (fld "B" "x", tInt)] [0] = some (fld "A" "x", tInt) ∧
    columnOf (fld "A" "x") = "x" ∧
    (rowsModel demoDriver (cursor ["x"] [[some (.int 5)]])
      [(.ptr tDup, .ref (zeroValue tDup))]).res = .ret .nil ∧
    (rowsModel demoDriver (cursor ["x"] [[some (.int 5)]])
      [(.ptr tDup, .ref (zeroValue tDup))]).dests = [.ref (.struct [.zero, .data (.int 5)])] ∧
    readAt tDup (.struct [.zero, .data (.int 5)]) [0] = some .zero ∧
    GoVal.zero ≠ GoVal.data (.int 5) ∧
    (getFieldList tPriv).map (fun e => e.1) = ["a"] ∧
    (rowsModel demoDriver (cursor ["a"] [[some (.int 5)]])
      [(.ptr tPriv, .ref (zeroValue tPriv))]).res = .panic ∧
    (rowsModel demoDriver (cursor ["x"] [[some (.str "five")]])
      [(.ptr tDup, .ref (zeroValue tDup))]).res = .ret scanErr := by
  refine ⟨by decide, rfl, by decide, rfl, rfl, rfl, ?_, by decide, rfl, rfl⟩
  intro h
  cases h

/-- What `rowsModel` leaves in a struct destination when the one row of the
result decodes and the column names are distinct: for every result column that
is a key of the map of `getFieldList`, the storage at the path recorded under
that key holds what the cell of that column stored. -/
theorem rowsModel_struct_decoded (drv : Driver) (rows : Rows) (t0 : GoType) (v0 : GoVal)
    (nm : String) (sc : Bool) (fields : List (StructField × GoType)) (v : GoVal) (b : Bool)
    (columns : List String) (row : List Cell) (inst : GoVal)
    (ht : t0.Kind = .Ptr) (hd : derefDest t0 v0 false = some (.struct nm sc fields, v, b))
    (hc : rows.columns = .ok columns) (hp : rows.pending = [row]) (hnd : columns.Nodup)
    (hdec : decodeRow drv (.struct nm sc fields)
      (getAddressIndex (.struct nm sc fields) columns) row = .ok inst) :
    (rowsModel drv rows [(t0, v0)]).res = .ret .nil ∧
    (rowsModel drv rows [(t0, v0)]).dests = [setDest t0 v0 inst] ∧
    derefDest t0 (setDest t0 v0 inst) false = some (.struct nm sc fields, inst, b) ∧
    (∀ (i : Nat) (column : String) (path : List Nat), columns[i]? = some column →
      (column, path) ∈ getFieldList (.struct nm sc fields) →
      ∃ lt c, typeAt (.struct nm sc fields) path = some lt ∧ row[i]? = some c ∧
        readAt (.struct nm sc fields) inst path = fieldAfter lt (cellEffect drv lt c) ∧
        cellEffect drv lt c ≠ .fail) := by
  have hout := rowsModel_one_ok drv rows t0 v0 _ v b columns row [] inst ht hd
    (by simp [GoType.Kind]) hc hp hdec
  rw [hout]
  refine ⟨rfl, rfl, derefDest_setDest t0 v0 false inst _ v b hd, ?_⟩
  intro i column path hi hmem
  obtain ⟨hlen, _, hF⟩ := decodeRow_struct drv nm sc fields _ row inst hdec
  have hpw := getAddressIndex_pairwise (.struct nm sc fields) columns hnd
  have hadd : (getAddressIndex (.struct nm sc fields) columns)[i]? = some path := by
    have hg := (getFieldList_get_iff (.struct nm sc fields) column path).mpr hmem
    simp [getAddressIndex, hi, hg]
  have hil : i < row.length := by
    rw [hlen]
    exact (List.getElem?_eq_some_iff.mp hadd).1
  have hrow : row[i]? = some row[i] := List.getElem?_eq_getElem hil
  have hzip : (path, row[i]) ∈ (getAddressIndex (.struct nm sc fields) columns).zip row := by
    apply List.mem_iff_getElem?.mpr
    exact ⟨i, by simp [List.getElem?_zip_eq_some, hadd, hrow]⟩
  have hne : path ≠ [] := by
    intro h0
    subst h0
    have := getFieldList_leafPath (.struct nm sc fields) column [] hmem
    simp [LeafPath] at this
  obtain ⟨lt, h1, h2, h3⟩ := hF hpw path row[i] hzip hne
  exact ⟨lt, row[i], h1, hrow, h2, h3⟩

/-- C6: for a struct or scalar destination whose pointers can be followed and a
cursor that reports its columns and has at least one row, when the first row
decodes, `rowsModel` returns no error, fetches exactly that row and closes the
cursor, and the destination holds the instance decoded from the first row into
fresh zero storage, whatever the destination held and whatever rows follow; in
that instance the storage of every leaf field whose column name is not among the
columns, when it exists, holds the zero value of its type. -/
theorem rowsModel_first_row (drv : Driver) (rows : Rows) (t0 : GoType) (v0 : GoVal)
    (t : GoType) (v : GoVal) (b : Bool) (columns : List String) (row : List Cell)
    (rest : List (List Cell)) (inst : GoVal)
    (ht : t0.Kind = .Ptr) (hd : derefDest t0 v0 false = some (t, v, b))
    (hk : t.Kind ≠ .Slice) (hc : rows.columns = .ok columns) (hp : rows.pending = row :: rest)
    (hdec : decodeRow drv t (getAddressIndex t columns) row = .ok inst) :
    (rowsModel drv rows [(t0, v0)]).res = .ret .nil ∧
    (rowsModel drv rows [(t0, v0)]).dests = [setDest t0 v0 inst] ∧
    derefDest t0 (setDest t0 v0 inst) false = some (t, inst, b) ∧
    (rowsModel drv rows [(t0, v0)]).rows = ⟨rows.columns, rest, rows.fetched + 1, true⟩ ∧
    (∀ (name : String) (path : List Nat), LeafPath (rootFields t) path name →
      name ∉ columns → ZeroAt t inst path) := by
  have hout := rowsModel_one_ok drv rows t0 v0 t v b columns row rest inst ht hd hk hc hp hdec
  rw [hout]
  refine ⟨rfl, rfl, derefDest_setDest t0 v0 false inst t v b hd, rfl, ?_⟩
  intro name path hmem hn
  cases t with
  | struct nm sc fields =>
    exact (decodeRow_struct drv nm sc fields _ row inst hdec).2.1 path
      (getAddressIndex_apart _ columns name path hmem hn)
  | ptr e => exact absurd rfl (derefDest_kind t0 v0 false _ v b hd)
  | slice e s => simp [GoType.Kind] at hk
  | basic n s =>
    cases path <;> simp [rootFields, LeafPath] at hmem

/-- C6, witness: an `Outer` that held values, and two rows with the column `x`
alone: the destination is the first row decoded into a fresh `Outer`, with `Y`
back at zero. -/
theorem rowsModel_first_row_witness :
    (rowsModel demoDriver (cursor ["x"] [[some (.int 6)], [some (.int 7)]])
      [(.ptr tOuter, .ref (.struct [.data (.int 1), .struct [.data (.int 2), .nil]]))]).dests =
      [.ref (.struct [.data (.int 6), .struct [.zero, .nil]])] ∧
    ZeroAt tOuter (.struct [.data (.int 6), .struct [.zero, .nil]]) [1, 0] :=
  ⟨(rowsModel_first_row demoDriver (cursor ["x"] [[some (.int 6)], [some (.int 7)]])
      (.ptr tOuter) (.ref (.struct [.data (.int 1), .struct [.data (.int 2), .nil]]))
      tOuter (.struct [.data (.int 1), .struct [.data (.int 2), .nil]]) true ["x"]
      [some (.int 6)] [[some (.int 7)]] (.struct [.data (.int 6), .struct [.zero, .nil]])
      rfl rfl (by decide) rfl rfl rfl).2.1,
    (rowsModel_first_row demoDriver (cursor ["x"] [[some (.int 6)], [some (.int 7)]])
      (.ptr tOuter) (.ref (.struct [.data (.int 1), .struct [.data (.int 2), .nil]]))
      tOuter (.struct [.data (.int 1), .struct [.data (.int 2), .nil]]) true ["x"]
      [some (.int 6)] [[some (.int 7)]] (.struct [.data (.int 6), .struct [.zero, .nil]])
      rfl rfl (by decide) rfl rfl rfl).2.2.2.2 "Y" [1, 0]
      (getFieldList_leafPath tOuter "Y" [1, 0] (by decide)) (by decide)⟩

/-! ## When the binder and the scan succeed -/

/-- A zero value has the shape of its type. -/
theorem wellTyped_zeroValue (t : GoType) : WellTyped t (zeroValue t) := by
  refine zeroValue.induct (fun t => WellTyped t (zeroValue t))
    (fun fields => WellTypedFields fields (zeroFields fields)) ?_ ?_ ?_ ?_ ?_ ?_ t
  · intro a b; simp [zeroValue, WellTyped]
  · intro a; simp [zeroValue, WellTyped]
  · intro a b; simp [zeroValue, WellTyped]
  · intro a b fs ih; simpa [zeroValue, WellTyped] using ih
  · simp [zeroFields, WellTypedFields]
  · intro tf ty rest ih1 ih2
    simp only [zeroFields, WellTypedFields]
    exact ⟨ih1, ih2⟩

/-- The value of a field of a well-shaped struct. -/
theorem wellTypedFields_get : ∀ (fields : List (StructField × GoType)) (vals : List GoVal)
    (n : Nat) (tf : StructField) (ty : GoType), WellTypedFields fields vals →
    fields[n]? = some (tf, ty) → ∃ fv, vals[n]? = some fv ∧ WellTyped ty fv
  | [], _, n, tf, ty, _, hf => by simp at hf
  | f :: fs, [], n, tf, ty, hw, _ => by
    obtain ⟨a, b⟩ := f
    simp [WellTypedFields] at hw
  | f :: fs, v :: vs, 0, tf, ty, hw, hf => by
    obtain ⟨a, b⟩ := f
    simp only [List.getElem?_cons_zero, Option.some.injEq, Prod.mk.injEq] at hf
    obtain ⟨rfl, rfl⟩ := hf
    simp only [WellTypedFields] at hw
    exact ⟨v, by simp, hw.1⟩
  | f :: fs, v :: vs, n + 1, tf, ty, hw, hf => by
    obtain ⟨a, b⟩ := f
    simp only [WellTypedFields] at hw
    simp only [List.getElem?_cons_succ] at hf ⊢
    exact wellTypedFields_get fs vs n tf ty hw.2 hf

/-- Replacing the value of a field by a value of the shape of the field type. -/
theorem wellTypedFields_set : ∀ (fields : List (StructField × GoType)) (vals : List GoVal)
    (n : Nat) (tf : StructField) (ty : GoType) (x : GoVal), WellTypedFields fields vals →
    fields[n]? = some (tf, ty) → WellTyped ty x → WellTypedFields fields (vals.set n x)
  | [], _, n, tf, ty, _, _, hf, _ => by simp at hf
  | f :: fs, [], n, tf, ty, _, hw, _, _ => by
    obtain ⟨a, b⟩ := f
    simp [WellTypedFields] at hw
  | f :: fs, v :: vs, 0, tf, ty, x, hw, hf, hx => by
    obtain ⟨a, b⟩ := f
    simp only [List.getElem?_cons_zero, Option.some.injEq, Prod.mk.injEq] at hf
    obtain ⟨rfl, rfl⟩ := hf
    simp only [WellTypedFields] at hw
    simp only [List.set_cons_zero, WellTypedFields]
    exact ⟨hx, hw.2⟩
  | f :: fs, v :: vs, n + 1, tf, ty, x, hw, hf, hx => by
    obtain ⟨a, b⟩ := f
    simp only [WellTypedFields] at hw
    simp only [List.getElem?_cons_succ] at hf
    simp only [List.set_cons_succ, WellTypedFields]
    exact ⟨hw.1, wellTypedFields_set fs vs n tf ty x hw.2 hf hx⟩

/-- The step into a field of a well-shaped struct: it leads to well-shaped
storage of the field type, of the pointee for a pointer field, and the struct
stays well-shaped when well-shaped content is put there. -/
theorem child_wellTyped (nm : String) (sc : Bool) (fields : List (StructField × GoType))
    (v : GoVal) (n : Nat) (tf : StructField) (ty : GoType)
    (hw : WellTyped (.struct nm sc fields) v) (hf : fields[n]? = some (tf, ty)) :
    ∃ ct o, child (.struct nm sc fields) v n = some (tf, ct, o) ∧
      (ty = .ptr ct ∨ (ty = ct ∧ ty.Kind ≠ .Ptr ∧ o ≠ none)) ∧
      (∀ cv, o = some cv → WellTyped ct cv) ∧
      (∀ w, WellTyped ct w → WellTyped (.struct nm sc fields)
        (setChild (.struct nm sc fields) v n w)) := by
  cases v with
  | struct vals =>
    simp only [WellTyped] at hw
    obtain ⟨fv, hv, hfv⟩ := wellTypedFields_get fields vals n tf ty hw hf
    cases ty with
    | ptr e =>
      have hset : ∀ w, WellTyped e w → WellTyped (.struct nm sc fields)
          (setChild (.struct nm sc fields) (.struct vals) n w) := by
        intro w hww
        simp only [setChild, hf, WellTyped]
        exact wellTypedFields_set fields vals n tf (.ptr e) (.ref w) hw hf
          (by simpa [WellTyped] using hww)
      cases fv with
      | nil =>
        exact ⟨e, none, by simp [child, hf, hv], Or.inl rfl, (fun cv h => by simp at h), hset⟩
      | ref w0 =>
        refine ⟨e, some w0, by simp [child, hf, hv], Or.inl rfl, ?_, hset⟩
        intro cv h
        simp only [Option.some.injEq] at h
        subst h
        simpa [WellTyped] using hfv
      | _ => simp [WellTyped] at hfv
    | basic b s =>
      refine ⟨_, some fv, by simp [child, hf, hv], Or.inr ⟨rfl, by simp [GoType.Kind], by simp⟩,
        fun cv _ => by simp [WellTyped], ?_⟩
      intro w hww
      simp only [setChild, hf, WellTyped]
      exact wellTypedFields_set fields vals n tf _ w hw hf hww
    | slice e s =>
      refine ⟨_, some fv, by simp [child, hf, hv], Or.inr ⟨rfl, by simp [GoType.Kind], by simp⟩,
        fun cv _ => by simp [WellTyped], ?_⟩
      intro w hww
      simp only [setChild, hf, WellTyped]
      exact wellTypedFields_set fields vals n tf _ w hw hf hww
    | struct nm2 sc2 fs2 =>
      refine ⟨_, some fv, by simp [child, hf, hv], Or.inr ⟨rfl, by simp [GoType.Kind], by simp⟩,
        ?_, ?_⟩
      · intro cv h
        simp only [Option.some.injEq] at h
        subst h
        exact hfv
      · intro w hww
        simp only [setChild, hf, WellTyped]
        exact wellTypedFields_set fields vals n tf _ w hw hf hww
  | _ => simp [WellTyped] at hw

/-- A step of the walk, put together from the step into the field and the walk
of the rest. -/
theorem walk_cons_of (t : GoType) (v : GoVal) (n : Nat) (son : List Nat) (fl : Flag)
    (tf : StructField) (ct : GoType) (o : Option GoVal) (w : GoVal) (lt : GoType) (fl2 : Flag)
    (hch : child t v n = some (tf, ct, o)) (hro : o = none → (fl.field tf).ro = false)
    (hw : walk ct (o.getD (zeroValue ct)) son (fl.field tf) = some (w, lt, fl2)) :
    walk t v (n :: son) fl = some (setChild t v n w, lt, fl2) := by
  cases o with
  | none =>
    simp only [Option.getD_none] at hw
    simp [walk, hch, hro rfl, hw]
  | some cv =>
    simp only [Option.getD_some] at hw
    simp [walk, hch, hw]

/-- The type of a field the code recurses into: a struct, or a pointer to one,
with the embedded fields. -/
theorem recursed_shape (tf : StructField) (ty : GoType) (h : recursed tf ty = true) :
    tf.Anonymous = true ∧ ∃ nm2 sc2, ty = .ptr (.struct nm2 sc2 (embeddedFields ty)) ∨
      ty = .struct nm2 sc2 (embeddedFields ty) := by
  cases ty with
  | ptr e =>
    cases e with
    | struct nm2 sc2 fs =>
      simp only [recursed, GoType.Kind, beq_self_eq_true, Bool.true_and] at h
      exact ⟨h, nm2, sc2, Or.inl rfl⟩
    | _ => simp [recursed, GoType.Kind] at h
  | struct nm2 sc2 fs =>
    simp only [recursed, Bool.and_eq_true] at h
    exact ⟨h.2, nm2, sc2, Or.inr rfl⟩
  | _ => simp [recursed] at h

/-- In a well-shaped instance, the walk along a recorded path that is bindable
succeeds, reaches storage that is not read-only and leaves the instance
well-shaped. -/
theorem walk_ok : ∀ (p : List Nat) (nm : String) (sc : Bool)
    (fields : List (StructField × GoType)) (v : GoVal) (fl : Flag) (k : String),
    LeafPath fields p k → bindable fields p = true → WellTyped (.struct nm sc fields) v →
    fl.stickyRO = false →
    ∃ v1 lt fl2, walk (.struct nm sc fields) v p fl = some (v1, lt, fl2) ∧ fl2.ro = false ∧
      WellTyped (.struct nm sc fields) v1
  | [], _, _, _, _, _, _, h, _, _, _ => by simp [LeafPath] at h
  | [n], nm, sc, fields, v, fl, k, hl, hb, hw, hfl => by
    obtain ⟨tf, ty, hf, _⟩ := hl
    have hexp : tf.Exported = true := by simpa [bindable, hf] using hb
    obtain ⟨ct, o, hch, _, hcv, hset⟩ := child_wellTyped nm sc fields v n tf ty hw hf
    have hflag : (fl.field tf).ro = false := by
      simp [Flag.field, Flag.ro, hfl, hexp]
    refine ⟨_, ct, fl.field tf, walk_cons_of _ v n [] fl tf ct o (o.getD (zeroValue ct)) ct _
      hch (fun _ => hflag) (by simp [walk]), hflag, hset _ ?_⟩
    cases o with
    | none => exact wellTyped_zeroValue ct
    | some cv => exact hcv cv rfl
  | n :: m :: rest, nm, sc, fields, v, fl, k, hl, hb, hw, hfl => by
    obtain ⟨tf, ty, hf, hcase⟩ := hl
    simp only [bindable, hf, Bool.and_eq_true, Bool.or_eq_true, bne_iff_ne, ne_eq] at hb
    obtain ⟨hexp0, hb2⟩ := hb
    have hexp : ty.Kind = .Ptr → tf.Exported = true := by
      intro hk
      rcases hexp0 with h | h
      · exact absurd hk h
      · exact h
    rcases hcase with ⟨hrec, hl2⟩ | ⟨_, h0, _⟩
    · obtain ⟨hanon, nm2, sc2, hshape⟩ := recursed_shape tf ty hrec
      obtain ⟨ct, o, hch, hty, hcv, hset⟩ := child_wellTyped nm sc fields v n tf ty hw hf
      have hct : ct = .struct nm2 sc2 (embeddedFields ty) := by
        rcases hshape with h1 | h1
        · rcases hty with h2 | ⟨h2, h3, _⟩
          · rw [h2] at h1
            simp only [GoType.ptr.injEq] at h1
            rw [h2]
            exact h1
          · rw [h1] at h3
            simp [GoType.Kind] at h3
        · rcases hty with h2 | ⟨h2, _, _⟩
          · rw [h2] at h1
            cases h1
          · rw [← h2]
            exact h1
      subst hct
      have hsticky : (fl.field tf).stickyRO = false := by
        simp [Flag.field, hfl, hanon]
      have hwt : WellTyped (.struct nm2 sc2 (embeddedFields ty))
          (o.getD (zeroValue (.struct nm2 sc2 (embeddedFields ty)))) := by
        cases o with
        | none => exact wellTyped_zeroValue _
        | some cv => exact hcv cv rfl
      obtain ⟨w, lt, fl2, hwalk, hro2, hw2⟩ := walk_ok (m :: rest) nm2 sc2 (embeddedFields ty)
        _ (fl.field tf) k hl2 hb2 hwt hsticky
      have hro : o = none → (fl.field tf).ro = false := by
        intro ho
        have hptr : ty.Kind = .Ptr := by
          rcases hty with h2 | ⟨_, _, h4⟩
          · rw [h2]; rfl
          · exact absurd ho h4
        simp [Flag.field, Flag.ro, hfl, hexp hptr]
      exact ⟨_, lt, fl2, walk_cons_of _ v n (m :: rest) fl tf _ o w lt fl2 hch hro hwalk, hro2,
        hset w hw2⟩
    · cases h0

/-- In a well-shaped instance, the loop of `getRowIndex` succeeds when every path
is empty or a recorded path that is bindable. -/
theorem getRowIndex_loop_ok (nm : String) (sc : Bool) (fields : List (StructField × GoType)) :
    ∀ (index : List (List Nat)) (v : GoVal), WellTyped (.struct nm sc fields) v →
    (∀ son ∈ index, son ≠ [] → (∃ k, LeafPath fields son k) ∧ bindable fields son = true) →
    ∃ v2 adders, getRowIndex.loop (.struct nm sc fields) v index = some (v2, adders)
  | [], v, _, _ => ⟨v, [], rfl⟩
  | son :: rest, v, hw, hs => by
    by_cases h0 : son.length = 0
    · obtain ⟨v2, ad, hl⟩ := getRowIndex_loop_ok nm sc fields rest v hw
        (fun s hm => hs s (List.mem_cons_of_mem _ hm))
      exact ⟨v2, .discard :: ad, by simp [getRowIndex.loop, h0, hl]⟩
    · have hne : son ≠ [] := fun hh => h0 (by simp [hh])
      obtain ⟨⟨k, hlp⟩, hb⟩ := hs son (List.mem_cons_self _ _) hne
      obtain ⟨v1, lt, fl2, hwalk, hro, hw1⟩ := walk_ok son nm sc fields v ⟨false, false⟩ k hlp hb
        hw rfl
      obtain ⟨v2, ad, hl⟩ := getRowIndex_loop_ok nm sc fields rest v1 hw1
        (fun s hm => hs s (List.mem_cons_of_mem _ hm))
      exact ⟨v2, wrapAddr son lt :: ad, by simp [getRowIndex.loop, h0, hwalk, hro, hl]⟩

/-- The loop of `rows.Scan` over the targets of the binder succeeds when no cell
fails on the storage of its column. -/
theorem scanLoop_ok (drv : Driver) (t : GoType) : ∀ (index : List (List Nat))
    (adders : List Target) (cells : List Cell) (s : GoVal),
    List.Forall₂ (fun son tg => (son = [] ∧ tg = Target.discard) ∨
      (son ≠ [] ∧ ∃ lt, typeAt t son = some lt ∧ tg = wrapAddr son lt)) index adders →
    (∀ son c lt, (son, c) ∈ index.zip cells → son ≠ [] → typeAt t son = some lt →
      cellEffect drv lt c ≠ .fail) →
    ∃ s2, scanLoop (scanCell drv t) cells adders s = (GoError.nil, s2)
  | [], adders, cells, s, hf, _ => by
    cases hf
    cases cells <;> exact ⟨s, by simp [scanLoop]⟩
  | son0 :: rest, adders, [], s, hf, _ => by
    exact ⟨s, by simp [scanLoop]⟩
  | son0 :: rest, adders, c0 :: cs, s, hf, hc => by
    cases hf with
    | cons h0 hrest =>
      rename_i tg0 ts
      have hstep : ∃ s1, scanCell drv t tg0 c0 s = some s1 := by
        rcases h0 with ⟨_, h2⟩ | ⟨h1, lt, h2, h3⟩
        · subst h2
          exact ⟨s, rfl⟩
        · subst h3
          rw [scanCell_wrapAddr]
          have := hc son0 c0 lt (by simp) h1 h2
          cases he : cellEffect drv lt c0 with
          | fail => exact absurd he this
          | keep => exact ⟨s, rfl⟩
          | store x => exact ⟨_, rfl⟩
      obtain ⟨s1, hs1⟩ := hstep
      obtain ⟨s2, hs2⟩ := scanLoop_ok drv t rest ts cs s1 hrest
        (fun son c lt hm => hc son c lt (by simp [hm]))
      exact ⟨s2, by simp [scanLoop, hs1, hs2]⟩

/-- The paths `getAddressIndex` gives: for the column at position `i`, the path
of the key equal to the column when it is not empty. -/
theorem getAddressIndex_getElem (t : GoType) (columns : List String) (i : Nat)
    (son : List Nat) (h : (getAddressIndex t columns)[i]? = some son) (hne : son ≠ []) :
    ∃ column, columns[i]? = some column ∧ (column, son) ∈ getFieldList t := by
  unfold getAddressIndex at h
  simp only [List.getElem?_map, Option.map_eq_some'] at h
  obtain ⟨column, hc, hg⟩ := h
  refine ⟨column, hc, ?_⟩
  cases hq : (getFieldList t).get column with
  | none =>
    simp only [hq] at hg
    exact absurd hg.symm hne
  | some p =>
    simp only [hq] at hg
    subst hg
    exact (getFieldList_get_iff t column p).mp hq

/-- A row decodes into a struct type when it has one cell per column, every path
recorded under a result column is bindable, and no cell fails on the storage of
its column. -/
theorem decodeRow_ok (drv : Driver) (nm : String) (sc : Bool)
    (fields : List (StructField × GoType)) (columns : List String) (row : List Cell)
    (hlen : row.length = columns.length)
    (hbind : ∀ column path, column ∈ columns →
      (column, path) ∈ getFieldList (.struct nm sc fields) → bindable fields path = true)
    (hconv : ∀ (i : Nat) (column : String) (path : List Nat) (lt : GoType) (c : Cell),
      columns[i]? = some column → (column, path) ∈ getFieldList (.struct nm sc fields) →
      typeAt (.struct nm sc fields) path = some lt → row[i]? = some c →
      cellEffect drv lt c ≠ .fail) :
    ∃ inst, decodeRow drv (.struct nm sc fields)
      (getAddressIndex (.struct nm sc fields) columns) row = .ok inst := by
  have hidx : ∀ son ∈ getAddressIndex (.struct nm sc fields) columns, son ≠ [] →
      (∃ k, LeafPath fields son k) ∧ bindable fields son = true := by
    intro son hs hne
    obtain ⟨i, hi⟩ := List.mem_iff_getElem?.mp hs
    obtain ⟨column, hc, hm⟩ := getAddressIndex_getElem _ columns i son hi hne
    exact ⟨⟨column, getFieldList_leafPath (.struct nm sc fields) column son hm⟩,
      hbind column son (List.mem_iff_getElem?.mpr ⟨i, hc⟩) hm⟩
  obtain ⟨inst0, adders, hloop⟩ := getRowIndex_loop_ok nm sc fields _ _
    (wellTyped_zeroValue (.struct nm sc fields)) hidx
  obtain ⟨hA, _, _, _⟩ := getRowIndex_loop_spec _ _ _ inst0 adders hloop
  have hal : adders.length = row.length := by
    rw [← hA.length_eq, hlen]
    simp [getAddressIndex]
  obtain ⟨inst, hscan⟩ := scanLoop_ok drv (.struct nm sc fields) _ adders row inst0 hA (by
    intro son c lt hm hne hty
    obtain ⟨i, hi⟩ := List.mem_iff_getElem?.mp hm
    rw [List.getElem?_zip_eq_some] at hi
    obtain ⟨column, hc, hmem⟩ := getAddressIndex_getElem _ columns i son hi.1 hne
    exact hconv i column son lt c hc hmem hty hi.2)
  refine ⟨inst, ?_⟩
  have hg : getRowIndex (.struct nm sc fields) (zeroValue (.struct nm sc fields))
      (getAddressIndex (.struct nm sc fields) columns) = some (inst0, adders) := by
    simpa [getRowIndex, GoType.Kind] using hloop
  simp [decodeRow, hg, Rows.Scan, hal, hscan]

/-- The map of the sample `Outer`. -/
theorem getFieldList_tOuter :
    getFieldList tOuter = [("x", [0]), ("Y", [1, 0]), ("z", [1, 1, 0])] := by
  decide

/-! ## Error kinds: C18 -/

/-- C18: `IsThisCode(err, code)` is true exactly when `err` is a non-nil
`*myDbError` whose code is `code`; a classified error matches its own code, which
is what `Code()` returns, and no other; the nil error, the nil `*myDbError` and
every error of another type (such as the errors of `rows.Scan` and the shape
error of `errors.New`) match no code. -/
theorem IsThisCode_iff (err : GoError) (code : myErrCode) :
    (IsThisCode err code = true ↔ ∃ e, err = .myDbError e code) ∧
    (∀ e c, (GoError.myDbError e c).Code = some c ∧ IsThisCode (.myDbError e c) c = true ∧
      (IsThisCode (.myDbError e c) code = true → code = c)) ∧
    IsThisCode .nil code = false ∧
    IsThisCode .nilMyDbError code = false ∧
    (∀ msg, IsThisCode (.plain msg) code = false) ∧
    IsThisCode scanErr code = false ∧ IsThisCode arityErr code = false ∧
    IsThisCode needPtrErr code = false := by
  refine ⟨?_, ?_, rfl, rfl, fun _ => rfl, rfl, rfl, rfl⟩
  · cases err with
    | myDbError e c =>
      simp only [IsThisCode, beq_iff_eq, GoError.myDbError.injEq, exists_eq_left']
    | _ => simp [IsThisCode]
  · intro e c
    refine ⟨rfl, by simp [IsThisCode], ?_⟩
    intro h
    simp only [IsThisCode, beq_iff_eq] at h
    exact h.symm

/-! ## The cursor is closed: C19 -/

/-- C19: whatever the destination, the cursor and the callback, and however the
call ends (success, shape error, failure of `Columns()`, failure of the scan, no
row, failure of the callback, or a panic), the cursor is closed when
`rowsModel`, `rowsModelWithFunc` and `rowsModelWithModelFunc` return. -/
theorem cursor_closed (drv : Driver) (rows : Rows) (args : List (GoType × GoVal))
    (slice : GoType × GoVal) (f : Nat → GoError) (t : GoType) (g : GoVal → GoError) :
    (rowsModel drv rows args).rows.closed = true ∧
    (rowsModelWithFunc drv rows slice f).rows.closed = true ∧
    (rowsModelWithModelFunc drv rows t g).rows.closed = true := by
  refine ⟨?_, ?_, ?_⟩
  · simp only [rowsModel]
    repeat' split
    all_goals rfl
  · simp only [rowsModelWithFunc]
    repeat' split
    all_goals rfl
  · simp only [rowsModelWithModelFunc]
    repeat' split
    all_goals rfl

/-! ## The binder on a scalar: C13, C12 -/

/-- The loop of `rows.Scan` over Discard Targets stores nothing and succeeds. -/
theorem scanLoop_discards (drv : Driver) (t : GoType) : ∀ (columns : List String)
    (cells : List Cell) (s : GoVal),
    scanLoop (scanCell drv t) cells (columns.map (fun _ => Target.discard)) s = (GoError.nil, s)
  | [], cells, s => by cases cells <;> rfl
  | _ :: rest, [], s => rfl
  | _ :: rest, c :: cs, s => by
    simp only [List.map_cons, scanLoop, scanCell]
    exact scanLoop_discards drv t rest cs s

/-- C13: for a row instance that is not a struct and a result with at least one
column, `getRowIndex` binds column 0 to the address of the instance itself,
wrapped in `NullData` unless the pointer to its type is an `sql.Scanner`, and
every further column to a Discard Target; the decoded value is what the first
cell stored, whatever the further cells hold, and only the first cell can make
the scan fail.  For a type that is neither a struct nor a pointer the map of
`getFieldList` is empty. -/
theorem getRowIndex_scalar (drv : Driver) (t : GoType) (v : GoVal) (column : String)
    (columns : List String) (ht : t.Kind ≠ .Struct) :
    (t.Kind ≠ .Ptr → getFieldList t = []) ∧
    getRowIndex t v (getAddressIndex t (column :: columns)) =
      some (v, wrapAddr [] t :: columns.map (fun _ => Target.discard)) ∧
    wrapAddr [] t = (if t.scanner = true then Target.scanner [] t else Target.null [] t) ∧
    (∀ (c : Cell) (cells : List Cell), cells.length = columns.length →
      decodeRow drv t (getAddressIndex t (column :: columns)) (c :: cells) =
        match cellEffect drv t c with
        | .fail => .err scanErr
        | .keep => .ok (zeroValue t)
        | .store x => .ok x) := by
  have hbind : ∀ w, getRowIndex t w (getAddressIndex t (column :: columns)) =
      some (w, wrapAddr [] t :: columns.map (fun _ => Target.discard)) := by
    intro w
    simp [getRowIndex, ht, getAddressIndex, List.map_map, Function.comp_def]
  refine ⟨?_, hbind v, ?_, ?_⟩
  · intro hp
    cases t with
    | ptr e => simp [GoType.Kind] at hp
    | struct nm sc fs => simp [GoType.Kind] at ht
    | _ => simp [getFieldList, getFieldList.f]
  · simp [wrapAddr, GoType.isScanner]
  · intro c cells hlen
    simp only [decodeRow, hbind, Rows.Scan, List.length_cons, List.length_map, hlen, ne_eq,
      not_true_eq_false, if_false, scanLoop, scanCell_wrapAddr]
    cases he : cellEffect drv t c with
    | fail => simp [scanErr]
    | keep => simp only [scanLoop_discards]
    | store x => simp only [scanLoop_discards, writeAt]

/-- C13, witness: an `int` destination row and the columns `n`, `note`: the
second cell, a string, neither reaches the `int` nor makes the scan fail. -/
theorem getRowIndex_scalar_witness :
    tInt.Kind ≠ .Struct ∧
    decodeRow demoDriver tInt (getAddressIndex tInt ["n", "note"])
      [some (.int 7), some (.str "x")] = .ok (.data (.int 7)) :=
  ⟨by decide,
    (getRowIndex_scalar demoDriver tInt .zero "n" ["note"] (by decide)).2.2.2
      (some (.int 7)) [some (.str "x")] rfl⟩

/-- C12, at the failing inputs: for an `int` row instance and a result without
columns `getRowIndex` panics (the assignment `adders[0] = d` on a slice of length
0), so `rowsModel` panics on a row of such a result; and for `Priv`, whose field
`a` is unexported, `getRowIndex` panics on the column `a`. -/
theorem getRowIndex_panics :
    getRowIndex tInt (zeroValue tInt) (getAddressIndex tInt []) = none ∧
    (rowsModel demoDriver (cursor [] [[]]) [(.ptr tInt, .ref .zero)]).res = .panic ∧
    getRowIndex tPriv (zeroValue tPriv) (getAddressIndex tPriv ["a"]) = none ∧
    (rowsModel demoDriver (cursor ["a"] [[some (.int 5)]])
      [(.ptr tPriv, .ref (zeroValue tPriv))]).res = .panic := by
  refine ⟨rfl, rfl, rfl, rfl⟩

/-! ## Timestamps: C16 -/

/-- C16, at the failing input: for `Stamped`, which embeds `*Time`, `getFieldList`
records the three subfields of `Time` and no entry for the embedded field
itself, while for `Dated` the timestamp embedded by value and the two named
timestamp fields are each recorded as one leaf; the test for recursion excludes
a struct named `Time` held by value and a named pointer to one, but not an
embedded pointer to one. -/
theorem getFieldList_embedded_time_pointer :
    getFieldList tStamped = [("wall", [0, 0]), ("ext", [0, 1]), ("loc", [0, 2])] ∧
    (getFieldList tStamped).get "Time" = none ∧
    getFieldList tDated = [("Time", [0]), ("At", [1]), ("Until", [2])] ∧
    (∀ (tf : StructField) (sc : Bool) (fs : List (StructField × GoType)),
      recursed tf (.struct "Time" sc fs) = false ∧
      (tf.Anonymous = false → recursed tf (.ptr (.struct "Time" sc fs)) = false) ∧
      (tf.Anonymous = true → recursed tf (.ptr (.struct "Time" sc fs)) = true)) := by
  refine ⟨by decide, by decide, by decide, ?_⟩
  intro tf sc fs
  refine ⟨by simp [recursed], ?_, ?_⟩
  · intro h; simp [recursed, h]
  · intro h; simp [recursed, h, GoType.Kind]

/-! ## Scan failure in slice mode: C20 -/

/-- The loop of lines 197-211 when a row fails to scan after rows that decode:
the loop is left with the error of the scan. -/
theorem sliceLoop_fail (drv : Driver) (dt elem : GoType) (adder : List (List Nat))
    (he : ∀ e, elem = .ptr e → e.Kind ≠ .Ptr) (bad : List Cell) (later : List (List Cell))
    (err : GoError) (hbad : decodeRow drv dt adder bad = .err err) :
    ∀ (good : List (List Cell)) (insts sl : List GoVal),
      List.Forall₂ (fun row inst => decodeRow drv dt adder row = .ok inst) good insts →
      rowsModel.sliceLoop drv dt elem adder (good ++ bad :: later) sl =
        ⟨some (.ret err), sl ++ insts.map (rowElem elem), good.length + 1⟩
  | [], insts, sl, hf => by
    cases hf
    simp [rowsModel.sliceLoop, hbad]
  | row :: rest, insts, sl, hf => by
    simp only [List.forall₂_cons_left_iff] at hf
    obtain ⟨inst, insts2, h1, h2, rfl⟩ := hf
    simp only [List.cons_append, rowsModel.sliceLoop, h1, appendRow_eq elem inst sl he,
      List.append_eq, sliceLoop_fail drv dt elem adder he bad later err hbad rest insts2 _ h2]
    simp

/-- The loop of `rowsModelWithFunc` when a row fails to scan after rows that
decode and that the callback accepts: the caller's slice holds the rows decoded
before the failure, or what it held when there is none. -/
theorem funcLoop_scan_fail (drv : Driver) (dt elem : GoType) (adder : List (List Nat))
    (f : Nat → GoError) (he : ∀ e, elem = .ptr e → e.Kind ≠ .Ptr) (bad : List Cell)
    (later : List (List Cell)) (err : GoError) (hbad : decodeRow drv dt adder bad = .err err) :
    ∀ (good : List (List Cell)) (insts sl : List GoVal) (index : Nat) (cur : GoVal),
      List.Forall₂ (fun row inst => decodeRow drv dt adder row = .ok inst) good insts →
      (∀ i, i < good.length → f (index + i) = .nil) →
      (rowsModelWithFunc.loop drv dt elem adder f (good ++ bad :: later) sl index cur).exit =
        some (.ret err) ∧
      (rowsModelWithFunc.loop drv dt elem adder f (good ++ bad :: later) sl index cur).cur =
        (if good = [] then cur else .slice (sl ++ insts.map (rowElem elem))) ∧
      (rowsModelWithFunc.loop drv dt elem adder f (good ++ bad :: later) sl index cur).fetched =
        good.length + 1
  | [], insts, sl, index, cur, hf, _ => by
    cases hf
    simp [rowsModelWithFunc.loop, hbad]
  | row :: rest, insts, sl, index, cur, hf, hok => by
    simp only [List.forall₂_cons_left_iff] at hf
    obtain ⟨inst, insts2, h1, h2, rfl⟩ := hf
    have h0 : f index = .nil := by simpa using hok 0 (by simp)
    obtain ⟨g1, g2, g3⟩ := funcLoop_scan_fail drv dt elem adder f he bad later err hbad rest
      insts2 (sl ++ [rowElem elem inst]) (index + 1) (.slice (sl ++ [rowElem elem inst])) h2
      (by
        intro i hi
        have := hok (i + 1) (by simp only [List.length_cons]; omega)
        rw [← this]; congr 1; omega)
    simp only [List.cons_append, rowsModelWithFunc.loop, h1, appendRow_eq elem inst sl he, h0,
      List.append_eq]
    refine ⟨g1, ?_, by rw [g3]; simp⟩
    rw [g2]
    by_cases hr : rest = []
    · subst hr
      cases h2
      simp
    · simp [hr]

/-- C20: for a destination that leads to a slice, when `Columns()` fails, or when
a row fails to scan after rows that decode, `rowsModel` returns that error as it
is and stores nothing: the slice reached keeps the content it had, and a pointer
to a slice with no nil pointer on the way is left exactly as it was, none of the
rows decoded before the failure being delivered; `rowsModelWithFunc`, with a
callback that accepts those rows, returns the same error but leaves the rows
decoded before the failure in the caller's slice. -/
theorem rowsModel_slice_scan_failure (drv : Driver) (rows : Rows) (t0 : GoType) (v0 : GoVal)
    (elem : GoType) (sc : Bool) (v : GoVal) (b : Bool) (f : Nat → GoError)
    (ht : t0.Kind = .Ptr) (hd : derefDest t0 v0 false = some (.slice elem sc, v, b))
    (he : ∀ e, elem = .ptr e → e.Kind ≠ .Ptr) :
    (∀ err, rows.columns = .error err →
      (rowsModel drv rows [(t0, v0)]).res = .ret err ∧
      (rowsModel drv rows [(t0, v0)]).dests = [setDest t0 v0 v] ∧
      (rowsModelWithFunc drv rows (t0, v0) f).res = .ret err ∧
      (rowsModelWithFunc drv rows (t0, v0) f).dest = setDest t0 v0 v) ∧
    (∀ (columns : List String) (good : List (List Cell)) (bad : List Cell)
      (later : List (List Cell)) (insts : List GoVal) (err : GoError),
      rows.columns = .ok columns → rows.pending = good ++ bad :: later →
      List.Forall₂ (fun row inst => decodeRow drv (derefType elem)
        (getAddressIndex (derefType elem) columns) row = .ok inst) good insts →
      decodeRow drv (derefType elem) (getAddressIndex (derefType elem) columns) bad = .err err →
      (∀ i, i < good.length → f i = .nil) →
      (rowsModel drv rows [(t0, v0)]).res = .ret err ∧
      (rowsModel drv rows [(t0, v0)]).dests = [setDest t0 v0 v] ∧
      (rowsModelWithFunc drv rows (t0, v0) f).res = .ret err ∧
      (rowsModelWithFunc drv rows (t0, v0) f).dest =
        setDest t0 v0 (if good = [] then v else .slice (insts.map (rowElem elem)))) ∧
    derefDest t0 (setDest t0 v0 v) false = some (.slice elem sc, v, b) ∧
    (chainSet t0 v0 = true → setDest t0 v0 v = v0) := by
  have hk : ¬ t0.Kind ≠ .Ptr := by simp [ht]
  refine ⟨?_, ?_, derefDest_setDest t0 v0 false v _ v b hd,
    setDest_of_chainSet t0 v0 false _ v b hd⟩
  · intro err hc
    simp [rowsModel, rowsModelWithFunc, hk, hd, hc]
  · intro columns good bad later insts err hc hp hgood hbad hok
    have h1 := sliceLoop_fail drv (derefType elem) elem _ he bad later err hbad good insts []
      hgood
    obtain ⟨g1, g2, _⟩ := funcLoop_scan_fail drv (derefType elem) elem _ f he bad later err hbad
      good insts [] 0 v hgood (by intro i hi; simpa using hok i hi)
    simp only [List.nil_append] at g2
    refine ⟨?_, ?_, ?_, ?_⟩
    · simp [rowsModel, hk, hd, hc, hp, h1]
    · simp [rowsModel, hk, hd, hc, hp, h1]
    · simp [rowsModelWithFunc, hk, hd, hc, hp, g1]
    · simp [rowsModelWithFunc, hk, hd, hc, hp, g2]

/-- C20, witness: a `*[]Dup` holding one element and three rows of which the
second does not convert: `rowsModel` returns the error of the scan and leaves
the destination as it was, `rowsModelWithFunc` leaves the first row in it. -/
theorem rowsModel_slice_scan_failure_witness :
    (rowsModel demoDriver
      (cursor ["x"] [[some (.int 5)], [some (.str "bad")], [some (.int 7)]])
      [(.ptr (.slice tDup false), .ref (.slice [.struct [.data (.int 1), .data (.int 2)]]))]).res
      = .ret scanErr ∧
    (rowsModel demoDriver
      (cursor ["x"] [[some (.int 5)], [some (.str "bad")], [some (.int 7)]])
      [(.ptr (.slice tDup false), .ref (.slice [.struct [.data (.int 1), .data (.int 2)]]))]).dests
      = [.ref (.slice [.struct [.data (.int 1), .data (.int 2)]])] ∧
    (rowsModelWithFunc demoDriver
      (cursor ["x"] [[some (.int 5)], [some (.str "bad")], [some (.int 7)]])
      (.ptr (.slice tDup false), .ref (.slice [.struct [.data (.int 1), .data (.int 2)]]))
      (fun _ => .nil)).dest = .ref (.slice [.struct [.zero, .data (.int 5)]]) :=
  ⟨((rowsModel_slice_scan_failure demoDriver
      (cursor ["x"] [[some (.int 5)], [some (.str "bad")], [some (.int 7)]])
      (.ptr (.slice tDup false)) (.ref (.slice [.struct [.data (.int 1), .data (.int 2)]]))
      tDup false (.slice [.struct [.data (.int 1), .data (.int 2)]]) true (fun _ => .nil)
      rfl rfl (by intro e h; cases h)).2.1 ["x"] [[some (.int 5)]] [some (.str "bad")]
      [[some (.int 7)]] [.struct [.zero, .data (.int 5)]] scanErr rfl rfl
      (List.Forall₂.cons rfl List.Forall₂.nil) rfl (fun _ _ => rfl)).1,
    ((rowsModel_slice_scan_failure demoDriver
      (cursor ["x"] [[some (.int 5)], [some (.str "bad")], [some (.int 7)]])
      (.ptr (.slice tDup false)) (.ref (.slice [.struct [.data (.int 1), .data (.int 2)]]))
      tDup false (.slice [.struct [.data (.int 1), .data (.int 2)]]) true (fun _ => .nil)
      rfl rfl (by intro e h; cases h)).2.1 ["x"] [[some (.int 5)]] [some (.str "bad")]
      [[some (.int 7)]] [.struct [.zero, .data (.int 5)]] scanErr rfl rfl
      (List.Forall₂.cons rfl List.Forall₂.nil) rfl (fun _ _ => rfl)).2.1,
    ((rowsModel_slice_scan_failure demoDriver
      (cursor ["x"] [[some (.int 5)], [some (.str "bad")], [some (.int 7)]])
      (.ptr (.slice tDup false)) (.ref (.slice [.struct [.data (.int 1), .data (.int 2)]]))
      tDup false (.slice [.struct [.data (.int 1), .data (.int 2)]]) true (fun _ => .nil)
      rfl rfl (by intro e h; cases h)).2.1 ["x"] [[some (.int 5)]] [some (.str "bad")]
      [[some (.int 7)]] [.struct [.zero, .data (.int 5)]] scanErr rfl rfl
      (List.Forall₂.cons rfl List.Forall₂.nil) rfl (fun _ _ => rfl)).2.2.2⟩

/-! ## One path per key -/

/-- A key of the map of `getFieldList` has one path. -/
theorem getFieldList_path_unique (t : GoType) (k : String) (p q : List Nat)
    (hp : (k, p) ∈ getFieldList t) (hq : (k, q) ∈ getFieldList t) : p = q := by
  have h1 := (getFieldList_get_iff t k p).mpr hp
  have h2 := (getFieldList_get_iff t k q).mpr hq
  rw [h1] at h2
  exact Option.some.inj h2

/-! ## Allocation of pointer fields -/

/-- The type of the storage at a path that continues another one. -/
theorem typeAt_append : ∀ (p q : List Nat) (t : GoType),
    typeAt t (p ++ q) = (typeAt t p).bind (fun ct => typeAt ct q)
  | [], q, t => by simp [typeAt]
  | n :: p, q, t => by
    simp only [List.cons_append, typeAt]
    cases childType t n with
    | none => rfl
    | some r => exact typeAt_append p q r.2

/-- Reading at a path that continues another one is reading the rest of the path
in the storage at the first part. -/
theorem readAt_append : ∀ (p q : List Nat) (t : GoType) (v : GoVal),
    readAt t v (p ++ q) =
      (readAt t v p).bind (fun w => (typeAt t p).bind (fun ct => readAt ct w q))
  | [], q, t, v => by simp [readAt, typeAt]
  | n :: p, q, t, v => by
    simp only [List.cons_append, readAt, typeAt]
    cases hch : child t v n with
    | none => rfl
    | some r =>
      obtain ⟨tf, ct, o⟩ := r
      cases o with
      | none => rfl
      | some cv =>
        simp only [child_childType t v n tf ct _ hch]
        exact readAt_append p q ct cv

/-- Storage that can be read at a path can be read at every beginning of it. -/
theorem readAt_of_append (p q : List Nat) (t : GoType) (v x : GoVal)
    (h : readAt t v (p ++ q) = some x) :
    ∃ w ct, readAt t v p = some w ∧ typeAt t p = some ct ∧ readAt ct w q = some x := by
  rw [readAt_append] at h
  cases hw : readAt t v p with
  | none => simp [hw] at h
  | some w =>
    cases hct : typeAt t p with
    | none => simp [hw, hct] at h
    | some ct =>
      simp only [hw, hct, Option.bind_some] at h
      exact ⟨w, ct, rfl, rfl, h⟩

/-- The paths `getAddressIndex` gives do not properly begin one another. -/
theorem getAddressIndex_prefixFree (t : GoType) (columns : List String) :
    ∀ p ∈ getAddressIndex t columns, ∀ q ∈ getAddressIndex t columns,
      p ≠ [] → p <+: q → p = q := by
  have key : ∀ p ∈ getAddressIndex t columns, p ≠ [] → ∃ k, LeafPath (rootFields t) p k := by
    intro p hp hne
    obtain ⟨i, hi⟩ := List.mem_iff_getElem?.mp hp
    obtain ⟨column, _, hm⟩ := getAddressIndex_getElem t columns i p hi hne
    exact ⟨column, getFieldList_leafPath t column p hm⟩
  intro p hp q hq hne hpre
  have hqne : q ≠ [] := by
    intro h0
    subst h0
    exact hne (List.prefix_nil.mp hpre)
  obtain ⟨k1, h1⟩ := key p hp hne
  obtain ⟨k2, h2⟩ := key q hq hqne
  exact (LeafPath.antichain p q _ k1 k2 h1 h2 hpre).1

/-- The path `getAddressIndex` holds for a result column that is a key of the
map. -/
theorem getAddressIndex_mem (t : GoType) (columns : List String) (column : String)
    (path : List Nat) (hc : column ∈ columns) (hm : (column, path) ∈ getFieldList t) :
    path ∈ getAddressIndex t columns ∧ path ≠ [] := by
  constructor
  · unfold getAddressIndex
    simp only [List.mem_map]
    exact ⟨column, hc, by simp [(getFieldList_get_iff t column path).mpr hm]⟩
  · intro h0
    subst h0
    have := getFieldList_leafPath t column [] hm
    cases hr : rootFields t <;> simp [hr, LeafPath] at this

/-- The allocations of the binder where it returns: the walk leaves every pointer
field on the path set (the storage at every beginning of the path exists
afterwards) and keeps what could
be read before, so a pointer that was set is kept with its pointee; after the
binding of a fresh instance the storage at every beginning of the path of every
bound column exists, and the binding does return when the bound paths are
bindable; and in a decoded instance (column names distinct) two columns whose
paths share a beginning have their values in the same storage at that
beginning, reached from the root. -/
theorem binder_allocates (drv : Driver) (nm : String) (sc : Bool)
    (fields : List (StructField × GoType)) (columns : List String) :
    (∀ (v : GoVal) (son : List Nat) (fl : Flag) (v1 : GoVal) (lt : GoType) (fl2 : Flag),
      walk (.struct nm sc fields) v son fl = some (v1, lt, fl2) →
      (∀ pre rest, son = pre ++ rest → ∃ w, readAt (.struct nm sc fields) v1 pre = some w) ∧
      (∀ q x, (q <+: son → q = son) → readAt (.struct nm sc fields) v q = some x →
        readAt (.struct nm sc fields) v1 q = some x)) ∧
    (∀ (inst0 : GoVal) (adders : List Target),
      getRowIndex (.struct nm sc fields) (zeroValue (.struct nm sc fields))
        (getAddressIndex (.struct nm sc fields) columns) = some (inst0, adders) →
      ∀ column path, column ∈ columns →
        (column, path) ∈ getFieldList (.struct nm sc fields) →
        ∀ pre rest, path = pre ++ rest →
          ∃ w, readAt (.struct nm sc fields) inst0 pre = some w) ∧
    ((∀ column path, column ∈ columns →
        (column, path) ∈ getFieldList (.struct nm sc fields) → bindable fields path = true) →
      ∃ inst0 adders, getRowIndex (.struct nm sc fields) (zeroValue (.struct nm sc fields))
        (getAddressIndex (.struct nm sc fields) columns) = some (inst0, adders)) ∧
    (columns.Nodup → ∀ (row : List Cell) (inst : GoVal),
      decodeRow drv (.struct nm sc fields)
        (getAddressIndex (.struct nm sc fields) columns) row = .ok inst →
      ∀ (i j : Nat) (c1 c2 : String) (pre s1 s2 : List Nat),
        columns[i]? = some c1 → columns[j]? = some c2 →
        (c1, pre ++ s1) ∈ getFieldList (.struct nm sc fields) →
        (c2, pre ++ s2) ∈ getFieldList (.struct nm sc fields) →
        ∃ w ct, readAt (.struct nm sc fields) inst pre = some w ∧
          typeAt (.struct nm sc fields) pre = some ct ∧
          (∃ lt r, typeAt ct s1 = some lt ∧ row[i]? = some r ∧
            readAt ct w s1 = fieldAfter lt (cellEffect drv lt r)) ∧
          (∃ lt r, typeAt ct s2 = some lt ∧ row[j]? = some r ∧
            readAt ct w s2 = fieldAfter lt (cellEffect drv lt r))) := by
  refine ⟨?_, ?_, ?_, ?_⟩
  · intro v son fl v1 lt fl2 hw
    constructor
    · intro pre rest hson
      obtain ⟨_, x, hx⟩ := walk_readAt son _ v fl v1 lt fl2 hw
      rw [hson] at hx
      obtain ⟨w, _, h1, _, _⟩ := readAt_of_append pre rest _ v1 x hx
      exact ⟨w, h1⟩
    · intro q x hq hr
      exact walk_preserves son q _ v fl v1 lt fl2 x hw hq hr
  · intro inst0 adders hg column path hc hm pre rest hp
    have hloop : getRowIndex.loop (.struct nm sc fields) (zeroValue (.struct nm sc fields))
        (getAddressIndex (.struct nm sc fields) columns) = some (inst0, adders) := by
      simpa [getRowIndex, GoType.Kind] using hg
    obtain ⟨_, _, _, hD⟩ := getRowIndex_loop_spec _ _ _ inst0 adders hloop
    obtain ⟨hmem, hne⟩ := getAddressIndex_mem _ columns column path hc hm
    obtain ⟨x, hx⟩ := hD (getAddressIndex_prefixFree _ columns) path hmem hne
    rw [hp] at hx
    obtain ⟨w, _, h1, _, _⟩ := readAt_of_append pre rest _ inst0 x hx
    exact ⟨w, h1⟩
  · intro hbind
    have hidx : ∀ son ∈ getAddressIndex (.struct nm sc fields) columns, son ≠ [] →
        (∃ k, LeafPath fields son k) ∧ bindable fields son = true := by
      intro son hs hne
      obtain ⟨i, hi⟩ := List.mem_iff_getElem?.mp hs
      obtain ⟨column, hc, hm⟩ := getAddressIndex_getElem _ columns i son hi hne
      exact ⟨⟨column, getFieldList_leafPath (.struct nm sc fields) column son hm⟩,
        hbind column son (List.mem_iff_getElem?.mpr ⟨i, hc⟩) hm⟩
    obtain ⟨inst0, adders, hloop⟩ := getRowIndex_loop_ok nm sc fields _ _
      (wellTyped_zeroValue (.struct nm sc fields)) hidx
    exact ⟨inst0, adders, by simpa [getRowIndex, GoType.Kind] using hloop⟩
  · intro hnd row inst hdec i j c1 c2 pre s1 s2 hi hj hm1 hm2
    have hone : ∀ (k : Nat) (c : String) (s : List Nat), columns[k]? = some c →
        (c, pre ++ s) ∈ getFieldList (.struct nm sc fields) →
        ∃ lt r y, typeAt (.struct nm sc fields) (pre ++ s) = some lt ∧ row[k]? = some r ∧
          readAt (.struct nm sc fields) inst (pre ++ s) = some y ∧
          some y = fieldAfter lt (cellEffect drv lt r) := by
      intro k c s hk hm
      obtain ⟨hlen, _, hF⟩ := decodeRow_struct drv nm sc fields _ row inst hdec
      have hpw := getAddressIndex_pairwise (.struct nm sc fields) columns hnd
      have hadd : (getAddressIndex (.struct nm sc fields) columns)[k]? = some (pre ++ s) := by
        have hg := (getFieldList_get_iff (.struct nm sc fields) c (pre ++ s)).mpr hm
        simp [getAddressIndex, hk, hg]
      have hil : k < row.length := by
        rw [hlen]
        exact (List.getElem?_eq_some_iff.mp hadd).1
      have hrow : row[k]? = some row[k] := List.getElem?_eq_getElem hil
      have hzip : (pre ++ s, row[k]) ∈
          (getAddressIndex (.struct nm sc fields) columns).zip row := by
        apply List.mem_iff_getElem?.mpr
        exact ⟨k, by simp [List.getElem?_zip_eq_some, hadd, hrow]⟩
      have hne := (getAddressIndex_mem _ columns c (pre ++ s)
        (List.mem_iff_getElem?.mpr ⟨k, hk⟩) hm).2
      obtain ⟨lt, h1, h2, h3⟩ := hF hpw (pre ++ s) row[k] hzip hne
      cases he : cellEffect drv lt row[k] with
      | fail => exact absurd he h3
      | keep => exact ⟨lt, row[k], zeroValue lt, h1, hrow, by rw [h2, he]; rfl, by rw [he]; rfl⟩
      | store x => exact ⟨lt, row[k], x, h1, hrow, by rw [h2, he]; rfl, by rw [he]; rfl⟩
    obtain ⟨lt1, r1, y1, a1, a2, a3, a4⟩ := hone i c1 s1 hi hm1
    obtain ⟨lt2, r2, y2, b1, b2, b3, b4⟩ := hone j c2 s2 hj hm2
    obtain ⟨w, ct, w1, w2, w3⟩ := readAt_of_append pre s1 _ inst y1 a3
    obtain ⟨w', ct', w1', w2', w3'⟩ := readAt_of_append pre s2 _ inst y2 b3
    rw [w1] at w1'
    rw [w2] at w2'
    simp only [Option.some.injEq] at w1' w2'
    subst w1' w2'
    rw [typeAt_append, w2] at a1 b1
    change typeAt ct s1 = some lt1 at a1
    change typeAt ct s2 = some lt2 at b1
    exact ⟨w, ct, w1, w2, ⟨lt1, r1, a1, a2, by rw [w3, a4]⟩, ⟨lt2, r2, b1, b2, by rw [w3', b4]⟩⟩

/-- An instance of the allocations of the binder: in `Pair` the columns `A` and
`B` lie under one embedded pointer: the binding of a fresh instance returns, and in the decoded row the one
pointee holds both values. -/
theorem binder_allocates_witness :
    (∃ inst0 adders, getRowIndex tPair (zeroValue tPair)
      (getAddressIndex tPair ["A", "B"]) = some (inst0, adders)) ∧
    (∃ w ct, readAt tPair (.struct [.ref (.struct [.data (.int 1), .data (.int 2)])]) [0]
        = some w ∧
      typeAt tPair [0] = some ct ∧
      (∃ lt r, typeAt ct [0] = some lt ∧
        [some (Datum.int 1), some (Datum.int 2)][0]? = some r ∧
        readAt ct w [0] = fieldAfter lt (cellEffect demoDriver lt r)) ∧
      (∃ lt r, typeAt ct [1] = some lt ∧
        [some (Datum.int 1), some (Datum.int 2)][1]? = some r ∧
        readAt ct w [1] = fieldAfter lt (cellEffect demoDriver lt r))) :=
  ⟨(binder_allocates demoDriver "Pair" false [(emb "Both", .ptr tBoth)] ["A", "B"]).2.2.1
    (by
      intro column path _ hm
      have hmap : getFieldList (.struct "Pair" false [(emb "Both", .ptr tBoth)]) =
          [("A", [0, 0]), ("B", [0, 1])] := by decide
      rw [hmap] at hm
      simp only [List.mem_cons, Prod.mk.injEq, List.mem_singleton, List.not_mem_nil,
        or_false] at hm
      rcases hm with ⟨_, rfl⟩ | ⟨_, rfl⟩ <;> rfl),
   (binder_allocates demoDriver "Pair" false [(emb "Both", .ptr tBoth)] ["A", "B"]).2.2.2
    (by decide) [some (.int 1), some (.int 2)]
    (.struct [.ref (.struct [.data (.int 1), .data (.int 2)])]) rfl 0 1 "A" "B" [0] [0] [1]
    rfl rfl (by decide) (by decide)⟩

/-! ## Duplicate column names: C17 -/

/-- The paths from the field `n` on are those from the field `n + 1` on and those
through the field `n`. -/
theorem leafFrom_succ (all : List (StructField × GoType)) (n : Nat) (s : List Nat)
    (k : String) :
    LeafFrom all n s k ↔
      LeafFrom all (n + 1) s k ∨ ∃ r, s = n :: r ∧ LeafPath all (n :: r) k := by
  unfold LeafFrom
  constructor
  · rintro ⟨hl, i, r, rfl, hi⟩
    by_cases h : i = n
    · subst h
      exact Or.inr ⟨r, rfl, hl⟩
    · exact Or.inl ⟨hl, i, r, rfl, by omega⟩
  · rintro (⟨hl, i, r, rfl, hi⟩ | ⟨r, rfl, hl⟩)
    · exact ⟨hl, i, r, rfl, by omega⟩
    · exact ⟨hl, n, r, rfl, le_refl n⟩

/-- Every recorded path starts at the field 0 or later. -/
theorem leafFrom_zero (all : List (StructField × GoType)) (s : List Nat) (k : String) :
    LeafFrom all 0 s k ↔ LeafPath all s k := by
  unfold LeafFrom
  constructor
  · exact fun h => h.1
  · intro h
    refine ⟨h, ?_⟩
    cases s with
    | nil => simp [LeafPath] at h
    | cons i r => exact ⟨i, r, rfl, Nat.zero_le i⟩

/-- The recorded paths through a field the code records: the field alone. -/
theorem leafPath_here_leaf (all : List (StructField × GoType)) (n : Nat) (tf : StructField)
    (ty : GoType) (hn : all[n]? = some (tf, ty)) (hrec : recursed tf ty = false)
    (r : List Nat) (k : String) :
    LeafPath all (n :: r) k ↔ r = [] ∧ columnOf tf = k := by
  simp only [LeafPath, hn, Option.some.injEq, Prod.mk.injEq]
  constructor
  · rintro ⟨tf2, ty2, ⟨rfl, rfl⟩, h | h⟩
    · rw [hrec] at h
      cases h.1
    · exact h.2
  · intro h
    exact ⟨tf, ty, ⟨rfl, rfl⟩, Or.inr ⟨hrec, h⟩⟩

/-- The recorded paths through a field the code recurses into: the recorded
paths of the struct the field holds. -/
theorem leafPath_here_rec (all : List (StructField × GoType)) (n : Nat) (tf : StructField)
    (ty : GoType) (hn : all[n]? = some (tf, ty)) (hrec : recursed tf ty = true)
    (r : List Nat) (k : String) :
    LeafPath all (n :: r) k ↔ LeafPath (embeddedFields ty) r k := by
  simp only [LeafPath, hn, Option.some.injEq, Prod.mk.injEq]
  constructor
  · rintro ⟨tf2, ty2, ⟨rfl, rfl⟩, h | h⟩
    · exact h.2
    · rw [hrec] at h
      cases h.1
  · intro h
    exact ⟨tf, ty, ⟨rfl, rfl⟩, Or.inl ⟨hrec, h⟩⟩

/-- A visit of the same leaves under another description. -/
theorem Resolves.congr (leaf leaf2 : List Nat → String → Prop) (l : List Nat)
    (m X : MapIndex) (h : ∀ s k, leaf s k ↔ leaf2 s k) (hr : Resolves leaf l m X) :
    Resolves leaf2 l m X := by
  have : leaf = leaf2 := by
    funext s k
    exact propext (h s k)
  rw [← this]
  exact hr

/-- A visit of no leaf leaves the map as it is. -/
theorem Resolves.empty (leaf : List Nat → String → Prop) (l : List Nat) (m : MapIndex)
    (h : ∀ s k, ¬ leaf s k) : Resolves leaf l m m := by
  intro k
  constructor
  · rintro (hm | ⟨s, hs⟩)
    · exact hm
    · exact absurd hs (h s k)
  · intro p
    constructor
    · intro hm
      exact Or.inr ⟨hm, fun s => h s k⟩
    · rintro (⟨s, _, hs, _⟩ | ⟨hm, _⟩)
      · exact absurd hs (h s k)
      · exact hm

/-- The visit of one recorded field: the assignment `mapIndex[column] = path`. -/
theorem Resolves.leaf (l : List Nat) (n : Nat) (c : String) (m : MapIndex) :
    Resolves (fun r k => r = [] ∧ c = k) (l ++ [n]) m (m.set c (l ++ [n])) := by
  intro k
  constructor
  · rintro (⟨p, hm⟩ | ⟨s, _, hs⟩)
    · by_cases hk : k = c
      · exact ⟨l ++ [n], by rw [MapIndex.mem_set]; exact Or.inr (by rw [hk])⟩
      · exact ⟨p, by rw [MapIndex.mem_set]; exact Or.inl ⟨hm, hk⟩⟩
    · exact ⟨l ++ [n], by rw [MapIndex.mem_set]; exact Or.inr (by rw [hs])⟩
  · intro p
    rw [MapIndex.mem_set]
    constructor
    · rintro (⟨hm, hk⟩ | he)
      · refine Or.inr ⟨hm, ?_⟩
        rintro s ⟨_, hc⟩
        exact hk hc.symm
      · simp only [Prod.mk.injEq] at he
        refine Or.inl ⟨[], by simp [he.2], ⟨rfl, he.1.symm⟩, ?_⟩
        rintro q ⟨hq, _⟩
        exact Or.inl hq
    · rintro (⟨s, hp, ⟨hs, hc⟩, _⟩ | ⟨hm, hno⟩)
      · subst hs
        exact Or.inr (by simp [hp, hc])
      · refine Or.inl ⟨hm, ?_⟩
        intro hk
        exact hno [] ⟨rfl, hk.symm⟩

/-- One turn of the loop of `getFieldList`: the visit of the field `n`, then the
visit of the later fields. -/
theorem Resolves.step (all : List (StructField × GoType)) (n : Nat) (l : List Nat)
    (m m2 X : MapIndex)
    (h1 : Resolves (fun r k => LeafPath all (n :: r) k) (l ++ [n]) m m2)
    (h2 : Resolves (LeafFrom all (n + 1)) l m2 X) :
    Resolves (LeafFrom all n) l m X := by
  have after : ∀ (r s : List Nat) (k : String), LeafFrom all (n + 1) s k →
      visitedBefore (n :: r) s ∧ ¬ visitedBefore s (n :: r) ∧ s ≠ n :: r := by
    rintro r s k ⟨_, i, r2, rfl, hi⟩
    refine ⟨?_, ?_, ?_⟩
    · simp only [visitedBefore]
      exact Or.inl (by omega)
    · simp only [visitedBefore]
      rintro (h | ⟨h, _⟩) <;> omega
    · intro h
      simp only [List.cons.injEq] at h
      omega
  intro k
  obtain ⟨e1, i1⟩ := h1 k
  obtain ⟨e2, i2⟩ := h2 k
  constructor
  · rintro (hm | ⟨s, hs⟩)
    · exact e2 (Or.inl (e1 (Or.inl hm)))
    · rcases (leafFrom_succ all n s k).mp hs with h | ⟨r, _, hr⟩
      · exact e2 (Or.inr ⟨s, h⟩)
      · exact e2 (Or.inl (e1 (Or.inr ⟨r, hr⟩)))
  · intro p
    rw [i2 p]
    constructor
    · rintro (⟨s, hp, hs, hlast⟩ | ⟨hm2, hno⟩)
      · refine Or.inl ⟨s, hp, (leafFrom_succ all n s k).mpr (Or.inl hs), ?_⟩
        intro q hq
        rcases (leafFrom_succ all n q k).mp hq with h | ⟨r, rfl, _⟩
        · exact hlast q h
        · exact Or.inr (after r s k hs).1
      · rcases (i1 p).mp hm2 with ⟨r, hp, hr, hlast⟩ | ⟨hm, hnone⟩
        · refine Or.inl ⟨n :: r, by simp [hp], ?_, ?_⟩
          · exact (leafFrom_succ all n _ k).mpr (Or.inr ⟨r, rfl, hr⟩)
          · intro q hq
            rcases (leafFrom_succ all n q k).mp hq with h | ⟨r2, rfl, hr2⟩
            · exact absurd h (hno q)
            · rcases hlast r2 hr2 with h | h
              · exact Or.inl (by rw [h])
              · exact Or.inr (by simp [visitedBefore, h])
        · refine Or.inr ⟨hm, ?_⟩
          intro s hs
          rcases (leafFrom_succ all n s k).mp hs with h | ⟨r, _, hr⟩
          · exact hno s h
          · exact hnone r hr
    · rintro (⟨s, hp, hs, hlast⟩ | ⟨hm, hno⟩)
      · rcases (leafFrom_succ all n s k).mp hs with h | ⟨r, rfl, hr⟩
        · refine Or.inl ⟨s, hp, h, ?_⟩
          intro q hq
          exact hlast q ((leafFrom_succ all n q k).mpr (Or.inl hq))
        · have hnone : ∀ q, ¬ LeafFrom all (n + 1) q k := by
            intro q hq
            obtain ⟨_, a2, a3⟩ := after r q k hq
            rcases hlast q ((leafFrom_succ all n q k).mpr (Or.inl hq)) with h | h
            · exact a3 h
            · exact a2 h
          refine Or.inr ⟨(i1 p).mpr (Or.inl ⟨r, by simp [hp], hr, ?_⟩), hnone⟩
          intro r2 hr2
          rcases hlast (n :: r2) ((leafFrom_succ all n _ k).mpr (Or.inr ⟨r2, rfl, hr2⟩))
            with h | h
          · simp only [List.cons.injEq, true_and] at h
            exact Or.inl h
          · simp only [visitedBefore] at h
            rcases h with h | ⟨_, h⟩
            · omega
            · exact Or.inr h
      · refine Or.inr ⟨(i1 p).mpr (Or.inr ⟨hm, ?_⟩), ?_⟩
        · intro r hr
          exact hno (n :: r) ((leafFrom_succ all n _ k).mpr (Or.inr ⟨r, rfl, hr⟩))
        · intro s hs
          exact hno s ((leafFrom_succ all n s k).mpr (Or.inl hs))

/-- What the closure `f` of `getFieldList` does to the map: it visits the
recorded paths of the struct in depth-first declaration order. -/
theorem getFieldList_f_resolves (dest : GoType) (l : List Nat) (m : MapIndex) :
    Resolves (LeafPath (rootFields dest)) l m (getFieldList.f dest l m) := by
  have leafCase : ∀ (rest : List (StructField × GoType)) (n : Nat) (l : List Nat)
      (m : MapIndex) (tf : StructField) (ty : GoType), recursed tf ty = false →
      (∀ (all : List (StructField × GoType)), all.drop (n + 1) = rest →
        Resolves (LeafFrom all (n + 1)) l (m.set (columnOf tf) (l ++ [n]))
          (getFieldList.loop rest (n + 1) l (m.set (columnOf tf) (l ++ [n])))) →
      ∀ (all : List (StructField × GoType)), all.drop n = (tf, ty) :: rest →
        Resolves (LeafFrom all n) l m
          (getFieldList.loop rest (n + 1) l (m.set (columnOf tf) (l ++ [n]))) := by
    intro rest n l m tf ty hrec ih all hall
    obtain ⟨hn, hd⟩ := drop_cons_facts all n _ rest hall
    refine Resolves.step all n l m _ _ ?_ (ih all hd)
    exact Resolves.congr _ _ _ _ _
      (fun r k => (leafPath_here_leaf all n tf ty hn hrec r k).symm)
      (Resolves.leaf l n (columnOf tf) m)
  have recCase : ∀ (rest : List (StructField × GoType)) (n : Nat) (l : List Nat)
      (m : MapIndex) (tf : StructField) (ty inner : GoType), recursed tf ty = true →
      rootFields inner = embeddedFields ty →
      Resolves (LeafPath (rootFields inner)) (l ++ [n]) m
        (getFieldList.f inner (l ++ [n]) m) →
      (∀ (all : List (StructField × GoType)), all.drop (n + 1) = rest →
        Resolves (LeafFrom all (n + 1)) l (getFieldList.f inner (l ++ [n]) m)
          (getFieldList.loop rest (n + 1) l (getFieldList.f inner (l ++ [n]) m))) →
      ∀ (all : List (StructField × GoType)), all.drop n = (tf, ty) :: rest →
        Resolves (LeafFrom all n) l m
          (getFieldList.loop rest (n + 1) l (getFieldList.f inner (l ++ [n]) m)) := by
    intro rest n l m tf ty inner hrec hroot ih1 ih2 all hall
    obtain ⟨hn, hd⟩ := drop_cons_facts all n _ rest hall
    refine Resolves.step all n l m _ _ ?_ (ih2 all hd)
    refine Resolves.congr _ _ _ _ _ ?_ ih1
    intro r k
    rw [hroot]
    exact (leafPath_here_rec all n tf ty hn hrec r k).symm
  refine getFieldList.f.induct
    (fun dest l m => Resolves (LeafPath (rootFields dest)) l m (getFieldList.f dest l m))
    (fun fields n l m => ∀ (all : List (StructField × GoType)), all.drop n = fields →
      Resolves (LeafFrom all n) l m (getFieldList.loop fields n l m))
    ?_ ?_ ?_ ?_ ?_ ?_ ?_ ?_ ?_ dest l m
  · intro l m e ih
    rw [getFieldList.f]
    simpa [rootFields] using ih
  · intro l m nm sc fields ih
    rw [getFieldList.f]
    exact Resolves.congr _ _ _ _ _ (fun s k => leafFrom_zero fields s k) (ih fields (by simp))
  · intro t l m h1 h2
    cases t with
    | ptr e => exact absurd rfl (h1 e)
    | struct nm sc fs => exact absurd rfl (h2 nm sc fs)
    | _ =>
      simp only [getFieldList.f]
      exact Resolves.empty _ _ _ (by
        intro s k h
        cases s <;> simp [rootFields, LeafPath] at h)
  · intro n l m all hall
    rw [getFieldList.loop]
    refine Resolves.empty _ _ _ ?_
    rintro s k ⟨hl, i, r, rfl, hi⟩
    simp only [LeafPath] at hl
    obtain ⟨tf, ty, hget, _⟩ := hl
    have hlen : all.length ≤ n := by
      have := congrArg List.length hall
      simp at this
      omega
    have : i < all.length := (List.getElem?_eq_some_iff.mp hget).1
    omega
  · intro n l m tf rest e hc ih1 ih2 all hall
    rw [getFieldList.loop]
    simp only [hc, and_self, if_true]
    have hrec : recursed tf (.ptr e) = true := by simp [recursed, hc.1, hc.2]
    have hroot : rootFields e = embeddedFields (.ptr e) := rootFields_of_struct e hc.1
    exact recCase rest n l m tf (.ptr e) e hrec hroot ih1 ih2 all hall
  · intro n l m tf rest e hc ih all hall
    rw [getFieldList.loop]
    simp only [hc, if_false]
    have hrec : recursed tf (.ptr e) = false := by
      simp only [recursed, Bool.and_eq_false_imp, beq_iff_eq]
      intro h1
      by_contra h2
      exact hc ⟨h1, by simpa using h2⟩
    exact leafCase rest n l m tf (.ptr e) hrec ih all hall
  · intro n l m tf rest nm sc fs hc ih1 ih2 all hall
    rw [getFieldList.loop]
    simp only [hc, ne_eq, not_false_eq_true, and_self, if_true]
    have hrec : recursed tf (.struct nm sc fs) = true := by simp [recursed, hc.1, hc.2]
    exact recCase rest n l m tf (.struct nm sc fs) (.struct nm sc fs) hrec rfl ih1 ih2 all hall
  · intro n l m tf rest nm sc fs hc ih all hall
    rw [getFieldList.loop]
    simp only [hc, if_false]
    have hrec : recursed tf (.struct nm sc fs) = false := by
      simp only [recursed, Bool.and_eq_false_imp, bne_iff_ne, ne_eq]
      intro h1
      by_contra h2
      exact hc ⟨h1, by simpa using h2⟩
    exact leafCase rest n l m tf (.struct nm sc fs) hrec ih all hall
  · intro n l m tf ty rest h1 h2 ih all hall
    have hrec : recursed tf ty = false := by
      cases ty with
      | ptr e => exact absurd rfl (h1 e)
      | struct nm sc fs => exact absurd rfl (h2 nm sc fs)
      | _ => rfl
    have hloop : getFieldList.loop ((tf, ty) :: rest) n l m =
        getFieldList.loop rest (n + 1) l (m.set (columnOf tf) (l ++ [n])) := by
      cases ty with
      | ptr e => exact absurd rfl (h1 e)
      | struct nm sc fs => exact absurd rfl (h2 nm sc fs)
      | _ => simp only [getFieldList.loop]
    rw [hloop]
    exact leafCase rest n l m tf ty hrec ih all hall

/-- The order of the visit is asymmetric. -/
theorem visitedBefore_asymm : ∀ (p q : List Nat), visitedBefore p q → ¬ visitedBefore q p
  | [], _, h => by simp [visitedBefore] at h
  | _ :: _, [], h => by simp [visitedBefore] at h
  | a :: p, b :: q, h => by
    simp only [visitedBefore] at h ⊢
    rintro (h2 | ⟨h2, h3⟩)
    · rcases h with h | ⟨h, _⟩ <;> omega
    · rcases h with h | ⟨_, h⟩
      · omega
      · exact visitedBefore_asymm p q h h3

/-- Of two paths none of which begins the other, one is visited before the
other. -/
theorem visitedBefore_total : ∀ (p q : List Nat), ¬ p <+: q → ¬ q <+: p →
    visitedBefore p q ∨ visitedBefore q p
  | [], _, h, _ => absurd List.nil_prefix h
  | _ :: _, [], _, h => absurd List.nil_prefix h
  | a :: p, b :: q, h1, h2 => by
    simp only [visitedBefore]
    rcases Nat.lt_trichotomy a b with h | h | h
    · exact Or.inl (Or.inl h)
    · subst h
      have g1 : ¬ p <+: q := fun g => h1 (by rw [List.cons_prefix_cons]; exact ⟨rfl, g⟩)
      have g2 : ¬ q <+: p := fun g => h2 (by rw [List.cons_prefix_cons]; exact ⟨rfl, g⟩)
      rcases visitedBefore_total p q g1 g2 with g | g
      · exact Or.inl (Or.inr ⟨rfl, g⟩)
      · exact Or.inr (Or.inr ⟨rfl, g⟩)
    · exact Or.inr (Or.inl h)

/-- After the assignment `mapIndex[k] = v` the lookup of `k` finds `v`. -/
theorem MapIndex.get_set_same (m : MapIndex) (k : String) (v : List Nat) :
    (m.set k v).get k = some v := by
  have h : (m.filter (fun e => e.1 != k)).find? (fun e => e.1 == k) = none := by
    rw [List.find?_eq_none]
    intro e he
    have := (List.mem_filter.mp he).2
    simpa using this
  simp [MapIndex.set, MapIndex.get, List.find?_append, h]

/-- The assignment `mapIndex[k] = v` leaves the lookup of another key as it
was. -/
theorem MapIndex.get_set_other (k : String) (v : List Nat) (k2 : String) (hk : k2 ≠ k)
    (m : MapIndex) : (m.set k v).get k2 = m.get k2 := by
  have hb : (k == k2) = false := by
    simp only [beq_eq_false_iff_ne, ne_eq]
    exact fun h => hk h.symm
  have key : ∀ m : MapIndex,
      (m.filter (fun e => e.1 != k) ++ [(k, v)]).find? (fun e => e.1 == k2) =
        m.find? (fun e => e.1 == k2) := by
    intro m
    induction m with
    | nil => simp only [List.filter_nil, List.nil_append, List.find?_cons, hb, List.find?_nil]
    | cons e m ih =>
      rw [List.filter_cons]
      by_cases h1 : e.1 = k
      · have h2 : (e.1 == k2) = false := by rw [h1]; exact hb
        have h3 : (e.1 != k) = false := by simp [h1]
        simp only [h3, List.find?_cons, h2]
        exact ih
      · have h3 : (e.1 != k) = true := by simp [h1]
        simp only [h3, if_true, List.cons_append, List.find?_cons]
        cases (e.1 == k2)
        · exact ih
        · rfl
  simp only [MapIndex.set, MapIndex.get, key]

/-- C17: the keys of the map `getFieldList` returns are distinct; the lookup of a
column name gives a path exactly when the path is a recorded leaf path of that
name and every recorded leaf path of that name is that path or lies before it in
depth-first declaration order, at whatever depth either of them lies; a name
has no entry exactly when no leaf field resolves to it; two distinct leaf paths
are ordered one way and not the other, so that the last one is unique; an
assignment to the map replaces the entry of its key and leaves the other keys;
and in the samples the later field wins, be it shallower or deeper than the
earlier one. -/
theorem getFieldList_last_write_wins (src : GoType) :
    ((getFieldList src).map (fun e => e.1)).Nodup ∧
    (∀ (k : String) (p : List Nat), (getFieldList src).get k = some p ↔
      LeafPath (rootFields src) p k ∧
        ∀ q, LeafPath (rootFields src) q k → q = p ∨ visitedBefore q p) ∧
    (∀ k : String, (getFieldList src).get k = none ↔
      ∀ q, ¬ LeafPath (rootFields src) q k) ∧
    (∀ (p q : List Nat) (k1 k2 : String), LeafPath (rootFields src) p k1 →
      LeafPath (rootFields src) q k2 → p ≠ q →
      (visitedBefore p q ∨ visitedBefore q p) ∧ ¬ (visitedBefore p q ∧ visitedBefore q p)) ∧
    (∀ (m : MapIndex) (k : String) (v : List Nat), (m.set k v).get k = some v ∧
      ∀ k2, k2 ≠ k → (m.set k v).get k2 = m.get k2) ∧
    getFieldList tDup = [("x", [1])] ∧
    getFieldList (.struct "S" false [(fld "W" "z", tInt), (emb "Inner", tInner)]) =
      [("z", [1, 0])] ∧
    getFieldList (.struct "S" false [(emb "Inner", tInner), (fld "W" "z", tInt)]) =
      [("z", [1])] := by
  have hres := getFieldList_f_resolves src [] []
  have hiff : ∀ (k : String) (p : List Nat), (getFieldList src).get k = some p ↔
      LeafPath (rootFields src) p k ∧
        ∀ q, LeafPath (rootFields src) q k → q = p ∨ visitedBefore q p := by
    intro k p
    rw [getFieldList_get_iff]
    have := (hres k).2 p
    simp only [List.nil_append, List.not_mem_nil, false_and, or_false, exists_eq_left'] at this
    exact this
  refine ⟨getFieldList_nodup src, hiff, ?_, ?_, ?_, by decide, by decide, by decide⟩
  · intro k
    constructor
    · intro hnone q hq
      obtain ⟨p, hp⟩ := (hres k).1 (Or.inr ⟨q, hq⟩)
      have := (getFieldList_get_iff src k p).mpr hp
      rw [hnone] at this
      cases this
    · intro hno
      cases hg : (getFieldList src).get k with
      | none => rfl
      | some p => exact absurd ((hiff k p).mp hg).1 (hno p)
  · intro p q k1 k2 hp hq hne
    have g1 : ¬ p <+: q := fun g => hne (LeafPath.antichain p q _ k1 k2 hp hq g).1
    have g2 : ¬ q <+: p := fun g => hne (LeafPath.antichain q p _ k2 k1 hq hp g).1.symm
    exact ⟨visitedBefore_total p q g1 g2, fun h => visitedBefore_asymm p q h.1 h.2⟩
  · intro m k v
    exact ⟨MapIndex.get_set_same m k v, fun k2 hk => MapIndex.get_set_other k v k2 hk m⟩

/-! ## Columns the map does not hold -/

/-- Removing the unmapped columns commutes with a function applied to every
column. -/
theorem mappedOnly_map {α : Type} (m : MapIndex) (f : String → α) :
    ∀ cols : List String, mappedOnly m cols (cols.map f) = (mappedOnly m cols cols).map f
  | [] => rfl
  | c :: cs => by
    simp only [List.map_cons, mappedOnly]
    split
    · simp only [List.map_cons, mappedOnly_map m f cs]
    · exact mappedOnly_map m f cs

/-- Lists with one entry per column keep equally many entries. -/
theorem mappedOnly_length {α β : Type} (m : MapIndex) :
    ∀ (cols : List String) (xs : List α) (ys : List β), xs.length = ys.length →
      (mappedOnly m cols xs).length = (mappedOnly m cols ys).length
  | [], _, _, _ => by simp [mappedOnly]
  | _ :: _, [], [], _ => by simp [mappedOnly]
  | _ :: _, [], _ :: _, h => by simp at h
  | _ :: _, _ :: _, [], h => by simp at h
  | c :: cs, x :: xs, y :: ys, h => by
    have ih := mappedOnly_length m cs xs ys (by simpa using h)
    simp only [mappedOnly]
    split
    · simp [ih]
    · exact ih

/-- The paths `getAddressIndex` gives for the mapped columns alone. -/
theorem getAddressIndex_mappedOnly (t : GoType) (columns : List String) :
    getAddressIndex t (mappedOnly (getFieldList t) columns columns) =
      mappedOnly (getFieldList t) columns (getAddressIndex t columns) := by
  unfold getAddressIndex
  exact (mappedOnly_map _ _ columns).symm

/-- A relation that holds entry by entry may be weakened with the entries known
to be members. -/
theorem forall₂_imp_mem {α β : Type} {R S : α → β → Prop} :
    ∀ {l1 : List α} {l2 : List β}, List.Forall₂ R l1 l2 →
      (∀ a b, a ∈ l1 → b ∈ l2 → R a b → S a b) → List.Forall₂ S l1 l2
  | _, _, .nil, _ => .nil
  | _, _, .cons h t, himp =>
    .cons (himp _ _ (List.mem_cons_self _ _) (List.mem_cons_self _ _) h)
      (forall₂_imp_mem t (fun a b ha hb hr =>
        himp a b (List.mem_cons_of_mem _ ha) (List.mem_cons_of_mem _ hb) hr))

/-- The targets the binder gives, column by column. -/
theorem getRowIndex_targets (nm : String) (sc : Bool) (fields : List (StructField × GoType))
    (columns : List String) (v v2 : GoVal) (adders : List Target)
    (h : getRowIndex (.struct nm sc fields) v
      (getAddressIndex (.struct nm sc fields) columns) = some (v2, adders)) :
    List.Forall₂ (fun column tg =>
      match (getFieldList (.struct nm sc fields)).get column with
      | some p => ∃ lt x, typeAt (.struct nm sc fields) p = some lt ∧ tg = wrapAddr p lt ∧
          readAt (.struct nm sc fields) v2 p = some x
      | none => tg = Target.discard) columns adders := by
  have hloop : getRowIndex.loop (.struct nm sc fields) v
      (getAddressIndex (.struct nm sc fields) columns) = some (v2, adders) := by
    simpa [getRowIndex, GoType.Kind] using h
  obtain ⟨hA, _, _, hD⟩ := getRowIndex_loop_spec _ _ _ v2 adders hloop
  have hD2 := hD (getAddressIndex_prefixFree _ columns)
  have hA2 : List.Forall₂ (fun column tg =>
      ((match (getFieldList (.struct nm sc fields)).get column with
        | some v => v
        | none => []) = [] ∧ tg = Target.discard) ∨
      ((match (getFieldList (.struct nm sc fields)).get column with
        | some v => v
        | none => []) ≠ [] ∧ ∃ lt, typeAt (.struct nm sc fields)
          (match (getFieldList (.struct nm sc fields)).get column with
            | some v => v
            | none => []) = some lt ∧ tg = wrapAddr
          (match (getFieldList (.struct nm sc fields)).get column with
            | some v => v
            | none => []) lt)) columns adders := by
    have := hA
    unfold getAddressIndex at this
    rw [List.forall₂_map_left_iff] at this
    exact this
  refine forall₂_imp_mem hA2 ?_
  intro column tg hc _ hor
  cases hg : (getFieldList (.struct nm sc fields)).get column with
  | none =>
    simp only [hg] at hor ⊢
    rcases hor with ⟨_, h1⟩ | ⟨h1, _⟩
    · exact h1
    · exact absurd rfl h1
  | some p =>
    simp only [hg] at hor ⊢
    have hm := (getFieldList_get_iff _ column p).mp hg
    obtain ⟨hmem, hne⟩ := getAddressIndex_mem _ columns column p hc hm
    rcases hor with ⟨h1, _⟩ | ⟨_, lt, h1, h2⟩
    · exact absurd h1 hne
    · obtain ⟨x, hx⟩ := hD2 p hmem hne
      exact ⟨lt, x, h1, h2, hx⟩

/-- The binding loop skips the columns the map does not hold: without them it
gives the same instance and the targets of the other columns. -/
theorem getRowIndex_loop_mappedOnly (t : GoType) : ∀ (columns : List String) (v : GoVal),
    getRowIndex.loop t v (mappedOnly (getFieldList t) columns (getAddressIndex t columns)) =
      (getRowIndex.loop t v (getAddressIndex t columns)).map
        (fun r => (r.1, mappedOnly (getFieldList t) columns r.2))
  | [], v => by simp [getAddressIndex, mappedOnly, getRowIndex.loop]
  | c :: cs, v => by
    have hcons : getAddressIndex t (c :: cs) =
        (match (getFieldList t).get c with
          | some p => p
          | none => []) :: getAddressIndex t cs := rfl
    rw [hcons]
    cases hg : (getFieldList t).get c with
    | none =>
      simp only [mappedOnly, hg, Option.isSome_none, Bool.false_eq_true, if_false,
        getRowIndex.loop, List.length_nil, if_true]
      rw [getRowIndex_loop_mappedOnly t cs v]
      cases getRowIndex.loop t v (getAddressIndex t cs) with
      | none => rfl
      | some r => simp [mappedOnly, hg]
    | some p =>
      have hne : p.length ≠ 0 := by
        intro h0
        have hp : p = [] := List.length_eq_zero.mp h0
        have := getFieldList_leafPath t c p ((getFieldList_get_iff t c p).mp hg)
        subst hp
        cases hr : rootFields t <;> simp [hr, LeafPath] at this
      simp only [mappedOnly, hg, Option.isSome_some, if_true, getRowIndex.loop, hne, if_false]
      cases walk t v p ⟨false, false⟩ with
      | none => rfl
      | some w =>
        obtain ⟨v1, lt, fl⟩ := w
        simp only
        by_cases hro : fl.ro = true
        · simp [hro]
        · simp only [hro, Bool.false_eq_true, if_false]
          rw [getRowIndex_loop_mappedOnly t cs v1]
          cases getRowIndex.loop t v1 (getAddressIndex t cs) with
          | none => rfl
          | some r => simp [mappedOnly, hg]

/-- Scanning skips the Discard Targets: without the columns the map does not
hold, the scan gives the same error and the same instance. -/
theorem scanLoop_mappedOnly (drv : Driver) (t : GoType) (m : MapIndex) :
    ∀ (columns : List String) (cells : List Cell) (adders : List Target) (inst : GoVal),
      List.Forall₂ (fun column tg => m.get column = none → tg = Target.discard)
        columns adders →
      cells.length = columns.length →
      scanLoop (scanCell drv t) cells adders inst =
        scanLoop (scanCell drv t) (mappedOnly m columns cells) (mappedOnly m columns adders) inst
  | [], cells, adders, inst, h, hl => by
    cases h
    simp [mappedOnly, scanLoop]
  | c :: cs, [], adders, inst, h, hl => by simp at hl
  | c :: cs, cell :: cells, adders, inst, h, hl => by
    cases h with
    | cons h1 h2 =>
      rename_i tg tgs
      have ih := fun i => scanLoop_mappedOnly drv t m cs cells tgs i h2 (by simpa using hl)
      cases hg : m.get c with
      | none =>
        rw [h1 hg]
        simp only [mappedOnly, hg, Option.isSome_none, Bool.false_eq_true, if_false, scanLoop,
          scanCell]
        exact ih inst
      | some p =>
        simp only [mappedOnly, hg, Option.isSome_some, if_true, scanLoop]
        cases scanCell drv t tg cell inst with
        | none => rfl
        | some s2 => exact ih s2

/-- The binding of a struct row instance where the binder returns: for every list
of result columns, whenever the binder returns, a column that is a key of the
map is bound to the address of the storage at its path, which exists in the
instance and is never a Discard Target, and any other column is bound to a
Discard Target; scanning into a Discard Target
leaves the instance as it is; with the unmapped columns removed the binder gives
the same instance and the same targets for the other columns; a row decodes to
the same outcome with and without its unmapped columns; and the binder does
return when the paths of the mapped columns are bindable. -/
theorem binder_frame (drv : Driver) (nm : String) (sc : Bool)
    (fields : List (StructField × GoType)) (columns : List String) :
    (∀ (v v2 : GoVal) (adders : List Target),
      getRowIndex (.struct nm sc fields) v
        (getAddressIndex (.struct nm sc fields) columns) = some (v2, adders) →
      List.Forall₂ (fun column tg =>
        match (getFieldList (.struct nm sc fields)).get column with
        | some p => ∃ lt x, typeAt (.struct nm sc fields) p = some lt ∧ tg = wrapAddr p lt ∧
            readAt (.struct nm sc fields) v2 p = some x
        | none => tg = Target.discard) columns adders) ∧
    (∀ (p : List Nat) (lt : GoType), wrapAddr p lt ≠ Target.discard) ∧
    (∀ (c : Cell) (inst : GoVal),
      scanCell drv (.struct nm sc fields) Target.discard c inst = some inst) ∧
    (∀ v : GoVal,
      getRowIndex (.struct nm sc fields) v (getAddressIndex (.struct nm sc fields)
          (mappedOnly (getFieldList (.struct nm sc fields)) columns columns)) =
        (getRowIndex (.struct nm sc fields) v
          (getAddressIndex (.struct nm sc fields) columns)).map
          (fun r => (r.1, mappedOnly (getFieldList (.struct nm sc fields)) columns r.2))) ∧
    (∀ row : List Cell, row.length = columns.length →
      decodeRow drv (.struct nm sc fields) (getAddressIndex (.struct nm sc fields) columns) row =
        decodeRow drv (.struct nm sc fields)
          (getAddressIndex (.struct nm sc fields)
            (mappedOnly (getFieldList (.struct nm sc fields)) columns columns))
          (mappedOnly (getFieldList (.struct nm sc fields)) columns row)) ∧
    ((∀ column path, column ∈ columns →
        (column, path) ∈ getFieldList (.struct nm sc fields) → bindable fields path = true) →
      ∀ v : GoVal, WellTyped (.struct nm sc fields) v →
        ∃ v2 adders, getRowIndex (.struct nm sc fields) v
          (getAddressIndex (.struct nm sc fields) columns) = some (v2, adders)) := by
  have hk : ∀ (v : GoVal) (idx : List (List Nat)),
      getRowIndex (.struct nm sc fields) v idx =
        getRowIndex.loop (.struct nm sc fields) v idx := by
    intro v idx
    simp [getRowIndex, GoType.Kind]
  have h3 : ∀ v : GoVal,
      getRowIndex (.struct nm sc fields) v (getAddressIndex (.struct nm sc fields)
          (mappedOnly (getFieldList (.struct nm sc fields)) columns columns)) =
        (getRowIndex (.struct nm sc fields) v
          (getAddressIndex (.struct nm sc fields) columns)).map
          (fun r => (r.1, mappedOnly (getFieldList (.struct nm sc fields)) columns r.2)) := by
    intro v
    rw [hk, hk, getAddressIndex_mappedOnly]
    exact getRowIndex_loop_mappedOnly _ columns v
  refine ⟨?_, ?_, ?_, h3, ?_, ?_⟩
  · intro v v2 adders h
    exact getRowIndex_targets nm sc fields columns v v2 adders h
  · intro p lt h
    unfold wrapAddr at h
    split at h <;> cases h
  · intro c inst
    rfl
  · intro row hlen
    unfold decodeRow
    rw [h3]
    cases hg : getRowIndex (.struct nm sc fields) (zeroValue (.struct nm sc fields))
        (getAddressIndex (.struct nm sc fields) columns) with
    | none => rfl
    | some r =>
      obtain ⟨inst, adders⟩ := r
      have hF := getRowIndex_targets nm sc fields columns _ inst adders hg
      have hal : columns.length = adders.length := hF.length_eq
      have hF2 : List.Forall₂ (fun column tg =>
          (getFieldList (.struct nm sc fields)).get column = none → tg = Target.discard)
          columns adders := by
        refine hF.imp ?_
        intro column tg h hnone
        simpa [hnone] using h
      have hml := mappedOnly_length (getFieldList (.struct nm sc fields)) columns adders row
        (by omega)
      have hscan := scanLoop_mappedOnly drv (.struct nm sc fields)
        (getFieldList (.struct nm sc fields)) columns row adders inst hF2 hlen
      have e1 : ¬ adders.length ≠ row.length := by omega
      have e2 : ¬ (mappedOnly (getFieldList (.struct nm sc fields)) columns adders).length ≠
          (mappedOnly (getFieldList (.struct nm sc fields)) columns row).length := by omega
      simp only [Option.map_some', Rows.Scan, e1, e2, if_false, hscan]
  · intro hbind v hv
    have hidx : ∀ son ∈ getAddressIndex (.struct nm sc fields) columns, son ≠ [] →
        (∃ k, LeafPath fields son k) ∧ bindable fields son = true := by
      intro son hs hne
      obtain ⟨i, hi⟩ := List.mem_iff_getElem?.mp hs
      obtain ⟨column, hc, hm⟩ := getAddressIndex_getElem _ columns i son hi hne
      exact ⟨⟨column, getFieldList_leafPath (.struct nm sc fields) column son hm⟩,
        hbind column son (List.mem_iff_getElem?.mpr ⟨i, hc⟩) hm⟩
    obtain ⟨v2, adders, hloop⟩ := getRowIndex_loop_ok nm sc fields _ v hv hidx
    exact ⟨v2, adders, by rw [hk]; exact hloop⟩

/-- An instance of the frame of the binder: a row of the columns `junk`, `z`, `x`
into an `Outer` decodes as the row of the columns `z`, `x` does, and the binder gives the column `junk` a
Discard Target and the other two the addresses of their fields. -/
theorem binder_frame_witness :
    decodeRow demoDriver tOuter (getAddressIndex tOuter ["junk", "z", "x"])
        [some (.int 9), some (.int 5), some (.int 6)] =
      decodeRow demoDriver tOuter (getAddressIndex tOuter ["z", "x"])
        [some (.int 5), some (.int 6)] ∧
    List.Forall₂ (fun column tg =>
        match (getFieldList tOuter).get column with
        | some p => ∃ lt x, typeAt tOuter p = some lt ∧ tg = wrapAddr p lt ∧
            readAt tOuter (.struct [.zero, .struct [.zero, .ref (.struct [.zero])]]) p = some x
        | none => tg = Target.discard) ["junk", "z", "x"]
      [Target.discard, Target.null [1, 1, 0] tInt, Target.null [0] tInt] :=
  ⟨(binder_frame demoDriver "Outer" false [(fld "X" "x", tInt), (emb "Mid", tMid)]
      ["junk", "z", "x"]).2.2.2.2.1 [some (.int 9), some (.int 5), some (.int 6)] rfl,
   (binder_frame demoDriver "Outer" false [(fld "X" "x", tInt), (emb "Mid", tMid)]
      ["junk", "z", "x"]).1 (zeroValue tOuter)
      (.struct [.zero, .struct [.zero, .ref (.struct [.zero])]])
      [Target.discard, Target.null [1, 1, 0] tInt, Target.null [0] tInt] rfl⟩

/-! ## The field a column is bound to -/

/-- Only a struct has storage or a type beneath it. -/
theorem childType_struct (t : GoType) (n : Nat) (r : StructField × GoType)
    (h : childType t n = some r) : ∃ nm sc fields, t = .struct nm sc fields := by
  cases t with
  | struct nm sc fields => exact ⟨nm, sc, fields, rfl⟩
  | _ => simp [childType] at h

/-- The type the walk continues in beneath a field of declared type `ty`. -/
theorem childType_eq (nm : String) (sc : Bool) (fields : List (StructField × GoType))
    (n : Nat) (tf : StructField) (ty : GoType) (hf : fields[n]? = some (tf, ty)) :
    childType (.struct nm sc fields) n = some (tf, storageType ty) := by
  cases ty <;> simp [childType, hf, storageType]

/-- A struct entered through a field is the struct the field embeds. -/
theorem embeddedFields_of_storage (ty : GoType) (nm : String) (sc : Bool)
    (fs : List (StructField × GoType)) (h : storageType ty = .struct nm sc fs) :
    embeddedFields ty = fs := by
  cases ty with
  | ptr e =>
    simp only [storageType] at h
    subst h
    rfl
  | struct nm2 sc2 fs2 =>
    simp only [storageType, GoType.struct.injEq] at h
    simp [embeddedFields, h.2.2]
  | _ => simp [storageType] at h

/-- The storage at the path of a field has the storage type of the declared type
of the field. -/
theorem typeAt_fieldAt : ∀ (p : List Nat) (nm : String) (sc : Bool)
    (fields : List (StructField × GoType)) (tf : StructField) (ft lt : GoType),
    fieldAt fields p = some (tf, ft) → typeAt (.struct nm sc fields) p = some lt →
    lt = storageType ft
  | [], _, _, _, _, _, _, h, _ => by simp [fieldAt] at h
  | [n], nm, sc, fields, tf, ft, lt, h, ht => by
    simp only [fieldAt] at h
    simp only [typeAt, childType_eq nm sc fields n tf ft h, Option.some.injEq] at ht
    exact ht.symm
  | n :: m :: rest, nm, sc, fields, tf, ft, lt, h, ht => by
    simp only [fieldAt] at h
    cases hf : fields[n]? with
    | none => simp [hf] at h
    | some r =>
      obtain ⟨tf2, ty⟩ := r
      simp only [hf] at h
      simp only [typeAt, childType_eq nm sc fields n tf2 ty hf] at ht
      cases hc : childType (storageType ty) m with
      | none => simp [typeAt, hc] at ht
      | some r2 =>
        obtain ⟨nm2, sc2, fs2, hs⟩ := childType_struct _ m r2 hc
        rw [embeddedFields_of_storage ty nm2 sc2 fs2 hs] at h
        rw [hs] at ht
        exact typeAt_fieldAt (m :: rest) nm2 sc2 fs2 tf ft lt h ht

/-- The field a column is bound to, from the content of its storage: a pointer
field is a non-nil pointer to the storage. -/
theorem fieldValueAt_of_readAt : ∀ (p : List Nat) (nm : String) (sc : Bool)
    (fields : List (StructField × GoType)) (v : GoVal) (tf : StructField) (ft : GoType)
    (x : GoVal), fieldAt fields p = some (tf, ft) →
    readAt (.struct nm sc fields) v p = some x →
    fieldValueAt (.struct nm sc fields) v p = some (heldIn ft x)
  | [], _, _, _, _, _, _, _, h, _ => by simp [fieldAt] at h
  | [n], nm, sc, fields, v, tf, ft, x, h, hr => by
    simp only [fieldAt] at h
    cases v with
    | struct vals =>
      simp only [readAt, child, h] at hr
      simp only [fieldValueAt]
      cases ft with
      | ptr e =>
        cases hv : vals[n]? with
        | none => simp [hv] at hr
        | some fv =>
          cases fv <;> simp [hv, readAt] at hr
          simp [heldIn, hr]
      | basic a b =>
        cases hv : vals[n]? with
        | none => simp [hv] at hr
        | some fv =>
          simp [hv, readAt] at hr
          simp [heldIn, hr]
      | slice a b =>
        cases hv : vals[n]? with
        | none => simp [hv] at hr
        | some fv =>
          simp [hv, readAt] at hr
          simp [heldIn, hr]
      | struct a b c =>
        cases hv : vals[n]? with
        | none => simp [hv] at hr
        | some fv =>
          simp [hv, readAt] at hr
          simp [heldIn, hr]
    | _ => simp [readAt, child] at hr
  | n :: m :: rest, nm, sc, fields, v, tf, ft, x, h, hr => by
    simp only [fieldAt] at h
    cases hf : fields[n]? with
    | none => simp [hf] at h
    | some r =>
      obtain ⟨tf2, ty⟩ := r
      simp only [hf] at h
      simp only [readAt] at hr
      simp only [fieldValueAt]
      cases hch : child (.struct nm sc fields) v n with
      | none => simp [hch] at hr
      | some r2 =>
        obtain ⟨tf3, ct, o⟩ := r2
        cases o with
        | none => simp [hch] at hr
        | some cv =>
          simp only [hch] at hr ⊢
          have hct := child_childType _ v n tf3 ct _ hch
          rw [childType_eq nm sc fields n tf2 ty hf] at hct
          simp only [Option.some.injEq, Prod.mk.injEq] at hct
          obtain ⟨_, hct⟩ := hct
          cases hc : child ct cv m with
          | none => simp [readAt, hc] at hr
          | some r3 =>
            obtain ⟨tf4, ct4, o4⟩ := r3
            have hc2 := child_childType ct cv m tf4 ct4 o4 hc
            obtain ⟨nm2, sc2, fs2, hs⟩ := childType_struct _ m _ hc2
            rw [← hct] at hs
            rw [embeddedFields_of_storage ty nm2 sc2 fs2 hs] at h
            rw [← hct, hs] at hr ⊢
            exact fieldValueAt_of_readAt (m :: rest) nm2 sc2 fs2 cv tf ft x h hr

/-- A field that is a leaf in the words of the spec and not an embedded timestamp
is recorded by the code. -/
theorem recursed_of_specLeaf (tf : StructField) (ty : GoType) (h : specLeaf tf ty = true)
    (ht : (tf.Anonymous && isTimestamp ty) = false) : recursed tf ty = false := by
  cases ty with
  | ptr e =>
    cases e <;> cases ha : tf.Anonymous <;>
      simp_all [recursed, GoType.Kind, isComposite, specLeaf, isTimestamp]
  | struct nm sc fs =>
    cases ha : tf.Anonymous <;> simp_all [recursed, isComposite, specLeaf, isTimestamp]
  | _ => rfl

/-- An embedded composite field that is not a timestamp is entered by the code. -/
theorem recursed_of_composite (tf : StructField) (ty : GoType) (ha : tf.Anonymous = true)
    (hc : isComposite ty = true) (ht : (tf.Anonymous && isTimestamp ty) = false) :
    recursed tf ty = true := by
  cases ty with
  | ptr e => cases e <;> simp_all [recursed, GoType.Kind, isComposite, isTimestamp]
  | struct nm sc fs => simp_all [recursed, isComposite, isTimestamp]
  | _ => simp [isComposite] at hc

/-- A leaf path in the words of the spec that meets no embedded timestamp is a
path the code can record. -/
theorem SpecPath.toLeaf : ∀ (p : List Nat) (all : List (StructField × GoType)) (k : String)
    (d : Nat), SpecPath all p k d → throughTime all p = false → LeafPath all p k
  | [], _, _, _, h, _ => by simp [SpecPath] at h
  | [n], all, k, d, h, ht => by
    obtain ⟨_, tf, ty, hf, hl, hk⟩ := h
    simp only [throughTime, hf, Bool.or_false] at ht
    refine ⟨tf, ty, hf, Or.inr ⟨recursed_of_specLeaf tf ty hl ht, rfl, ?_⟩⟩
    rw [columnOf_eq_specColumn]
    exact hk
  | n :: m :: rest, all, k, d, h, ht => by
    obtain ⟨tf, ty, hf, ha, hc, d2, _, hs⟩ := h
    simp only [throughTime, hf, Bool.or_eq_false_iff] at ht
    exact ⟨tf, ty, hf, Or.inl ⟨recursed_of_composite tf ty ha hc ht.1,
      SpecPath.toLeaf (m :: rest) _ k d2 hs ht.2⟩⟩

/-- The depth of a leaf path in the words of the spec is the length of the
path. -/
theorem SpecPath.depth : ∀ (p : List Nat) (all : List (StructField × GoType)) (k : String)
    (d : Nat), SpecPath all p k d → d = p.length
  | [], _, _, _, h => by simp [SpecPath] at h
  | [n], _, _, _, h => h.1
  | n :: m :: rest, all, k, d, h => by
    obtain ⟨tf, ty, _, _, _, d2, hd, hs⟩ := h
    have := SpecPath.depth (m :: rest) _ k d2 hs
    simp only [List.length_cons] at this ⊢
    omega

/-! ## The paths of the resolver: C2 -/

/-- C2, counterexample: in `Shadow` the leaf `Z` lies two embedding levels deep, at
the path `[0, 1, 0]` of length 3, and its column name is `z`; the map of
`getFieldList` holds no entry for that path: the name `z` leads to the field `W`
of the root, which is visited later and has the same column name. -/
theorem getFieldList_path_counterexample :
    SpecPath [(emb "Mid", tMid), (fld "W" "z", tInt)] [0, 1, 0] "z" 3 ∧
    throughTime [(emb "Mid", tMid), (fld "W" "z", tInt)] [0, 1, 0] = false ∧
    getFieldList tShadow = [("Y", [0, 0]), ("z", [1])] ∧
    (getFieldList tShadow).get "z" = some [1] ∧
    (("z", [0, 1, 0]) : String × List Nat) ∉ getFieldList tShadow := by
  refine ⟨?_, by decide, by decide, by decide, by decide⟩
  exact ⟨emb "Mid", tMid, rfl, rfl, rfl, 2, rfl,
    ⟨emb "Inner", .ptr tInner, rfl, rfl, rfl, 1, rfl,
      ⟨rfl, fld "Z" "z,omitempty", tInt, rfl, rfl, by decide⟩⟩⟩

/-- C2, as amended: for a struct type, every entry `name -> path` of the map
`getFieldList` returns is the path of a leaf in the words of the spec (its indices
lead from the root through embedded structs, held by value or through a pointer,
down to a leaf field whose column name is `name`) and the length of the path is
the nesting depth of the leaf; a leaf the code records, at whatever depth, is
the entry of its column name exactly when every recorded leaf of that column
name is that leaf or is visited before it in depth-first declaration order, and
otherwise its name leads to a leaf visited later; the depth of a leaf path in
the words of the spec is its length, and such a path is one the code records
unless it meets an embedded timestamp-like field. -/
theorem getFieldList_path (nm : String) (sc : Bool) (fields : List (StructField × GoType)) :
    (∀ (name : String) (path : List Nat),
      (name, path) ∈ getFieldList (.struct nm sc fields) →
      SpecPath fields path name path.length) ∧
    (∀ (name : String) (path : List Nat), LeafPath fields path name →
      ((name, path) ∈ getFieldList (.struct nm sc fields) ↔
        ∀ q, LeafPath fields q name → q = path ∨ visitedBefore q path)) ∧
    (∀ (name : String) (path : List Nat), LeafPath fields path name →
      ∃ p, (name, p) ∈ getFieldList (.struct nm sc fields) ∧
        (p = path ∨ visitedBefore path p)) ∧
    (∀ (name : String) (path : List Nat) (d : Nat), SpecPath fields path name d →
      d = path.length ∧ (throughTime fields path = false → LeafPath fields path name)) := by
  have hres := getFieldList_f_resolves (.struct nm sc fields) [] []
  have hiff : ∀ (k : String) (p : List Nat), (k, p) ∈ getFieldList (.struct nm sc fields) ↔
      LeafPath fields p k ∧ ∀ q, LeafPath fields q k → q = p ∨ visitedBefore q p := by
    intro k p
    have := (hres k).2 p
    simp only [List.nil_append, List.not_mem_nil, false_and, or_false, exists_eq_left',
      rootFields] at this
    exact this
  refine ⟨?_, ?_, ?_, ?_⟩
  · intro name path h
    exact LeafPath.toSpec path fields name
      (getFieldList_leafPath (.struct nm sc fields) name path h)
  · intro name path hl
    rw [hiff]
    exact ⟨fun h => h.2, fun h => ⟨hl, h⟩⟩
  · intro name path hl
    obtain ⟨p, hp⟩ := (hres name).1 (Or.inr ⟨path, by simpa [rootFields] using hl⟩)
    refine ⟨p, hp, ?_⟩
    rcases ((hiff name p).mp hp).2 path hl with h | h
    · exact Or.inl h.symm
    · exact Or.inr h
  · intro name path d hs
    exact ⟨SpecPath.depth path fields name d hs, SpecPath.toLeaf path fields name d hs⟩

/-- C2, witness: in `Outer`, the leaf `Z` of `*Inner` embedded in `Mid` embedded in
`Outer` is recorded under its own column name `z` with a path of length 3. -/
theorem getFieldList_path_witness :
    (("z", [1, 1, 0]) : String × List Nat) ∈ getFieldList tOuter ∧
    SpecPath [(fld "X" "x", tInt), (emb "Mid", tMid)] [1, 1, 0] "z" 3 :=
  ⟨by decide,
    (getFieldList_path "Outer" false [(fld "X" "x", tInt), (emb "Mid", tMid)]).1 "z" [1, 1, 0]
      (by decide)⟩

/-! ## NULL and the declared type of the field: C15 -/

/-- C15, counterexample: in `Opt` the field `Q` has the declared type `*int`,
which has no `Scan` of its own, and is mapped under the column `Q`; the row whose
cell for `Q` is NULL decodes without error, and the field is then a non-nil
pointer to a zero `int`, not the zero value `nil` of its declared type. -/
theorem decodeRow_null_counterexample :
    getFieldList tOpt = [("Q", [0])] ∧
    fieldAt [(fld "Q" "", GoType.ptr tInt)] [0] = some (fld "Q" "", .ptr tInt) ∧
    (GoType.ptr tInt).isScanner = false ∧ (GoType.ptr (.ptr tInt)).isScanner = false ∧
    decodeRow demoDriver tOpt (getAddressIndex tOpt ["Q"]) [none] =
      .ok (.struct [.ref .zero]) ∧
    fieldValueAt tOpt (.struct [.ref .zero]) [0] = some (.ref .zero) ∧
    zeroValue (.ptr tInt) = .nil ∧
    GoVal.ref .zero ≠ GoVal.nil := by
  refine ⟨by decide, rfl, rfl, rfl, rfl, rfl, rfl, ?_⟩
  intro h
  cases h

/-- C15, as amended: for a struct entity, a result column that is a key of the
map of `getFieldList` and whose storage has a type without its own `Scan`, and a
row whose cell for that column is NULL: the NULL cell does not make the scan
fail, whatever the driver; the storage is that of the field the path selects,
the pointee for a field of pointer type; in every decoded instance (column names
distinct) the storage holds the zero value of its type, so that a field that is
not a pointer holds the zero value of its declared type and a field of pointer
type is a non-nil pointer to the zero value of its pointee type; and the row
does decode when it has one cell per column, the paths of the result columns are
bindable and no other cell fails to convert. -/
theorem decodeRow_null (drv : Driver) (nm : String) (sc : Bool)
    (fields : List (StructField × GoType)) (columns : List String) (row : List Cell)
    (i : Nat) (column : String) (path : List Nat) (lt : GoType)
    (hcol : columns[i]? = some column)
    (hm : (column, path) ∈ getFieldList (.struct nm sc fields))
    (hty : typeAt (.struct nm sc fields) path = some lt) (hns : lt.scanner = false)
    (hnull : row[i]? = some none) :
    cellEffect drv lt none = .keep ∧
    (∃ tf ft, fieldAt fields path = some (tf, ft) ∧ columnOf tf = column ∧
      lt = storageType ft) ∧
    (columns.Nodup → ∀ inst, decodeRow drv (.struct nm sc fields)
        (getAddressIndex (.struct nm sc fields) columns) row = .ok inst →
      readAt (.struct nm sc fields) inst path = some (zeroValue lt) ∧
      ∀ tf ft, fieldAt fields path = some (tf, ft) →
        fieldValueAt (.struct nm sc fields) inst path =
          some (heldIn ft (zeroValue (storageType ft))) ∧
        ((∀ e, ft ≠ .ptr e) →
          fieldValueAt (.struct nm sc fields) inst path = some (zeroValue ft)) ∧
        (∀ e, ft = .ptr e →
          fieldValueAt (.struct nm sc fields) inst path = some (.ref (zeroValue e)))) ∧
    (row.length = columns.length →
      (∀ column2 path2, column2 ∈ columns →
        (column2, path2) ∈ getFieldList (.struct nm sc fields) → bindable fields path2 = true) →
      (∀ (j : Nat) (column2 : String) (path2 : List Nat) (lt2 : GoType) (c : Cell), j ≠ i →
        columns[j]? = some column2 → (column2, path2) ∈ getFieldList (.struct nm sc fields) →
        typeAt (.struct nm sc fields) path2 = some lt2 → row[j]? = some c →
        cellEffect drv lt2 c ≠ .fail) →
      ∃ inst, decodeRow drv (.struct nm sc fields)
        (getAddressIndex (.struct nm sc fields) columns) row = .ok inst) := by
  have hkeep : cellEffect drv lt none = .keep := by
    simp [cellEffect, GoType.isScanner, hns, NullData.Scan]
  obtain ⟨tf0, ft0, hf0, hk0, _⟩ := LeafPath.fieldAt path fields column
    (getFieldList_leafPath (.struct nm sc fields) column path hm)
  have hst : ∀ tf ft, fieldAt fields path = some (tf, ft) → lt = storageType ft :=
    fun tf ft hf => typeAt_fieldAt path nm sc fields tf ft lt hf hty
  have hread : columns.Nodup → ∀ inst, decodeRow drv (.struct nm sc fields)
        (getAddressIndex (.struct nm sc fields) columns) row = .ok inst →
      readAt (.struct nm sc fields) inst path = some (zeroValue lt) := by
    intro hnd inst hdec
    obtain ⟨_, _, hF⟩ := decodeRow_struct drv nm sc fields _ row inst hdec
    have hpw := getAddressIndex_pairwise (.struct nm sc fields) columns hnd
    have hadd : (getAddressIndex (.struct nm sc fields) columns)[i]? = some path := by
      have hg := (getFieldList_get_iff (.struct nm sc fields) column path).mpr hm
      simp [getAddressIndex, hcol, hg]
    have hzip : (path, (none : Cell)) ∈
        (getAddressIndex (.struct nm sc fields) columns).zip row := by
      apply List.mem_iff_getElem?.mpr
      exact ⟨i, by simp [List.getElem?_zip_eq_some, hadd, hnull]⟩
    have hne : path ≠ [] := by
      intro h0
      subst h0
      have := getFieldList_leafPath (.struct nm sc fields) column [] hm
      simp [LeafPath] at this
    obtain ⟨lt2, h1, h2, _⟩ := hF hpw path none hzip hne
    rw [hty] at h1
    simp only [Option.some.injEq] at h1
    subst h1
    rw [h2, hkeep]
    rfl
  refine ⟨hkeep, ⟨tf0, ft0, hf0, hk0, hst tf0 ft0 hf0⟩, ?_, ?_⟩
  · intro hnd inst hdec
    have hr := hread hnd inst hdec
    refine ⟨hr, ?_⟩
    intro tf ft hf
    have hfv := fieldValueAt_of_readAt path nm sc fields inst tf ft _ hf hr
    rw [hst tf ft hf] at hfv
    refine ⟨hfv, ?_, ?_⟩
    · intro hnp
      rw [hfv]
      cases ft with
      | ptr e => exact absurd rfl (hnp e)
      | _ => rfl
    · intro e he
      rw [hfv, he]
      rfl
  · intro hlen hbind hconv
    apply decodeRow_ok drv nm sc fields columns row hlen hbind
    intro j column2 path2 lt2 c hj hm2 hty2 hrow
    by_cases hji : j = i
    · subst hji
      rw [hcol] at hj
      rw [hnull] at hrow
      simp only [Option.some.injEq] at hj hrow
      subst hj hrow
      have := getFieldList_path_unique _ column path path2 hm hm2
      subst this
      rw [hty] at hty2
      simp only [Option.some.injEq] at hty2
      subst hty2
      rw [hkeep]
      intro h
      cases h
    · exact hconv j column2 path2 lt2 c hji hj hm2 hty2 hrow

/-- C15, witness: in `Outer` the column `Y` of an `int` field holds NULL: the row
decodes and `Y` is zero; in `Opt` the column `Q` of a `*int` field holds NULL: the
field is a non-nil pointer to a zero `int`. -/
theorem decodeRow_null_witness :
    cellEffect demoDriver tInt none = .keep ∧
    readAt tOuter (.struct [.data (.int 6), .struct [.zero, .ref (.struct [.data (.int 5)])]])
      [1, 0] = some (zeroValue tInt) ∧
    fieldValueAt tOuter
      (.struct [.data (.int 6), .struct [.zero, .ref (.struct [.data (.int 5)])]])
      [1, 0] = some (zeroValue tInt) ∧
    fieldValueAt tOpt (.struct [.ref .zero]) [0] = some (.ref (zeroValue tInt)) :=
  ⟨(decodeRow_null demoDriver "Outer" false [(fld "X" "x", tInt), (emb "Mid", tMid)]
      ["z", "x", "Y"] [some (.int 5), some (.int 6), none] 2 "Y" [1, 0] tInt rfl (by decide)
      rfl rfl rfl).1,
    ((decodeRow_null demoDriver "Outer" false [(fld "X" "x", tInt), (emb "Mid", tMid)]
      ["z", "x", "Y"] [some (.int 5), some (.int 6), none] 2 "Y" [1, 0] tInt rfl (by decide)
      rfl rfl rfl).2.2.1 (by decide)
      (.struct [.data (.int 6), .struct [.zero, .ref (.struct [.data (.int 5)])]]) rfl).1,
    (((decodeRow_null demoDriver "Outer" false [(fld "X" "x", tInt), (emb "Mid", tMid)]
      ["z", "x", "Y"] [some (.int 5), some (.int 6), none] 2 "Y" [1, 0] tInt rfl (by decide)
      rfl rfl rfl).2.2.1 (by decide)
      (.struct [.data (.int 6), .struct [.zero, .ref (.struct [.data (.int 5)])]]) rfl).2
      (fld "Y" "") tInt rfl).2.1 (by intro e h; cases h),
    (((decodeRow_null demoDriver "Opt" false [(fld "Q" "", .ptr tInt)] ["Q"] [none] 0 "Q" [0]
      tInt rfl (by decide) rfl rfl rfl).2.2.1 (by decide) (.struct [.ref .zero]) rfl).2
      (fld "Q" "") (.ptr tInt) rfl).2.2 tInt rfl⟩

/-! ## One row into a struct: C1 -/

/-- C1, as amended: for a struct entity type, a destination whose pointers can be
followed and a one-row result with distinct column names and one cell per
column, when every path recorded under a result column is bindable (its leaf and
the pointer fields on the way are exported) and no cell fails to convert for the
storage of its column, `rowsModel` returns no error and the destination holds an
instance in which, for every result column that is a key of the map of
`getFieldList`, the storage of the field at the path recorded under that key
holds what the cell of that column stored into fresh storage of its type (the
converted value, or the zero value of the storage for a NULL into a type without
its own `Scan`); the storage is the field itself, and for a field of pointer type
the pointee, the field being then a non-nil pointer to that content.  The storage
of every other leaf field, where there is any, holds the zero value: that of a
leaf whose column is not in the result, and that of a leaf whose column name the
map records with the path of another field. -/
theorem rowsModel_struct_row (drv : Driver) (rows : Rows) (t0 : GoType) (v0 : GoVal)
    (nm : String) (sc : Bool) (fields : List (StructField × GoType)) (v : GoVal) (b : Bool)
    (columns : List String) (row : List Cell)
    (ht : t0.Kind = .Ptr) (hd : derefDest t0 v0 false = some (.struct nm sc fields, v, b))
    (hc : rows.columns = .ok columns) (hp : rows.pending = [row]) (hnd : columns.Nodup)
    (hlen : row.length = columns.length)
    (hbind : ∀ column path, column ∈ columns →
      (column, path) ∈ getFieldList (.struct nm sc fields) → bindable fields path = true)
    (hconv : ∀ (i : Nat) (column : String) (path : List Nat) (lt : GoType) (c : Cell),
      columns[i]? = some column → (column, path) ∈ getFieldList (.struct nm sc fields) →
      typeAt (.struct nm sc fields) path = some lt → row[i]? = some c →
      cellEffect drv lt c ≠ .fail) :
    (rowsModel drv rows [(t0, v0)]).res = .ret .nil ∧
    ∃ inst, (rowsModel drv rows [(t0, v0)]).dests = [setDest t0 v0 inst] ∧
      derefDest t0 (setDest t0 v0 inst) false = some (.struct nm sc fields, inst, b) ∧
      (∀ (i : Nat) (column : String) (path : List Nat), columns[i]? = some column →
        (column, path) ∈ getFieldList (.struct nm sc fields) →
        ∃ tf ft c y, fieldAt fields path = some (tf, ft) ∧ columnOf tf = column ∧
          typeAt (.struct nm sc fields) path = some (storageType ft) ∧
          row[i]? = some c ∧
          fieldAfter (storageType ft) (cellEffect drv (storageType ft) c) = some y ∧
          readAt (.struct nm sc fields) inst path = some y ∧
          fieldValueAt (.struct nm sc fields) inst path = some (heldIn ft y)) ∧
      (∀ (q : List Nat) (k : String), LeafPath fields q k →
        (k ∉ columns ∨ (k, q) ∉ getFieldList (.struct nm sc fields)) →
        ZeroAt (.struct nm sc fields) inst q) := by
  obtain ⟨inst, hdec⟩ := decodeRow_ok drv nm sc fields columns row hlen hbind hconv
  obtain ⟨h1, h2, h3, h4⟩ := rowsModel_struct_decoded drv rows t0 v0 nm sc fields v b columns
    row inst ht hd hc hp hnd hdec
  refine ⟨h1, inst, h2, h3, ?_, ?_⟩
  · intro i column path hi hm
    obtain ⟨lt, c, g1, g2, g3, g4⟩ := h4 i column path hi hm
    obtain ⟨tf, ft, hf, hk, _⟩ := LeafPath.fieldAt path fields column
      (getFieldList_leafPath (.struct nm sc fields) column path hm)
    have hlt := typeAt_fieldAt path nm sc fields tf ft lt hf g1
    subst hlt
    cases he : cellEffect drv (storageType ft) c with
    | fail => exact absurd he g4
    | keep =>
      have hr : readAt (.struct nm sc fields) inst path = some (zeroValue (storageType ft)) := by
        rw [g3, he]
        rfl
      exact ⟨tf, ft, c, zeroValue (storageType ft), hf, hk, g1, g2, by rw [he]; rfl, hr,
        fieldValueAt_of_readAt path nm sc fields inst tf ft _ hf hr⟩
    | store x =>
      have hr : readAt (.struct nm sc fields) inst path = some x := by
        rw [g3, he]
        rfl
      exact ⟨tf, ft, c, x, hf, hk, g1, g2, by rw [he]; rfl, hr,
        fieldValueAt_of_readAt path nm sc fields inst tf ft _ hf hr⟩
  · intro q k hq hor
    obtain ⟨_, hZ, _⟩ := decodeRow_struct drv nm sc fields _ row inst hdec
    apply hZ q
    intro son hs hne
    obtain ⟨i, hi⟩ := List.mem_iff_getElem?.mp hs
    obtain ⟨column, hcol, hm⟩ := getAddressIndex_getElem _ columns i son hi hne
    have hson := getFieldList_leafPath (.struct nm sc fields) column son hm
    have hmem : column ∈ columns := List.mem_iff_getElem?.mpr ⟨i, hcol⟩
    have key : son = q → k = column → False := by
      intro e1 e2
      subst e1 e2
      rcases hor with h | h
      · exact h hmem
      · exact h hm
    constructor
    · intro hpre
      obtain ⟨e1, e2⟩ := LeafPath.antichain son q fields column k hson hq hpre
      exact key e1 e2.symm
    · intro hpre
      obtain ⟨e1, e2⟩ := LeafPath.antichain q son fields k column hq hson hpre
      exact key e1.symm e2

/-- C1, witness: one row with the columns `z`, `x`, `Y` into an `Outer`, whose
fields are exported and whose cells convert: the call succeeds. -/
theorem rowsModel_struct_row_witness :
    (rowsModel demoDriver (cursor ["z", "x", "Y"] [[some (.int 5), some (.int 6), none]])
      [(.ptr tOuter, .ref (zeroValue tOuter))]).res = .ret .nil :=
  (rowsModel_struct_row demoDriver
    (cursor ["z", "x", "Y"] [[some (.int 5), some (.int 6), none]])
    (.ptr tOuter) (.ref (zeroValue tOuter)) "Outer" false
    [(fld "X" "x", tInt), (emb "Mid", tMid)] (zeroValue tOuter) true ["z", "x", "Y"]
    [some (.int 5), some (.int 6), none] rfl rfl rfl rfl (by decide) rfl
    (by
      intro column path _ hm
      have hmap : getFieldList (.struct "Outer" false [(fld "X" "x", tInt), (emb "Mid", tMid)]) =
          [("x", [0]), ("Y", [1, 0]), ("z", [1, 1, 0])] := getFieldList_tOuter
      rw [hmap] at hm
      simp only [List.mem_cons, Prod.mk.injEq, List.mem_singleton, List.not_mem_nil,
        or_false] at hm
      rcases hm with ⟨_, rfl⟩ | ⟨_, rfl⟩ | ⟨_, rfl⟩ <;> rfl)
    (by
      intro i column path lt c hi hm hty hrow
      have hmap : getFieldList (.struct "Outer" false [(fld "X" "x", tInt), (emb "Mid", tMid)]) =
          [("x", [0]), ("Y", [1, 0]), ("z", [1, 1, 0])] := getFieldList_tOuter
      rw [hmap] at hm
      simp only [List.mem_cons, Prod.mk.injEq, List.mem_singleton, List.not_mem_nil,
        or_false] at hm
      have hlt : lt = tInt := by
        rcases hm with ⟨_, rfl⟩ | ⟨_, rfl⟩ | ⟨_, rfl⟩ <;>
          · have h2 : some tInt = some lt := hty
            exact (Option.some.inj h2).symm
      subst hlt
      match i, hrow with
      | 0, hrow =>
        have : c = some (.int 5) := (Option.some.inj hrow).symm
        subst this
        intro h
        cases h
      | 1, hrow =>
        have : c = some (.int 6) := (Option.some.inj hrow).symm
        subst this
        intro h
        cases h
      | 2, hrow =>
        have : c = none := (Option.some.inj hrow).symm
        subst this
        intro h
        cases h
      | n + 3, hrow => cases hrow)).1

/-! ## The binder on unexported fields: C11, C14 -/

/-- C11: on `Priv`, whose only field `a` is unexported, and the result columns
`junk`, `a`, the column `a` is a key of the map and `junk` is not, and the
binder binds neither: `getRowIndex` panics, and so does `rowsModel` on a row of
these columns, where an exported field of the same type is bound. -/
theorem getRowIndex_unexported_leaf :
    (getFieldList tPriv).get "a" = some [0] ∧
    (getFieldList tPriv).get "junk" = none ∧
    getAddressIndex tPriv ["junk", "a"] = [[], [0]] ∧
    getRowIndex tPriv (zeroValue tPriv) (getAddressIndex tPriv ["junk", "a"]) = none ∧
    (rowsModel demoDriver (cursor ["junk", "a"] [[some (.int 9), some (.int 5)]])
      [(.ptr tPriv, .ref (zeroValue tPriv))]).res = .panic ∧
    (getRowIndex (.struct "Pub" false [(fld "A" "a", tInt)])
        (zeroValue (.struct "Pub" false [(fld "A" "a", tInt)]))
        (getAddressIndex (.struct "Pub" false [(fld "A" "a", tInt)]) ["junk", "a"])).isSome
      = true := by
  refine ⟨by decide, by decide, by decide, rfl, rfl, rfl⟩

/-- C14: on `Holder`, whose embedded pointer `*inner` is unexported, the column
`X` is mapped to the path through that pointer; the walk of the binder on a fresh
instance meets the nil pointer and panics at `Set` without allocating it, so
`getRowIndex` and `rowsModel` panic, where the exported embedded pointer of
`Pair` is allocated. -/
theorem walk_unexported_pointer :
    getFieldList tHolder = [("X", [0, 0])] ∧
    child tHolder (zeroValue tHolder) 0 =
      some (⟨"inner", "", true, false⟩, .struct "inner" false [(fld "X" "", tInt)], none) ∧
    walk tHolder (zeroValue tHolder) [0, 0] ⟨false, false⟩ = none ∧
    getRowIndex tHolder (zeroValue tHolder) (getAddressIndex tHolder ["X"]) = none ∧
    (rowsModel demoDriver (cursor ["X"] [[some (.int 5)]])
      [(.ptr tHolder, .ref (zeroValue tHolder))]).res = .panic ∧
    (walk tPair (zeroValue tPair) [0, 0] ⟨false, false⟩).isSome = true := by
  refine ⟨by decide, rfl, rfl, rfl, rfl, rfl⟩

end Mysql
